import Mathlib

/-!
# Blog-website: slug utility and post lifecycle

A shallow embedding of `src/src/utils/slugify.js`, the `Post` schema of
`src/src/models/Post.js` and the request handlers of `src/server.js`
(duplicated in `src/src/pages/api/posts/`).

JavaScript strings are sequences of UTF-16 code units; `length`, `substring`
and regular expressions without the `u` flag all work on code units, so a
string is embedded as the list of its code units.
-/

namespace Blog

/-- A JavaScript string: the list of its UTF-16 code units. -/
abbrev JSString := List Nat

/-- UTF-16 encoding of one Unicode scalar value. -/
def utf16 (c : Char) : List Nat :=
  if c.toNat < 65536 then [c.toNat]
  else [55296 + (c.toNat - 65536) / 1024, 56320 + (c.toNat - 65536) % 1024]

/-- The JavaScript string written as the literal `s`. -/
def js (s : String) : JSString :=
  s.toList.flatMap utf16

/-- Code unit of `-`. -/
abbrev hyphen : Nat := 45

/-- Code unit of the space character. -/
abbrev space : Nat := 32

/-- The class `\s` of a JavaScript regular expression, which is also the set
of code units removed by `String.prototype.trim`: WhiteSpace and
LineTerminator of ECMA-262. -/
def isWhitespace (c : Nat) : Bool :=
  (9 ≤ c && c ≤ 13) || c == 32 || c == 160 || c == 5760 ||
  (8192 ≤ c && c ≤ 8202) || c == 8232 || c == 8233 || c == 8239 ||
  c == 8287 || c == 12288 || c == 65279

/-- The class `[a-z0-9-]`. -/
def isSlugChar (c : Nat) : Bool :=
  (97 ≤ c && c ≤ 122) || (48 ≤ c && c ≤ 57) || c == hyphen

/-- `String.prototype.trim`. -/
def trim (s : JSString) : JSString :=
  (s.dropWhile isWhitespace).rdropWhile isWhitespace

/-- `s.replace(/X+/g, r)` for a one-code-unit class `X` given by `p`: every
maximal run of code units in the class is replaced by the single unit `r`
(emitted when the last unit of the run is read). -/
def collapseRuns (p : Nat → Bool) (r : Nat) : JSString → JSString
  | [] => []
  | [c] => if p c then [r] else [c]
  | c :: d :: cs =>
    if p c then
      if p d then collapseRuns p r (d :: cs) else r :: collapseRuns p r (d :: cs)
    else c :: collapseRuns p r (d :: cs)

/-- `.replace(/[^a-z0-9\s-]/g, '')`. -/
def removeSpecial (s : JSString) : JSString :=
  s.filter (fun c => isSlugChar c || isWhitespace c)

/-- `.replace(/\s+/g, ' ')`. -/
def collapseWhitespace (s : JSString) : JSString :=
  collapseRuns isWhitespace space s

/-- `.replace(/\s/g, '-')`. -/
def spacesToHyphens (s : JSString) : JSString :=
  s.map (fun c => if isWhitespace c then hyphen else c)

/-- The replacement of the pattern `-+` (global) by `'-'`. -/
def collapseHyphens (s : JSString) : JSString :=
  collapseRuns (fun c => c == hyphen) hyphen s

/-- `.replace(/^-+|-+$/g, '')`: without the `m` flag `^` and `$` match only at
the two ends of the string, so the leading run and the trailing run of hyphens
are removed. -/
def stripHyphens (s : JSString) : JSString :=
  (s.dropWhile (fun c => c == hyphen)).rdropWhile (fun c => c == hyphen)

/-- `slugify` of `src/src/utils/slugify.js`. `toLowerCase` is
`String.prototype.toLowerCase` of the JavaScript runtime, taken as a
parameter. -/
def slugify (toLowerCase : JSString → JSString) (title : JSString) : JSString :=
  if title = [] then []
  else
    stripHyphens (collapseHyphens (spacesToHyphens (collapseWhitespace
      (removeSpecial (trim (toLowerCase title))))))

/-- `isValidSlug` of `src/src/utils/slugify.js`: the test of `/^[a-z0-9-]+$/`
on a non-empty string. -/
def isValidSlug (slug : JSString) : Bool :=
  if slug = [] then false
  else slug.all isSlugChar

/-- The ASCII part of `String.prototype.toLowerCase`: `A`-`Z` are mapped to
`a`-`z`, every other code unit below 128 is unchanged. Code units from 128 on
are left alone here; the runtime function agrees with this one on every string
of code units below 128. -/
def asciiLowerCase (s : JSString) : JSString :=
  s.map (fun c => if 65 ≤ c && c ≤ 90 then c + 32 else c)

/-- What this development assumes of `String.prototype.toLowerCase`: on a
string of code units below 128 it is the ASCII lower-casing, and a suffix that
starts with `-` and continues with decimal digits or hyphens (neither cased nor
case-ignorable, so it changes no casing context) is left in place. -/
structure LowerCaseLaws (toLowerCase : JSString → JSString) : Prop where
  ascii : ∀ s : JSString, (∀ c ∈ s, c < 128) → toLowerCase s = asciiLowerCase s
  suffix : ∀ s t : JSString, (∀ c ∈ t, (48 ≤ c ∧ c ≤ 57) ∨ c = hyphen) →
    toLowerCase (s ++ hyphen :: t) = toLowerCase s ++ hyphen :: t

/-- Decimal digits of `n`, least significant first, as code units. -/
def decimalAux : Nat → Nat → List Nat
  | 0, _ => []
  | fuel + 1, n =>
    if n < 10 then [48 + n] else (48 + n % 10) :: decimalAux fuel (n / 10)

/-- The string a template literal produces for the non-negative integer `n`
(`Number::toString`, plain decimal below `10^21`). -/
def decimal (n : Nat) : JSString :=
  (decimalAux (n + 1) n).reverse

/-- The candidate built by the template literal of the probing loops, the
slug followed by `-` and the counter. -/
def suffixed (slug : JSString) (counter : Nat) : JSString :=
  slug ++ hyphen :: decimal counter

/-- The `while` loop of `generateUniqueSlug`, started with the given values of
`counter` and `uniqueSlug`; `fuel` bounds the number of tests of the loop
condition, and `none` is returned when it is used up. -/
def uniqueSlugLoop (existingSlugs : List JSString) (slug : JSString) :
    Nat → Nat → JSString → Option JSString
  | 0, _, _ => none
  | fuel + 1, counter, uniqueSlug =>
    if uniqueSlug ∈ existingSlugs then
      uniqueSlugLoop existingSlugs slug fuel (counter + 1) (suffixed slug counter)
    else some uniqueSlug

/-- `generateUniqueSlug` of `src/src/utils/slugify.js`. -/
def generateUniqueSlug (toLowerCase : JSString → JSString) (fuel : Nat)
    (title : JSString) (existingSlugs : List JSString) : Option JSString :=
  uniqueSlugLoop existingSlugs (slugify toLowerCase title) fuel 1
    (slugify toLowerCase title)

/-- Scanner for the replacement of `<[^>]*>` (global) by the empty string.
Outside a tag (`false`) a `<` opens a match exactly when a `>` follows
somewhere; inside (`true`) everything up to and including the first `>` is
dropped. -/
def stripTagsFrom : Bool → JSString → JSString
  | _, [] => []
  | true, c :: cs => if c = 62 then stripTagsFrom false cs else stripTagsFrom true cs
  | false, c :: cs =>
    if c = 60 ∧ 62 ∈ cs then stripTagsFrom true cs else c :: stripTagsFrom false cs

/-- `.replace(/<[^>]*>/g, '')`. -/
def stripTags (s : JSString) : JSString :=
  stripTagsFrom false s

/-- `.split(/\s+/)`: the pieces between the maximal whitespace runs, the empty
pieces before a leading run and after a trailing run included. -/
def splitWhitespace : JSString → List JSString
  | [] => [[]]
  | [c] => if isWhitespace c then [[], []] else [[c]]
  | c :: d :: cs =>
    if isWhitespace c then
      if isWhitespace d then splitWhitespace (d :: cs) else [] :: splitWhitespace (d :: cs)
    else
      match splitWhitespace (d :: cs) with
      | [] => [[c]]
      | piece :: pieces => (c :: piece) :: pieces

/-- The `status` enum of the schema. -/
inductive Status where
  | draft
  | published
  | archived
  deriving DecidableEq, Repr

/-- The string stored for a status. -/
def Status.toJS : Status → JSString
  | .draft => js "draft"
  | .published => js "published"
  | .archived => js "archived"

/-- The `enum` validator of `status`. -/
def parseStatus (s : JSString) : Option Status :=
  if s = js "draft" then some .draft
  else if s = js "published" then some .published
  else if s = js "archived" then some .archived
  else none

/-- A stored document of the `Post` model. Times are milliseconds as natural
numbers, `none` is `null`. The fixed `author`, `featuredImage` and
`socialShares` take part in no decision of the handlers and are left out. -/
structure Post where
  id : Nat
  title : JSString
  content : JSString
  slug : JSString
  metaTitle : JSString
  metaDescription : JSString
  keywords : List JSString
  status : Status
  publishedAt : Option Nat
  category : JSString
  tags : List JSString
  viewCount : Nat
  readTime : Nat
  createdAt : Nat
  updatedAt : Nat
  deletedAt : Option Nat
  deriving DecidableEq, Repr

/-- The collection, in insertion order. Documents are never removed by the
handlers, so the length of the list is a fresh identifier. -/
abbrev Store := List Post

/-- The object handed to `new Post(...)` or to `findByIdAndUpdate`;
`publishedAt` is `none` when the handler leaves the key out. -/
structure PostData where
  title : JSString
  content : JSString
  slug : JSString
  category : JSString
  tags : List JSString
  status : JSString
  metaTitle : JSString
  metaDescription : JSString
  keywords : List JSString
  publishedAt : Option Nat
  deriving DecidableEq, Repr

/-- The setters `trim: true, lowercase: true` of a schema string: the setters
run last-declared first, so `trim` runs before `lowercase`. -/
def trimLower (toLowerCase : JSString → JSString) (s : JSString) : JSString :=
  toLowerCase (trim s)

/-- The setters of the schema, run when a document is built and when an update
or a query filter is cast: `title` and `category` are trimmed, `slug`, `tags`
and `keywords` are trimmed and lower-cased. -/
def castData (toLowerCase : JSString → JSString) (d : PostData) : PostData :=
  { d with
    title := trim d.title
    slug := trimLower toLowerCase d.slug
    category := trim d.category
    tags := d.tags.map (trimLower toLowerCase)
    keywords := d.keywords.map (trimLower toLowerCase) }

/-- The validators of the schema on cast data: `required`, `minlength` and
`maxlength` of `title`, `required` and `minlength` of `content`, `required` and
`match` of `slug`, `maxlength` of `metaTitle` and `metaDescription`, `enum` of
`status`. -/
def validData (d : PostData) : Bool :=
  (d.title != [] && 3 ≤ d.title.length && d.title.length ≤ 200) &&
  (d.content != [] && 10 ≤ d.content.length) &&
  (d.slug != [] && d.slug.all isSlugChar) &&
  d.metaTitle.length ≤ 60 &&
  d.metaDescription.length ≤ 160 &&
  (parseStatus d.status).isSome

/-- `readTime` of the `pre('save')` hook: the number of pieces of the
tag-stripped content split on whitespace runs, divided by 200 and rounded up;
the field is left as it is when the content is empty. -/
def savedReadTime (content : JSString) (old : Nat) : Nat :=
  if content = [] then old
  else ((splitWhitespace (stripTags content)).length + 199) / 200

/-- The default of `metaDescription` in both handlers. -/
def defaultMetaDescription (content : JSString) : JSString :=
  (stripTags content).take 160 ++ js "..."

/-- `a || b` on strings. -/
def orElse (a b : JSString) : JSString :=
  if a = [] then b else a

/-- `Post.findOne({ slug, deletedAt: null })`: the filter value goes through
the setters of `slug` before it is compared. -/
def findBySlug (toLowerCase : JSString → JSString) (store : Store) (slug : JSString) :
    Option Post :=
  store.find? (fun p => p.slug == trimLower toLowerCase slug && p.deletedAt.isNone)

/-- The `while` loop of the create handler (`src/server.js` and
`src/src/pages/api/posts/create.js`), with `fuel` bounding the number of
queries. -/
def createSlugLoop (toLowerCase : JSString → JSString) (store : Store) (slug : JSString) :
    Nat → Nat → JSString → Option JSString
  | 0, _, _ => none
  | fuel + 1, counter, uniqueSlug =>
    if (findBySlug toLowerCase store uniqueSlug).isSome then
      createSlugLoop toLowerCase store slug fuel (counter + 1) (suffixed slug counter)
    else some uniqueSlug

/-- The slug the create handler settles on for the resolved `slug`. -/
def resolveSlug (toLowerCase : JSString → JSString) (fuel : Nat) (store : Store)
    (slug : JSString) : Option JSString :=
  if (findBySlug toLowerCase store slug).isSome then
    createSlugLoop toLowerCase store slug fuel 1 slug
  else some slug

/-- Body of `POST /api/posts/create`. A field that the handler only tests for
truthiness is the empty string when absent; `category` and `status` have a
destructuring default, used when they are `none`. -/
structure CreateRequest where
  title : JSString
  content : JSString
  slug : JSString
  category : Option JSString
  tags : List JSString
  status : Option JSString
  metaTitle : JSString
  metaDescription : JSString
  keywords : List JSString
  deriving DecidableEq, Repr

/-- Body of `PUT /api/posts/:slug`; `tags` and `keywords` are `none` when they
are not arrays. -/
structure UpdateRequest where
  title : JSString
  content : JSString
  newSlug : JSString
  category : JSString
  tags : Option (List JSString)
  status : JSString
  metaTitle : JSString
  metaDescription : JSString
  keywords : Option (List JSString)
  deriving DecidableEq, Repr

/-- The `message` of a 400 response. -/
inductive Message where
  | required
  | titleLength
  | contentLength
  | validationFailed
  | slugExists
  deriving DecidableEq, Repr

/-- What a handler answers. -/
inductive Response where
  | created (post : Post)
  | ok (post : Post)
  | deleted
  | badRequest (message : Message)
  | notFound
  deriving DecidableEq, Repr

/-- The HTTP status of a response. -/
def Response.status : Response → Nat
  | .created _ => 201
  | .ok _ => 200
  | .deleted => 200
  | .badRequest _ => 400
  | .notFound => 404

/-- The `postData` object of the create handler, for the settled `slug`. -/
def createData (toLowerCase : JSString → JSString) (req : CreateRequest) (slug : JSString)
    (now : Nat) : PostData :=
  { title := trim req.title
    content := trim req.content
    slug := slug
    category := trim (req.category.getD (js "Uncategorized"))
    tags := req.tags.map (fun tag => toLowerCase (trim tag))
    status := req.status.getD (js "draft")
    metaTitle := orElse req.metaTitle req.title
    metaDescription := orElse req.metaDescription (defaultMetaDescription req.content)
    keywords := req.keywords.map (fun keyword => toLowerCase (trim keyword))
    publishedAt := if req.status.getD (js "draft") = js "published" then some now else none }

/-- The document `new Post(postData).save()` inserts: defaults of the schema,
`publishedAt` as set by the handler (the `pre('save')` hook sets it only when
it is still unset on a published document, which the handler excludes),
`readTime` of the `pre('save')` hook. -/
def newPost (id : Nat) (d : PostData) (status : Status) (now : Nat) : Post :=
  { id := id
    title := d.title
    content := d.content
    slug := d.slug
    metaTitle := d.metaTitle
    metaDescription := d.metaDescription
    keywords := d.keywords
    status := status
    publishedAt := d.publishedAt
    category := d.category
    tags := d.tags
    viewCount := 0
    readTime := savedReadTime d.content 0
    createdAt := now
    updatedAt := now
    deletedAt := none }

/-- `POST /api/posts/create`. After the checks of the handler and the slug
probe, `save()` validates the document and inserts it; the unique index that
`unique: true` puts on `slug` spans every document of the collection, deleted
or not, and a second document with the same slug is refused with error 11000.
`none` is returned when the probe runs out of fuel. -/
def create (toLowerCase : JSString → JSString) (fuel : Nat) (store : Store)
    (req : CreateRequest) (now : Nat) : Option (Response × Store) :=
  if req.title = [] ∨ req.content = [] then some (.badRequest .required, store)
  else if req.title.length < 3 ∨ req.title.length > 200 then
    some (.badRequest .titleLength, store)
  else if req.content.length < 10 then some (.badRequest .contentLength, store)
  else
    match resolveSlug toLowerCase fuel store (orElse req.slug (slugify toLowerCase req.title)) with
    | none => none
    | some slug =>
      let d := castData toLowerCase (createData toLowerCase req slug now)
      match parseStatus d.status with
      | none => some (.badRequest .validationFailed, store)
      | some status =>
        if !validData d then some (.badRequest .validationFailed, store)
        else if store.any (fun p => p.slug == d.slug) then
          some (.badRequest .slugExists, store)
        else
          let post := newPost store.length d status now
          some (.created post, store ++ [post])

/-- Replacement of the document with the identifier of `post` by `post`. -/
def replacePost (store : Store) (post : Post) : Store :=
  store.map (fun q => if q.id = post.id then post else q)

/-- `save()` on a loaded document: the `pre('save')` hook recomputes
`readTime` (its `publishedAt` branch needs a status just set to `published`
with `publishedAt` still unset, which none of `incrementViews`, `softDelete`,
`publish` and `unpublish` produces) and the `timestamps` option stamps
`updatedAt`. The stored fields went through the same validators
when they were written, and the slug is unchanged, so the save is not
refused. -/
def saveExisting (store : Store) (post : Post) (now : Nat) : Post × Store :=
  let saved := { post with readTime := savedReadTime post.content post.readTime, updatedAt := now }
  (saved, replacePost store saved)

/-- `PostSchema.methods.incrementViews`. -/
def incrementViews (store : Store) (post : Post) (now : Nat) : Post × Store :=
  saveExisting store { post with viewCount := post.viewCount + 1 } now

/-- `PostSchema.methods.softDelete`. -/
def softDelete (store : Store) (post : Post) (now : Nat) : Post × Store :=
  saveExisting store { post with deletedAt := some now, status := .archived } now

/-- `GET /api/posts/:slug`: the response is built from the document that
`incrementViews` has already changed, with `viewCount: post.viewCount + 1`. -/
def getPost (toLowerCase : JSString → JSString) (store : Store) (slug : JSString)
    (now : Nat) : Response × Store :=
  match findBySlug toLowerCase store slug with
  | none => (.notFound, store)
  | some post =>
    let saved := incrementViews store post now
    (.ok { saved.1 with viewCount := saved.1.viewCount + 1 }, saved.2)

/-- `DELETE /api/posts/:slug`. -/
def deletePost (toLowerCase : JSString → JSString) (store : Store) (slug : JSString)
    (now : Nat) : Response × Store :=
  match findBySlug toLowerCase store slug with
  | none => (.notFound, store)
  | some post => (.deleted, (softDelete store post now).2)

/-- The `updateData` object of the update handler. -/
def updateData (toLowerCase : JSString → JSString) (existing : Post) (req : UpdateRequest)
    (updatedSlug : JSString) (now : Nat) : PostData :=
  { title := trim req.title
    content := trim req.content
    slug := updatedSlug
    category := orElse req.category existing.category
    tags := match req.tags with
      | some tags => tags.map (fun tag => toLowerCase (trim tag))
      | none => existing.tags
    status := orElse req.status existing.status.toJS
    metaTitle := orElse req.metaTitle req.title
    metaDescription := orElse req.metaDescription (defaultMetaDescription req.content)
    keywords := match req.keywords with
      | some keywords => keywords.map (fun keyword => toLowerCase (trim keyword))
      | none => existing.keywords
    publishedAt :=
      if req.status = js "published" ∧ existing.status ≠ .published then some now else none }

/-- The document after `findByIdAndUpdate`: the fields of the update replace
the stored ones, `publishedAt` only when the handler put it in the update;
no `save` hook runs, so `readTime` stays. -/
def updatedPost (existing : Post) (d : PostData) (status : Status) (now : Nat) : Post :=
  { existing with
    title := d.title
    content := d.content
    slug := d.slug
    category := d.category
    tags := d.tags
    status := status
    metaTitle := d.metaTitle
    metaDescription := d.metaDescription
    keywords := d.keywords
    updatedAt := now
    publishedAt :=
      match d.publishedAt with
      | some time => some time
      | none => existing.publishedAt }

/-- `Post.findByIdAndUpdate(existing._id, data, { new: true, runValidators:
true })`: the update goes through the setters and the validators of the
schema, and the unique index on `slug` refuses a slug that another document,
deleted or not, holds. -/
def findByIdAndUpdate (toLowerCase : JSString → JSString) (store : Store) (existing : Post)
    (data : PostData) (now : Nat) : Response × Store :=
  let d := castData toLowerCase data
  match parseStatus d.status with
  | none => (.badRequest .validationFailed, store)
  | some status =>
    if !validData d then (.badRequest .validationFailed, store)
    else if store.any (fun q => q.id != existing.id && q.slug == d.slug) then
      (.badRequest .slugExists, store)
    else
      let post := updatedPost existing d status now
      (.ok post, replacePost store post)

/-- `PUT /api/posts/:slug`. -/
def update (toLowerCase : JSString → JSString) (store : Store) (slug : JSString)
    (req : UpdateRequest) (now : Nat) : Response × Store :=
  match findBySlug toLowerCase store slug with
  | none => (.notFound, store)
  | some existing =>
    if req.title = [] ∨ req.content = [] then (.badRequest .required, store)
    else if req.title.length < 3 ∨ req.title.length > 200 then
      (.badRequest .titleLength, store)
    else if req.content.length < 10 then (.badRequest .contentLength, store)
    else if req.title ≠ existing.title ∧ req.newSlug ≠ [] then
      if store.any (fun q =>
          q.slug == trimLower toLowerCase (slugify toLowerCase req.newSlug) &&
            q.id != existing.id && q.deletedAt.isNone) then
        (.badRequest .slugExists, store)
      else
        findByIdAndUpdate toLowerCase store existing
          (updateData toLowerCase existing req (slugify toLowerCase req.newSlug) now) now
    else
      findByIdAndUpdate toLowerCase store existing
        (updateData toLowerCase existing req slug now) now

/-- A request to one of the four handlers that write to the collection. -/
inductive Request where
  | create (req : CreateRequest)
  | update (slug : JSString) (req : UpdateRequest)
  | view (slug : JSString)
  | delete (slug : JSString)
  deriving DecidableEq, Repr

/-- One request served at time `now`. -/
def handle (toLowerCase : JSString → JSString) (fuel : Nat) (store : Store) (now : Nat) :
    Request → Option (Response × Store)
  | .create req => create toLowerCase fuel store req now
  | .update slug req => some (update toLowerCase store slug req now)
  | .view slug => some (getPost toLowerCase store slug now)
  | .delete slug => some (deletePost toLowerCase store slug now)

/-- The stores reached from the empty collection by serving requests one
after the other. -/
inductive Reachable (toLowerCase : JSString → JSString) : Store → Prop where
  | empty : Reachable toLowerCase []
  | step {store store' : Store} {fuel now : Nat} {request : Request} {response : Response} :
    Reachable toLowerCase store →
    handle toLowerCase fuel store now request = some (response, store') →
    Reachable toLowerCase store'

/-- A create request with only a title and a content. -/
def simpleRequest (title content : JSString) : CreateRequest :=
  { title := title, content := content, slug := [], category := none, tags := [],
    status := none, metaTitle := [], metaDescription := [], keywords := [] }

/-- The response's post, if it carries one. -/
def Response.post? : Response → Option Post
  | .created post => some post
  | .ok post => some post
  | _ => none

/-- Requests served one after the other, the clock advancing by one per
request; the responses are returned in order with the final store. -/
def serve (toLowerCase : JSString → JSString) (fuel : Nat) :
    Store → Nat → List Request → Option (List Response × Store)
  | store, _, [] => some ([], store)
  | store, now, request :: rest =>
    match handle toLowerCase fuel store now request with
    | none => none
    | some (response, store') =>
      match serve toLowerCase fuel store' (now + 1) rest with
      | none => none
      | some (responses, final) => some (response :: responses, final)

/-- No two neighbours in the string are both in the class `p`. -/
def NoAdjacent (p : Nat → Bool) (s : JSString) : Prop :=
  List.Chain' (fun a b => ¬(p a = true ∧ p b = true)) s

/-- The candidates of a probing loop in the order they are tested: the slug
itself, then the slug with the suffixes `-1`, `-2`, ... -/
def candidate (slug : JSString) (k : Nat) : JSString :=
  if k = 0 then slug else suffixed slug k

/-- The common shape of the two probing loops, for a test `taken`. -/
def probeLoop (taken : JSString → Bool) (slug : JSString) :
    Nat → Nat → JSString → Option JSString
  | 0, _, _ => none
  | fuel + 1, counter, uniqueSlug =>
    if taken uniqueSlug then probeLoop taken slug fuel (counter + 1) (suffixed slug counter)
    else some uniqueSlug

/-- Some document that is not soft-deleted has the slug `s`. -/
def SlugHeld (store : Store) (s : JSString) : Prop :=
  ∃ q ∈ store, q.deletedAt = none ∧ q.slug = s

/-- The value of a list of decimal digit code units, least significant
first. -/
def decimalValue : List Nat → Nat
  | [] => 0
  | d :: ds => (d - 48) + 10 * decimalValue ds

/-- The invariant of the collection: identifiers are distinct and below the
length, and the unique index holds, no two documents share a slug. -/
def StoreInv (store : Store) : Prop :=
  (store.map Post.id).Nodup ∧ (store.map Post.slug).Nodup ∧ ∀ p ∈ store, p.id < store.length

/-- The first free candidate for the slug `base` under a test `held`: `base`
itself when it is not held, and otherwise `base` followed by `-` and the least
`k >= 1` for which that string is not held. -/
def FirstFree (held : JSString → Prop) (base r : JSString) : Prop :=
  (¬ held base ∧ r = base) ∨
  (held base ∧ ∃ k, 1 ≤ k ∧ r = suffixed base k ∧ ¬ held (suffixed base k) ∧
    ∀ j, 1 ≤ j → j < k → held (suffixed base j))

/-- The request `{ title: "Hello World", content: "0123456789" }`. -/
def helloRequest : CreateRequest :=
  simpleRequest (js "Hello World") (js "0123456789")

/-- The post created from `helloRequest` with identifier `id` and slug `slug`
at time `now`. -/
def helloPost (id : Nat) (slug : JSString) (now : Nat) : Post :=
  newPost id (castData asciiLowerCase (createData asciiLowerCase helloRequest slug now)) .draft
    now

/-- The collection after `helloRequest` was served at time 0 and the post it
created was soft-deleted at time 1. -/
def deletedHello : Store :=
  [{ helloPost 0 (js "hello-world") 0 with
      status := .archived, deletedAt := some 1, updatedAt := 1 }]

/-- The collection after `helloRequest` was served at times 0 and 1, the first
post was viewed at time 2 and the second soft-deleted at time 3. -/
def viewedAndDeleted : Store :=
  [{ helloPost 0 (js "hello-world") 0 with viewCount := 1, updatedAt := 2 },
    { helloPost 1 (js "hello-world-1") 1 with
      status := .archived, deletedAt := some 3, updatedAt := 3 }]

/-- `PostSchema.methods.publish`. -/
def publish (store : Store) (post : Post) (now : Nat) : Post × Store :=
  saveExisting store { post with status := .published, publishedAt := some now } now

/-- `PostSchema.methods.unpublish`. -/
def unpublish (store : Store) (post : Post) (now : Nat) : Post × Store :=
  saveExisting store { post with status := .draft, publishedAt := none } now

/-- Query string of `GET /api/posts`: `status` is `none` when absent (the
default `'published'` applies), the other filters are the empty string when
absent, `limit` and `page` are the parsed integers. The order that `sort` and
`order` ask for is passed to the handler as a comparison. -/
structure ListQuery where
  status : Option JSString
  category : JSString
  tag : JSString
  author : JSString
  limit : Nat
  page : Nat
  deriving DecidableEq, Repr

/-- `author.name` of every document the create handler stores. -/
def authorName : JSString := js "Admin"

/-- The filter `query` of `GET /api/posts` on one document, at time `now`:
`deletedAt: null` always, the status filter (`published` also asks for
`publishedAt <= now`, `draft` for the status, anything else for nothing),
and the `category`, `tags` and `author.name` filters when given, their values
cast by the setters of the schema. -/
def matchesQuery (toLowerCase : JSString → JSString) (query : ListQuery) (now : Nat)
    (p : Post) : Bool :=
  p.deletedAt.isNone &&
  (if query.status.getD (js "published") = js "published" then
      p.status == .published &&
        (match p.publishedAt with
          | some time => decide (time ≤ now)
          | none => false)
    else if query.status.getD (js "published") = js "draft" then p.status == .draft
    else true) &&
  (if query.category = [] then true else p.category == trim query.category) &&
  (if query.tag = [] then true else decide (trimLower toLowerCase query.tag ∈ p.tags)) &&
  (if query.author = [] then true else authorName == trim query.author)

/-- The `posts` of the response of `GET /api/posts`: the matching documents,
sorted by `before`, after `skip((page - 1) * limit)` and `limit(limit)`; a
limit of 0 is no limit, and a negative skip (page 0) is an error of the store,
`none` here. -/
def listPosts (toLowerCase : JSString → JSString) (before : Post → Post → Bool)
    (store : Store) (query : ListQuery) (now : Nat) : Option (List Post) :=
  if query.page = 0 ∧ query.limit ≠ 0 then none
  else
    let found := (store.filter (matchesQuery toLowerCase query now)).insertionSort
      (fun a b => before a b = true)
    let skipped := found.drop ((query.page - 1) * query.limit)
    some (if query.limit = 0 then skipped else skipped.take query.limit)

/-- `Post.findById`. -/
def findById (store : Store) (id : Nat) : Option Post :=
  store.find? (fun p => p.id == id)

/-- An operation on the collection: a request to a handler, or one of the
instance methods called on the stored document with the given identifier. -/
inductive Operation where
  | request (request : Request)
  | incrementViews (id : Nat)
  | softDelete (id : Nat)
  | publish (id : Nat)
  | unpublish (id : Nat)
  deriving DecidableEq, Repr

/-- The collection after one operation at time `now`; a method on an
identifier that no document has changes nothing. -/
def perform (toLowerCase : JSString → JSString) (fuel : Nat) (store : Store) (now : Nat) :
    Operation → Option Store
  | .request request => (handle toLowerCase fuel store now request).map Prod.snd
  | .incrementViews id =>
    match findById store id with
    | none => some store
    | some post => some (incrementViews store post now).2
  | .softDelete id =>
    match findById store id with
    | none => some store
    | some post => some (softDelete store post now).2
  | .publish id =>
    match findById store id with
    | none => some store
    | some post => some (publish store post now).2
  | .unpublish id =>
    match findById store id with
    | none => some store
    | some post => some (unpublish store post now).2

/-- Identifiers of the documents whose status is `published`. -/
def publishedIds (store : Store) : List Nat :=
  (store.filter (fun p => p.status == .published)).map Post.id

/-- The collections reached from the empty one by operations that `allowed`
admits, each with the identifiers of the documents that had the status
`published` after some operation so far. -/
inductive History (toLowerCase : JSString → JSString) (allowed : Operation → Prop) :
    Store → List Nat → Prop where
  | empty : History toLowerCase allowed [] []
  | step {store store' : Store} {ever : List Nat} {fuel now : Nat} {op : Operation} :
    History toLowerCase allowed store ever → allowed op →
    perform toLowerCase fuel store now op = some store' →
    History toLowerCase allowed store' (ever ++ publishedIds store')

/-- Operations performed one after the other, the clock advancing by one per
operation, with the record of the identifiers that were published. -/
def performAll (toLowerCase : JSString → JSString) (fuel : Nat) :
    Store → List Nat → Nat → List Operation → Option (Store × List Nat)
  | store, ever, _, [] => some (store, ever)
  | store, ever, now, op :: rest =>
    match perform toLowerCase fuel store now op with
    | none => none
    | some store' =>
      performAll toLowerCase fuel store' (ever ++ publishedIds store') (now + 1) rest

/-- How a stored document `post` relates to its previous version `existing`
after an operation: same identifier, a `publishedAt` that is set was set
before or comes with the status `published`, and a status `published` comes
with a `publishedAt` or was there before. -/
def Transition (existing post : Post) : Prop :=
  post.id = existing.id ∧
  (post.publishedAt ≠ none → existing.publishedAt ≠ none ∨ post.status = .published) ∧
  (post.status = .published → post.publishedAt ≠ none ∨ existing.status = .published)

/-- The collection `store'` comes from `store` by an operation: it is no
shorter, and each of its documents is either a new version of a document of
`store` (one that keeps a set `publishedAt` when `keeps` holds) or a new
document, with a fresh identifier and `publishedAt` set exactly when its
status is `published`. -/
def Evolves (keeps : Prop) (store store' : Store) : Prop :=
  store.length ≤ store'.length ∧
  ∀ q ∈ store',
    (∃ q₀ ∈ store, Transition q₀ q ∧
      (keeps → q₀.publishedAt ≠ none → q.publishedAt ≠ none)) ∨
    (store.length ≤ q.id ∧ (q.publishedAt ≠ none ↔ q.status = .published))

/-- Every slug in the collection is a non-empty string over `[a-z0-9-]`. -/
def SlugsValid (store : Store) : Prop :=
  ∀ p ∈ store, p.slug ≠ [] ∧ ∀ c ∈ p.slug, isSlugChar c = true

/-- The create request of a post that is published at once. -/
def publishedRequest : CreateRequest :=
  { helloRequest with status := some (js "published") }

/-- An update request with only a title and a content. -/
def simpleUpdate (title content : JSString) : UpdateRequest :=
  { title := title, content := content, newSlug := [], category := [], tags := none,
    status := [], metaTitle := [], metaDescription := [], keywords := none }

/-- A content of 201 words, `"a a ... a"`. -/
def longContent : JSString :=
  (List.replicate 200 (js "a ")).flatten ++ js "a"

/-- The slug the update handler writes: `slugify(newSlug)` when the title
changed and a new slug is given, the slug of the path otherwise. -/
def updatedSlugOf (toLowerCase : JSString → JSString) (existing : Post) (req : UpdateRequest)
    (slug : JSString) : JSString :=
  if req.title ≠ existing.title ∧ req.newSlug ≠ [] then slugify toLowerCase req.newSlug
  else slug

/-- An update of the post of `helloRequest` that changes only the content. -/
def contentUpdate : UpdateRequest :=
  simpleUpdate (js "Hello World") (js "A new content")

/-- The post of `helloRequest`, created at time 0, after `contentUpdate` at
time 1. -/
def updatedHello : Post :=
  updatedPost (helloPost 0 (js "hello-world") 0)
    (castData asciiLowerCase
      (updateData asciiLowerCase (helloPost 0 (js "hello-world") 0) contentUpdate
        (js "hello-world") 1)) .draft 1

/-- The request `{ title: "Second Post", content: "0123456789" }`. -/
def secondRequest : CreateRequest :=
  simpleRequest (js "Second Post") (js "0123456789")

/-- The collection after `helloRequest` was served at time 0, its post
soft-deleted at time 1 and `secondRequest` served at time 2. -/
def deletedAndSecond : Store :=
  deletedHello ++
    [newPost 1 (castData asciiLowerCase
      (createData asciiLowerCase secondRequest (js "second-post") 2)) .draft 2]

/-- An update that changes the title and asks for the slug of
`"Hello World"`. -/
def renameRequest : UpdateRequest :=
  { simpleUpdate (js "Renamed Post") (js "0123456789") with newSlug := js "Hello World" }

/-- An update of the post of `helloRequest` to the content of 201 words, with
a `metaDescription` of its own. -/
def longUpdate : UpdateRequest :=
  { simpleUpdate (js "Hello World") longContent with metaDescription := js "summary" }

/-- An update of the post of `helloRequest` that only sets the status. -/
def statusUpdate (status : JSString) : UpdateRequest :=
  { simpleUpdate (js "Hello World") (js "0123456789") with status := status }

/-- The collection after `publishedRequest` was served at time 0 and the post
it created was unpublished at time 1. -/
def unpublishedHello : Store :=
  [{ newPost 0 (castData asciiLowerCase
        (createData asciiLowerCase publishedRequest (js "hello-world") 0)) .published 0 with
      status := .draft, publishedAt := none, updatedAt := 1 }]

/-- The collection after `publishedRequest` was served at time 0 and the post
it created was viewed at time 1. -/
def publishedViewed : Store :=
  [{ newPost 0 (castData asciiLowerCase
        (createData asciiLowerCase publishedRequest (js "hello-world") 0)) .published 0 with
      viewCount := 1, updatedAt := 1 }]

/-- The operations other than `unpublish`. -/
def NotUnpublish (op : Operation) : Prop :=
  ∀ id, op ≠ .unpublish id

/-- `cleanText` of `src/src/utils/slugify.js`: trim, then collapse the
whitespace runs to single spaces, then strip the tags. -/
def cleanText (text : JSString) : JSString :=
  if text = [] then []
  else stripTags (collapseWhitespace (trim text))

/-- `generateExcerpt` of `src/src/utils/slugify.js`. -/
def generateExcerpt (content : JSString) (maxLength : Nat) : JSString :=
  if content = [] then []
  else if (cleanText content).length ≤ maxLength then cleanText content
  else trim ((cleanText content).take maxLength) ++ js "..."

/-- `Math.ceil(n / d)` for natural numbers `n` and a positive `d`. -/
def ceilDiv (n d : Nat) : Nat :=
  (n + d - 1) / d

/-- `calculateReadTime` of `src/src/utils/slugify.js`, for a positive
`wordsPerMinute` (200 by default). -/
def calculateReadTime (content : JSString) (wordsPerMinute : Nat) : Nat :=
  if content = [] then 0
  else max 1 (ceilDiv (splitWhitespace (cleanText content)).length wordsPerMinute)

/-- The number of whitespace-separated words of a string, as the specification
counts them: the non-empty pieces between the whitespace runs. -/
def wordCount (s : JSString) : Nat :=
  ((splitWhitespace s).filter (fun piece => piece != [])).length

/-- `generateSlug` of `src/src/api/posts.js`. The last call, `.trim('-')`, is
`String.prototype.trim`, which takes no argument and removes whitespace. -/
def generateSlug (toLowerCase : JSString → JSString) (title : JSString) : JSString :=
  trim (collapseHyphens (collapseRuns isWhitespace hyphen (removeSpecial (toLowerCase title))))

/-- The `pagination` object of the response of `GET /api/posts`. `totalPages`
is `none` when the limit is 0: the quotient is then `Infinity` or `NaN`, which
JSON writes as `null`. -/
structure Pagination where
  currentPage : Nat
  totalPages : Option Nat
  totalPosts : Nat
  hasNextPage : Bool
  hasPrevPage : Bool
  limit : Nat
  deriving DecidableEq, Repr

/-- The pagination of the list handler for `total` matching documents:
`totalPages = Math.ceil(total / limit)`, `hasNextPage = page < totalPages`,
`hasPrevPage = page > 1`. -/
def pagination (query : ListQuery) (total : Nat) : Pagination :=
  { currentPage := query.page
    totalPages := if query.limit = 0 then none else some (ceilDiv total query.limit)
    totalPosts := total
    hasNextPage :=
      if query.limit = 0 then decide (0 < total)
      else decide (query.page < ceilDiv total query.limit)
    hasPrevPage := decide (1 < query.page)
    limit := query.limit }

/-- `Post.countDocuments(query)`. -/
def countMatching (toLowerCase : JSString → JSString) (store : Store) (query : ListQuery)
    (now : Nat) : Nat :=
  (store.filter (matchesQuery toLowerCase query now)).length

/-- The response of `GET /api/posts`: the posts of the page and the
pagination. -/
def listResponse (toLowerCase : JSString → JSString) (before : Post → Post → Bool)
    (store : Store) (query : ListQuery) (now : Nat) : Option (List Post × Pagination) :=
  match listPosts toLowerCase before store query now with
  | none => none
  | some posts => some (posts, pagination query (countMatching toLowerCase store query now))

/-- A predicate on strings: no `<` is followed, anywhere later, by a `>`, so no
substring matches `<[^>]*>`. -/
def NoTag (s : JSString) : Prop :=
  ∀ pre mid post : JSString, s ≠ pre ++ 60 :: mid ++ 62 :: post

/-- The create request of `helloRequest` with the tags `["News ", "news"]`. -/
def taggedRequest : CreateRequest :=
  { helloRequest with tags := [js "News ", js "news"] }

/-- The post created from `taggedRequest` on the empty collection at time
0. -/
def taggedPost : Post :=
  newPost 0 (castData asciiLowerCase
    (createData asciiLowerCase taggedRequest (js "hello-world") 0)) .draft 0

/-- The first page of ten, with the default status filter. -/
def firstPage : ListQuery :=
  { status := none, category := [], tag := [], author := [], limit := 10, page := 1 }

/-- The collection `publishedViewed` after its post was set back to draft
by an update at time 2. -/
def draftAgain : Store :=
  publishedViewed.map (fun p => { p with status := .draft, updatedAt := 2 })

/-- Every stored tag and keyword is its own trimmed, lower-cased form. -/
def TagsNormalized (toLowerCase : JSString → JSString) (store : Store) : Prop :=
  ∀ p ∈ store, (∀ x ∈ p.tags, trimLower toLowerCase x = x) ∧
    (∀ x ∈ p.keywords, trimLower toLowerCase x = x)

/-- The post `taggedPost` after an update at time 1 that carries a title and a
content but neither tags nor keywords. -/
def taggedUpdated : Post :=
  updatedPost taggedPost
    (castData asciiLowerCase
      (updateData asciiLowerCase taggedPost (simpleUpdate (js "Hello World") (js "0123456789"))
        (js "hello-world") 1)) .draft 1

/-- The update request `simpleUpdate` with the tags `[" Lean ", "lean"]`. -/
def retagUpdate : UpdateRequest :=
  { simpleUpdate (js "Hello World") (js "0123456789") with tags := some [js " Lean ", js "lean"] }

/-- The post `taggedPost` after the update `retagUpdate` at time 1. -/
def taggedRetagged : Post :=
  updatedPost taggedPost
    (castData asciiLowerCase
      (updateData asciiLowerCase taggedPost retagUpdate (js "hello-world") 1)) .draft 1

/-! ## Runs of code units -/

theorem collapseRuns_cons_of_neg (p : Nat → Bool) (r c : Nat) (cs : JSString)
    (h : p c = false) : collapseRuns p r (c :: cs) = c :: collapseRuns p r cs := by
  cases cs with
  | nil => simp [collapseRuns, h]
  | cons d ds => simp [collapseRuns, h]

theorem collapseRuns_mem (p : Nat → Bool) (r : Nat) :
    ∀ (s : JSString) (c : Nat), c ∈ collapseRuns p r s → c = r ∨ (c ∈ s ∧ p c = false)
  | [], c, h => by simp [collapseRuns] at h
  | [a], c, h => by
    unfold collapseRuns at h
    by_cases hp : p a = true
    · simp [hp] at h; exact Or.inl h
    · simp [hp] at h; subst h; exact Or.inr ⟨by simp, by simpa using hp⟩
  | a :: b :: cs, c, h => by
    have ih := collapseRuns_mem p r (b :: cs) c
    unfold collapseRuns at h
    by_cases hp : p a = true
    · by_cases hq : p b = true
      · rw [if_pos hp, if_pos hq] at h
        rcases ih h with h1 | ⟨h1, h2⟩
        · exact Or.inl h1
        · exact Or.inr ⟨List.mem_cons_of_mem _ h1, h2⟩
      · rw [if_pos hp, if_neg hq] at h
        rcases List.mem_cons.1 h with h1 | h1
        · exact Or.inl h1
        · rcases ih h1 with h2 | ⟨h2, h3⟩
          · exact Or.inl h2
          · exact Or.inr ⟨List.mem_cons_of_mem _ h2, h3⟩
    · rw [if_neg hp] at h
      rcases List.mem_cons.1 h with h1 | h1
      · subst h1; exact Or.inr ⟨by simp, by simpa using hp⟩
      · rcases ih h1 with h2 | ⟨h2, h3⟩
        · exact Or.inl h2
        · exact Or.inr ⟨List.mem_cons_of_mem _ h2, h3⟩

theorem collapseRuns_noAdjacent (p : Nat → Bool) (r : Nat) (hr : p r = true) :
    ∀ s : JSString, NoAdjacent p (collapseRuns p r s)
  | [] => by simp [collapseRuns, NoAdjacent]
  | [a] => by
    unfold collapseRuns
    by_cases hp : p a = true <;> simp [hp, NoAdjacent]
  | a :: b :: cs => by
    have ih := collapseRuns_noAdjacent p r hr (b :: cs)
    unfold collapseRuns
    by_cases hp : p a = true
    · by_cases hq : p b = true
      · rw [if_pos hp, if_pos hq]; exact ih
      · rw [if_pos hp, if_neg hq]
        have hb : p b = false := by simpa using hq
        rw [collapseRuns_cons_of_neg p r b cs hb] at ih ⊢
        exact List.Chain'.cons (by simp [hb]) ih
    · rw [if_neg hp]
      have ha : p a = false := by simpa using hp
      unfold NoAdjacent at ih ⊢
      rw [List.chain'_cons']
      exact ⟨fun y _ => by simp [ha], ih⟩

theorem collapseRuns_eq_self (p : Nat → Bool) (r : Nat) :
    ∀ s : JSString, (∀ c ∈ s, p c = true → c = r) → NoAdjacent p s → collapseRuns p r s = s
  | [], _, _ => by simp [collapseRuns]
  | [a], h, _ => by
    unfold collapseRuns
    by_cases hp : p a = true
    · simp [hp, h a (by simp) hp]
    · simp [hp]
  | a :: b :: cs, h, hc => by
    have hc' : NoAdjacent p (b :: cs) := List.Chain'.tail hc
    have ih := collapseRuns_eq_self p r (b :: cs)
      (fun c hcm => h c (List.mem_cons_of_mem _ hcm)) hc'
    have hab : ¬(p a = true ∧ p b = true) := by
      unfold NoAdjacent at hc
      exact (List.chain'_cons.1 hc).1
    unfold collapseRuns
    by_cases hp : p a = true
    · have hq : ¬ p b = true := fun hq => hab ⟨hp, hq⟩
      rw [if_pos hp, if_neg hq, ih, h a (by simp) hp]
    · rw [if_neg hp, ih]

theorem noAdjacent_of_forall_not (p : Nat → Bool) :
    ∀ s : JSString, (∀ c ∈ s, p c = false) → NoAdjacent p s
  | [], _ => by simp [NoAdjacent]
  | a :: cs, h => by
    unfold NoAdjacent
    rw [List.chain'_cons']
    exact ⟨fun y _ => by simp [h a (by simp)],
      noAdjacent_of_forall_not p cs (fun c hc => h c (List.mem_cons_of_mem _ hc))⟩

/-! ## `slugify` -/

theorem isWhitespace_of_isSlugChar {c : Nat} (h : isSlugChar c = true) :
    isWhitespace c = false := by
  simp only [isSlugChar, hyphen, Bool.or_eq_true, Bool.and_eq_true, decide_eq_true_eq,
    beq_iff_eq] at h
  simp only [isWhitespace, Bool.or_eq_false_iff, Bool.and_eq_false_iff, decide_eq_false_iff_not,
    beq_eq_false_iff_ne]
  omega

theorem dropWhile_eq_self_of_forall (p : Nat → Bool) :
    ∀ s : JSString, (∀ c ∈ s, p c = false) → s.dropWhile p = s
  | [], _ => rfl
  | a :: cs, h => by simp [List.dropWhile, h a (by simp)]

theorem rdropWhile_eq_self_of_forall (p : Nat → Bool) (s : JSString)
    (h : ∀ c ∈ s, p c = false) : s.rdropWhile p = s := by
  rw [List.rdropWhile_eq_self_iff]
  intro hl
  simp [h _ (List.getLast_mem hl)]

theorem trim_eq_self (s : JSString) (h : ∀ c ∈ s, isWhitespace c = false) : trim s = s := by
  unfold trim
  rw [dropWhile_eq_self_of_forall _ s h, rdropWhile_eq_self_of_forall _ s h]

theorem mem_stripHyphens {s : JSString} {c : Nat} (h : c ∈ stripHyphens s) : c ∈ s := by
  unfold stripHyphens at h
  have hp := List.rdropWhile_prefix (fun c => c == hyphen) (s.dropWhile (fun c => c == hyphen))
  exact (List.dropWhile_suffix _).subset (hp.subset h)

theorem stripHyphens_head (s : JSString) : (stripHyphens s).head? ≠ some hyphen := by
  unfold stripHyphens
  have hhead := List.head?_dropWhile_not (fun c => c == hyphen) s
  obtain ⟨t, ht⟩ := List.rdropWhile_prefix (fun c => c == hyphen)
    (s.dropWhile (fun c => c == hyphen))
  generalize List.rdropWhile (fun c => c == hyphen) (s.dropWhile (fun c => c == hyphen)) = r at ht
  cases r with
  | nil => simp
  | cons a r =>
    rw [← ht] at hhead
    simp only [List.cons_append, List.head?_cons] at hhead
    simp only [List.head?_cons, ne_eq, Option.some.injEq]
    intro ha
    simp [ha] at hhead

theorem stripHyphens_getLast (s : JSString) : (stripHyphens s).getLast? ≠ some hyphen := by
  unfold stripHyphens
  intro h
  have hne : List.rdropWhile (fun c => c == hyphen) (s.dropWhile (fun c => c == hyphen)) ≠ [] := by
    intro h0
    rw [h0] at h
    simp at h
  have hlast := List.rdropWhile_last_not (fun c => c == hyphen) _ hne
  rw [List.getLast?_eq_getLast _ hne] at h
  simp only [Option.some.injEq] at h
  rw [h] at hlast
  simp at hlast

theorem stripHyphens_noAdjacent (p : Nat → Bool) (s : JSString) (h : NoAdjacent p s) :
    NoAdjacent p (stripHyphens s) := by
  unfold stripHyphens NoAdjacent at *
  have hp := List.rdropWhile_prefix (fun c => c == hyphen) (s.dropWhile (fun c => c == hyphen))
  have hs := h.suffix (List.dropWhile_suffix (fun c => c == hyphen))
  exact List.Chain'.prefix hs hp

theorem stripHyphens_eq_self (s : JSString) (hh : s.head? ≠ some hyphen)
    (hl : s.getLast? ≠ some hyphen) : stripHyphens s = s := by
  unfold stripHyphens
  have h1 : s.dropWhile (fun c => c == hyphen) = s := by
    cases s with
    | nil => rfl
    | cons a cs =>
      have : a ≠ hyphen := by simpa using hh
      rw [List.dropWhile_cons_of_neg]
      simpa using this
  rw [h1, List.rdropWhile_eq_self_iff]
  intro hne
  rw [List.getLast?_eq_getLast _ hne] at hl
  simpa using hl

theorem mem_slugify {toLowerCase : JSString → JSString} {x : JSString} {c : Nat}
    (h : c ∈ slugify toLowerCase x) : isSlugChar c = true := by
  unfold slugify at h
  split at h
  · simp at h
  · have h1 := mem_stripHyphens h
    unfold collapseHyphens at h1
    rcases collapseRuns_mem _ _ _ _ h1 with h2 | ⟨h2, -⟩
    · rw [h2]; decide
    · unfold spacesToHyphens at h2
      obtain ⟨d, hd, rfl⟩ := List.mem_map.1 h2
      by_cases hw : isWhitespace d = true
      · rw [if_pos hw]; decide
      · rw [if_neg hw]
        unfold collapseWhitespace at hd
        rcases collapseRuns_mem _ _ _ _ hd with h3 | ⟨h3, -⟩
        · rw [h3] at hw; exact absurd (by decide) hw
        · unfold removeSpecial at h3
          have := (List.mem_filter.1 h3).2
          simpa [hw] using this

theorem slugify_noAdjacent (toLowerCase : JSString → JSString) (x : JSString) :
    NoAdjacent (fun c => c == hyphen) (slugify toLowerCase x) := by
  unfold slugify
  split
  · simp [NoAdjacent]
  · exact stripHyphens_noAdjacent _ _ (collapseRuns_noAdjacent _ _ (by decide) _)

theorem slugify_head (toLowerCase : JSString → JSString) (x : JSString) :
    (slugify toLowerCase x).head? ≠ some hyphen := by
  unfold slugify
  split
  · simp
  · exact stripHyphens_head _

theorem slugify_getLast (toLowerCase : JSString → JSString) (x : JSString) :
    (slugify toLowerCase x).getLast? ≠ some hyphen := by
  unfold slugify
  split
  · simp
  · exact stripHyphens_getLast _

/-- A string that `slugify` leaves as it is, given that lower-casing does. -/
theorem slugify_eq_self {toLowerCase : JSString → JSString} {y : JSString}
    (hlow : toLowerCase y = y) (hc : ∀ c ∈ y, isSlugChar c = true)
    (hadj : NoAdjacent (fun c => c == hyphen) y) (hh : y.head? ≠ some hyphen)
    (hl : y.getLast? ≠ some hyphen) : slugify toLowerCase y = y := by
  unfold slugify
  split
  · next h => exact h.symm
  · have hws : ∀ c ∈ y, isWhitespace c = false := fun c h => isWhitespace_of_isSlugChar (hc c h)
    have h1 : removeSpecial y = y := by
      unfold removeSpecial
      rw [List.filter_eq_self]
      intro c h
      simp [hc c h]
    have h2 : collapseWhitespace y = y :=
      collapseRuns_eq_self _ _ _ (fun c h hp => by rw [hws c h] at hp; cases hp)
        (noAdjacent_of_forall_not _ _ hws)
    have h3 : spacesToHyphens y = y := by
      unfold spacesToHyphens
      conv_rhs => rw [← List.map_id y]
      apply List.map_congr_left
      intro c h
      simp [hws c h]
    have h4 : collapseHyphens y = y :=
      collapseRuns_eq_self _ _ _ (fun c _ hp => by simpa using hp) hadj
    rw [hlow, trim_eq_self y hws, h1, h2, h3, h4, stripHyphens_eq_self y hh hl]

/-! ## Lower-casing -/

theorem asciiLowerCase_eq_self (s : JSString) (h : ∀ c ∈ s, ¬(65 ≤ c ∧ c ≤ 90)) :
    asciiLowerCase s = s := by
  unfold asciiLowerCase
  conv_rhs => rw [← List.map_id s]
  apply List.map_congr_left
  intro c hc
  have := h c hc
  have h2 : (decide (65 ≤ c) && decide (c ≤ 90)) = false := by
    simp only [Bool.and_eq_false_iff, decide_eq_false_iff_not]
    omega
  simp [h2]

theorem not_upper_of_isSlugChar {c : Nat} (h : isSlugChar c = true) : ¬(65 ≤ c ∧ c ≤ 90) := by
  simp only [isSlugChar, hyphen, Bool.or_eq_true, Bool.and_eq_true, decide_eq_true_eq,
    beq_iff_eq] at h
  omega

theorem lt_128_of_isSlugChar {c : Nat} (h : isSlugChar c = true) : c < 128 := by
  simp only [isSlugChar, hyphen, Bool.or_eq_true, Bool.and_eq_true, decide_eq_true_eq,
    beq_iff_eq] at h
  omega

theorem asciiLowerCase_fixes_slugs (s : JSString) (h : ∀ c ∈ s, isSlugChar c = true) :
    asciiLowerCase s = s :=
  asciiLowerCase_eq_self s (fun c hc => not_upper_of_isSlugChar (h c hc))

theorem asciiLowerCase_laws : LowerCaseLaws asciiLowerCase where
  ascii := fun _ _ => rfl
  suffix := by
    intro s t ht
    have h1 : asciiLowerCase (hyphen :: t) = hyphen :: t := by
      apply asciiLowerCase_eq_self
      intro c hc
      rcases List.mem_cons.1 hc with h | h
      · subst h; decide
      · rcases ht c h with h2 | h2
        · omega
        · subst h2; decide
    have h2 : asciiLowerCase (s ++ hyphen :: t) = asciiLowerCase s ++ asciiLowerCase (hyphen :: t) := by
      unfold asciiLowerCase
      rw [List.map_append]
    rw [h2, h1]

theorem LowerCaseLaws.fixes_slugs {toLowerCase : JSString → JSString}
    (h : LowerCaseLaws toLowerCase) (s : JSString) (hs : ∀ c ∈ s, isSlugChar c = true) :
    toLowerCase s = s := by
  rw [h.ascii s (fun c hc => lt_128_of_isSlugChar (hs c hc))]
  exact asciiLowerCase_fixes_slugs s hs

theorem slugify_ascii {toLowerCase : JSString → JSString} (h : LowerCaseLaws toLowerCase)
    (x : JSString) (hx : ∀ c ∈ x, c < 128) :
    slugify toLowerCase x = slugify asciiLowerCase x := by
  unfold slugify
  rw [h.ascii x hx]

theorem trimLower_eq_self {toLowerCase : JSString → JSString}
    (h : LowerCaseLaws toLowerCase) (s : JSString) (hs : ∀ c ∈ s, isSlugChar c = true) :
    trimLower toLowerCase s = s := by
  unfold trimLower
  rw [trim_eq_self s (fun c hc => isWhitespace_of_isSlugChar (hs c hc)), h.fixes_slugs s hs]

/-! ## Claims on `slugify` -/

/-- C2: `slugify` is idempotent, `slugify(slugify(x)) = slugify(x)` for every
string `x`, whenever `toLowerCase` leaves strings over `[a-z0-9-]` unchanged. -/
theorem slugify_idempotent (toLowerCase : JSString → JSString)
    (hfix : ∀ s : JSString, (∀ c ∈ s, isSlugChar c = true) → toLowerCase s = s)
    (x : JSString) :
    slugify toLowerCase (slugify toLowerCase x) = slugify toLowerCase x :=
  slugify_eq_self (hfix _ (fun _ hc => mem_slugify hc)) (fun _ hc => mem_slugify hc)
    (slugify_noAdjacent toLowerCase x) (slugify_head toLowerCase x)
    (slugify_getLast toLowerCase x)

/-- Idempotence at `"  --Hello,   World!-- "` with the ASCII lower-casing. -/
theorem slugify_idempotent_witness :
    slugify asciiLowerCase (slugify asciiLowerCase (js "  --Hello,   World!-- ")) =
      slugify asciiLowerCase (js "  --Hello,   World!-- ") :=
  slugify_idempotent asciiLowerCase asciiLowerCase_fixes_slugs (js "  --Hello,   World!-- ")

/-- C3: a non-empty result of `slugify` matches `^[a-z0-9-]+$`: every code
unit is in `[a-z0-9-]`, and `isValidSlug` accepts it. -/
theorem slugify_valid (toLowerCase : JSString → JSString) (x : JSString)
    (h : slugify toLowerCase x ≠ []) :
    (∀ c ∈ slugify toLowerCase x, isSlugChar c = true) ∧
      isValidSlug (slugify toLowerCase x) = true := by
  refine ⟨fun _ hc => mem_slugify hc, ?_⟩
  unfold isValidSlug
  rw [if_neg h, List.all_eq_true]
  exact fun _ hc => mem_slugify hc

/-- The slug of `"Hello World"` is non-empty and valid. -/
theorem slugify_valid_witness :
    slugify asciiLowerCase (js "Hello World") ≠ [] ∧
      (∀ c ∈ slugify asciiLowerCase (js "Hello World"), isSlugChar c = true) ∧
      isValidSlug (slugify asciiLowerCase (js "Hello World")) = true :=
  ⟨by decide, slugify_valid asciiLowerCase (js "Hello World") (by decide)⟩

/-- C4: the result of `slugify` contains no whitespace, does not begin with a
hyphen, does not end with a hyphen, and contains no two adjacent hyphens. -/
theorem slugify_shape (toLowerCase : JSString → JSString) (x : JSString) :
    (∀ c ∈ slugify toLowerCase x, isWhitespace c = false) ∧
      (slugify toLowerCase x).head? ≠ some hyphen ∧
      (slugify toLowerCase x).getLast? ≠ some hyphen ∧
      ¬ [hyphen, hyphen] <:+: slugify toLowerCase x := by
  refine ⟨fun _ hc => isWhitespace_of_isSlugChar (mem_slugify hc), slugify_head _ _,
    slugify_getLast _ _, ?_⟩
  intro hinf
  have hch := slugify_noAdjacent toLowerCase x
  unfold NoAdjacent at hch
  have h2 := List.Chain'.infix hch hinf
  simp at h2

/-! ## Decimal numerals -/

theorem decimalValue_decimalAux : ∀ (fuel n : Nat), n < fuel →
    decimalValue (decimalAux fuel n) = n
  | 0, n, h => by omega
  | fuel + 1, n, h => by
    unfold decimalAux
    by_cases hn : n < 10
    · rw [if_pos hn]; simp [decimalValue]
    · rw [if_neg hn]
      simp only [decimalValue]
      rw [decimalValue_decimalAux fuel (n / 10) (by omega)]
      omega

theorem decimal_injective {a b : Nat} (h : decimal a = decimal b) : a = b := by
  unfold decimal at h
  have h2 := List.reverse_injective h
  have ha := decimalValue_decimalAux (a + 1) a (by omega)
  have hb := decimalValue_decimalAux (b + 1) b (by omega)
  rw [h2] at ha
  omega

theorem mem_decimalAux : ∀ (fuel n c : Nat), c ∈ decimalAux fuel n → 48 ≤ c ∧ c ≤ 57
  | 0, n, c, h => by simp [decimalAux] at h
  | fuel + 1, n, c, h => by
    unfold decimalAux at h
    by_cases hn : n < 10
    · rw [if_pos hn] at h
      simp only [List.mem_singleton] at h
      omega
    · rw [if_neg hn] at h
      rcases List.mem_cons.1 h with h1 | h1
      · omega
      · exact mem_decimalAux fuel (n / 10) c h1

theorem mem_decimal {n c : Nat} (h : c ∈ decimal n) : 48 ≤ c ∧ c ≤ 57 := by
  unfold decimal at h
  exact mem_decimalAux _ _ _ (List.mem_reverse.1 h)

theorem decimal_ne_nil (n : Nat) : decimal n ≠ [] := by
  unfold decimal decimalAux
  by_cases hn : n < 10
  · rw [if_pos hn]; simp
  · rw [if_neg hn]; simp

theorem isSlugChar_of_mem_suffixed {slug : JSString} {k c : Nat}
    (hs : ∀ c ∈ slug, isSlugChar c = true) (h : c ∈ suffixed slug k) : isSlugChar c = true := by
  unfold suffixed at h
  rcases List.mem_append.1 h with h1 | h1
  · exact hs c h1
  · rcases List.mem_cons.1 h1 with h2 | h2
    · subst h2; decide
    · have := mem_decimal h2
      simp only [isSlugChar, Bool.or_eq_true, Bool.and_eq_true, decide_eq_true_eq]
      omega

theorem isSlugChar_of_mem_candidate {slug : JSString} {k c : Nat}
    (hs : ∀ c ∈ slug, isSlugChar c = true) (h : c ∈ candidate slug k) : isSlugChar c = true := by
  unfold candidate at h
  split at h
  · exact hs c h
  · exact isSlugChar_of_mem_suffixed hs h

theorem suffixed_injective {slug slug' : JSString} {a b : Nat} (hs : slug = slug')
    (h : suffixed slug a = suffixed slug' b) : a = b := by
  subst hs
  unfold suffixed at h
  have := List.append_cancel_left h
  simp only [List.cons.injEq, true_and] at this
  exact decimal_injective this

theorem suffixed_ne_self (slug : JSString) (k : Nat) : suffixed slug k ≠ slug := by
  intro h
  have := congrArg List.length h
  simp [suffixed] at this

theorem candidate_injective (slug : JSString) {a b : Nat}
    (h : candidate slug a = candidate slug b) : a = b := by
  unfold candidate at h
  by_cases ha : a = 0 <;> by_cases hb : b = 0
  · omega
  · rw [if_pos ha, if_neg hb] at h
    exact absurd h.symm (suffixed_ne_self slug b)
  · rw [if_neg ha, if_pos hb] at h
    exact absurd h (suffixed_ne_self slug a)
  · rw [if_neg ha, if_neg hb] at h
    exact suffixed_injective rfl h

/-! ## The probing loop -/

theorem probeLoop_steps (taken : JSString → Bool) (slug : JSString) :
    ∀ (n fuel i : Nat), taken (candidate slug (i + n)) = false →
      (∀ j, i ≤ j → j < i + n → taken (candidate slug j) = true) → n < fuel →
      probeLoop taken slug fuel (i + 1) (candidate slug i) = some (candidate slug (i + n))
  | 0, 0, _, _, _, hf => by omega
  | 0, fuel + 1, i, hfree, _, _ => by
    unfold probeLoop
    rw [Nat.add_zero] at hfree
    simp [hfree]
  | n + 1, 0, _, _, _, hf => by omega
  | n + 1, fuel + 1, i, hfree, hbusy, hf => by
    unfold probeLoop
    rw [if_pos (hbusy i (le_refl i) (by omega))]
    have hc : suffixed slug (i + 1) = candidate slug (i + 1) := by
      unfold candidate
      rw [if_neg (by omega)]
    rw [hc, probeLoop_steps taken slug n fuel (i + 1)
      (by rw [show i + 1 + n = i + (n + 1) by omega]; exact hfree)
      (fun j h1 h2 => hbusy j (by omega) (by omega)) (by omega)]
    rw [show i + 1 + n = i + (n + 1) by omega]

/-- With enough fuel the loop returns the first candidate that is not
taken. -/
theorem probeLoop_first (taken : JSString → Bool) (slug : JSString) (m fuel : Nat)
    (hfree : taken (candidate slug m) = false)
    (hbusy : ∀ j, j < m → taken (candidate slug j) = true) (hf : m < fuel) :
    probeLoop taken slug fuel 1 slug = some (candidate slug m) := by
  have h := probeLoop_steps taken slug m fuel 0 (by rw [Nat.zero_add]; exact hfree)
    (fun j _ h2 => hbusy j (by omega)) hf
  rw [Nat.zero_add] at h
  simpa [candidate] using h

/-- Whatever the fuel, a result of the loop is the first candidate that is
not taken. -/
theorem probeLoop_some (taken : JSString → Bool) (slug : JSString) :
    ∀ (fuel i : Nat) (r : JSString),
      probeLoop taken slug fuel (i + 1) (candidate slug i) = some r →
      ∃ m, i ≤ m ∧ r = candidate slug m ∧ taken (candidate slug m) = false ∧
        ∀ j, i ≤ j → j < m → taken (candidate slug j) = true
  | 0, _, _, h => by simp [probeLoop] at h
  | fuel + 1, i, r, h => by
    unfold probeLoop at h
    by_cases ht : taken (candidate slug i) = true
    · rw [if_pos ht] at h
      have hc : suffixed slug (i + 1) = candidate slug (i + 1) := by
        unfold candidate
        rw [if_neg (by omega)]
      rw [hc] at h
      obtain ⟨m, hm, hr, hfree, hbusy⟩ := probeLoop_some taken slug fuel (i + 1) r h
      refine ⟨m, by omega, hr, hfree, fun j h1 h2 => ?_⟩
      by_cases hj : j = i
      · rw [hj]; exact ht
      · exact hbusy j (by omega) h2
    · rw [if_neg ht] at h
      refine ⟨i, le_refl i, (Option.some.inj h).symm, by simpa using ht, fun j h1 h2 => ?_⟩
      omega

theorem uniqueSlugLoop_eq_probeLoop (existingSlugs : List JSString) (slug : JSString) :
    ∀ (fuel counter : Nat) (u : JSString),
      uniqueSlugLoop existingSlugs slug fuel counter u =
        probeLoop (fun s => decide (s ∈ existingSlugs)) slug fuel counter u
  | 0, _, _ => rfl
  | fuel + 1, counter, u => by
    unfold uniqueSlugLoop probeLoop
    rw [uniqueSlugLoop_eq_probeLoop existingSlugs slug fuel]
    simp

theorem createSlugLoop_eq_probeLoop (toLowerCase : JSString → JSString) (store : Store)
    (slug : JSString) :
    ∀ (fuel counter : Nat) (u : JSString),
      createSlugLoop toLowerCase store slug fuel counter u =
        probeLoop (fun s => (findBySlug toLowerCase store s).isSome) slug fuel counter u
  | 0, _, _ => rfl
  | fuel + 1, counter, u => by
    unfold createSlugLoop probeLoop
    rw [createSlugLoop_eq_probeLoop toLowerCase store slug fuel]

/-- Among `n + 1` pairwise different strings one is missing from a list of
length `n`. -/
theorem exists_not_mem_of_injective (f : Nat → JSString) (l : List JSString) (start : Nat)
    (hf : ∀ a b, start ≤ a → start ≤ b → f a = f b → a = b) :
    ∃ k, start ≤ k ∧ k ≤ start + l.length ∧ f k ∉ l := by
  by_contra hcon
  push_neg at hcon
  have hnd : ((List.range' start (l.length + 1)).map f).Nodup := by
    apply List.Nodup.map_on
    · intro a ha b hb hab
      rw [List.mem_range'_1] at ha hb
      exact hf a b ha.1 hb.1 hab
    · exact List.nodup_range' _ _
  have hsub : (List.range' start (l.length + 1)).map f ⊆ l := by
    intro s hs
    obtain ⟨k, hk, rfl⟩ := List.mem_map.1 hs
    rw [List.mem_range'_1] at hk
    exact hcon k hk.1 (by omega)
  have := (List.subperm_of_subset hnd hsub).length_le
  simp at this

/-! ## `generateUniqueSlug` -/

theorem generateUniqueSlug_first (toLowerCase : JSString → JSString) (fuel : Nat)
    (text : JSString) (existingSlugs : List JSString) (m : Nat)
    (hfree : candidate (slugify toLowerCase text) m ∉ existingSlugs)
    (hbusy : ∀ j, j < m → candidate (slugify toLowerCase text) j ∈ existingSlugs)
    (hf : m < fuel) :
    generateUniqueSlug toLowerCase fuel text existingSlugs =
      some (candidate (slugify toLowerCase text) m) := by
  unfold generateUniqueSlug
  rw [uniqueSlugLoop_eq_probeLoop]
  exact probeLoop_first _ _ m fuel (by simpa using hfree) (fun j hj => by simpa using hbusy j hj) hf

/-- The first free candidate exists within the first `length + 1` candidates,
and the function returns it. -/
theorem generateUniqueSlug_least (toLowerCase : JSString → JSString) (fuel : Nat)
    (text : JSString) (existingSlugs : List JSString) (hf : existingSlugs.length < fuel) :
    ∃ m, m ≤ existingSlugs.length ∧
      generateUniqueSlug toLowerCase fuel text existingSlugs =
        some (candidate (slugify toLowerCase text) m) ∧
      candidate (slugify toLowerCase text) m ∉ existingSlugs ∧
      ∀ j, j < m → candidate (slugify toLowerCase text) j ∈ existingSlugs := by
  obtain ⟨k, -, hk, hfree⟩ := exists_not_mem_of_injective
    (candidate (slugify toLowerCase text)) existingSlugs 0
    (fun a b _ _ h => candidate_injective _ h)
  have hex : ∃ k, candidate (slugify toLowerCase text) k ∉ existingSlugs := ⟨k, hfree⟩
  have hle : Nat.find hex ≤ existingSlugs.length := by
    have := Nat.find_min' hex hfree
    omega
  have hbusy : ∀ j, j < Nat.find hex → candidate (slugify toLowerCase text) j ∈ existingSlugs :=
    fun j hj => by
      have := Nat.find_min hex hj
      simpa using this
  exact ⟨Nat.find hex, hle,
    generateUniqueSlug_first _ _ _ _ _ (Nat.find_spec hex) hbusy (by omega),
    Nat.find_spec hex, hbusy⟩

/-- C5: with more fuel than there are existing slugs, `generateUniqueSlug`
returns `slugify(text)` when that is not among the existing slugs, and
otherwise `slugify(text) + '-' + k` for the least `k >= 1` whose candidate is
not among them; the two examples of the specification hold for every
`toLowerCase` that obeys the laws. -/
theorem generateUniqueSlug_spec (toLowerCase : JSString → JSString) (fuel : Nat)
    (text : JSString) (existingSlugs : List JSString) (hfuel : existingSlugs.length < fuel) :
    (slugify toLowerCase text ∉ existingSlugs →
      generateUniqueSlug toLowerCase fuel text existingSlugs =
        some (slugify toLowerCase text)) ∧
    (slugify toLowerCase text ∈ existingSlugs →
      ∃ k, 1 ≤ k ∧
        generateUniqueSlug toLowerCase fuel text existingSlugs =
          some (slugify toLowerCase text ++ hyphen :: decimal k) ∧
        slugify toLowerCase text ++ hyphen :: decimal k ∉ existingSlugs ∧
        ∀ j, 1 ≤ j → j < k →
          slugify toLowerCase text ++ hyphen :: decimal j ∈ existingSlugs) ∧
    (LowerCaseLaws toLowerCase →
      generateUniqueSlug toLowerCase 3 (js "Hello World")
          [js "hello-world", js "hello-world-1"] = some (js "hello-world-2") ∧
        generateUniqueSlug toLowerCase 1 (js "Hello World") [] = some (js "hello-world")) := by
  obtain ⟨m, -, hres, hfree, hbusy⟩ :=
    generateUniqueSlug_least toLowerCase fuel text existingSlugs hfuel
  refine ⟨fun hnot => ?_, fun hin => ?_, fun hlaws => ?_⟩
  · have hm : m = 0 := by
      by_contra h0
      have := hbusy 0 (by omega)
      exact hnot (by simpa [candidate] using this)
    rw [hres, hm]
    simp [candidate]
  · have hm : m ≠ 0 := by
      intro h0
      rw [h0] at hfree
      exact hfree (by simpa [candidate] using hin)
    have hc : ∀ j, j ≠ 0 → candidate (slugify toLowerCase text) j =
        slugify toLowerCase text ++ hyphen :: decimal j := by
      intro j hj
      unfold candidate suffixed
      rw [if_neg hj]
    refine ⟨m, by omega, ?_, ?_, fun j h1 h2 => ?_⟩
    · rw [hres, hc m hm]
    · rw [← hc m hm]; exact hfree
    · rw [← hc j (by omega)]; exact hbusy j h2
  · have hs : slugify toLowerCase (js "Hello World") = js "hello-world" := by
      rw [slugify_ascii hlaws _ (by decide)]
      decide
    constructor
    · unfold generateUniqueSlug
      rw [hs]
      decide
    · unfold generateUniqueSlug
      rw [hs]
      decide

/-- The first-free-suffix statement at `"Hello World"` with two slugs taken. -/
theorem generateUniqueSlug_spec_witness :
    [js "hello-world", js "hello-world-1"].length < 3 ∧
      generateUniqueSlug asciiLowerCase 3 (js "Hello World")
        [js "hello-world", js "hello-world-1"] = some (js "hello-world-2") :=
  ⟨by decide,
    ((generateUniqueSlug_spec asciiLowerCase 3 (js "Hello World")
      [js "hello-world", js "hello-world-1"] (by decide)).2.2 asciiLowerCase_laws).1⟩

/-- C6: for every text and every finite list of existing slugs the probing
loop of `generateUniqueSlug` terminates, within one test more than the list
has elements, and the slug it returns is not a member of the list. -/
theorem generateUniqueSlug_terminates (toLowerCase : JSString → JSString) (fuel : Nat)
    (text : JSString) (existingSlugs : List JSString) (hfuel : existingSlugs.length < fuel) :
    ∃ r, generateUniqueSlug toLowerCase fuel text existingSlugs = some r ∧
      r ∉ existingSlugs := by
  obtain ⟨m, -, hres, hfree, -⟩ :=
    generateUniqueSlug_least toLowerCase fuel text existingSlugs hfuel
  exact ⟨_, hres, hfree⟩

/-- Termination with one slug taken and fuel 2. -/
theorem generateUniqueSlug_terminates_witness :
    [js "hello-world"].length < 2 ∧
      ∃ r, generateUniqueSlug asciiLowerCase 2 (js "Hello World") [js "hello-world"] = some r ∧
        r ∉ [js "hello-world"] :=
  ⟨by decide,
    generateUniqueSlug_terminates asciiLowerCase 2 (js "Hello World") [js "hello-world"]
      (by decide)⟩

/-! ## The slug probe of the create handler -/

theorem findBySlug_isSome (toLowerCase : JSString → JSString) (store : Store) (s : JSString) :
    (findBySlug toLowerCase store s).isSome = true ↔ SlugHeld store (trimLower toLowerCase s) := by
  unfold findBySlug SlugHeld
  rw [List.find?_isSome]
  constructor
  · rintro ⟨q, hq, hp⟩
    simp only [Bool.and_eq_true, beq_iff_eq, Option.isNone_iff_eq_none] at hp
    exact ⟨q, hq, hp.2, hp.1⟩
  · rintro ⟨q, hq, hd, hs⟩
    exact ⟨q, hq, by simp [hd, hs]⟩

theorem findBySlug_isSome_false (toLowerCase : JSString → JSString) (store : Store)
    (s : JSString) :
    (findBySlug toLowerCase store s).isSome = false ↔
      ¬ SlugHeld store (trimLower toLowerCase s) := by
  rw [← findBySlug_isSome, Bool.not_eq_true]

theorem findBySlug_mem {toLowerCase : JSString → JSString} {store : Store} {s : JSString}
    {post : Post} (h : findBySlug toLowerCase store s = some post) :
    post ∈ store ∧ post.slug = trimLower toLowerCase s ∧ post.deletedAt = none := by
  unfold findBySlug at h
  have h1 := List.mem_of_find?_eq_some h
  have h2 := List.find?_some h
  simp only [Bool.and_eq_true, beq_iff_eq, Option.isNone_iff_eq_none] at h2
  exact ⟨h1, h2.1, h2.2⟩

/-- What the probe of the create handler can return: the resolved slug when no
live document holds its stored form, and otherwise the first suffixed
candidate, counting from 1, whose stored form no live document holds. -/
theorem resolveSlug_some {toLowerCase : JSString → JSString} {fuel : Nat} {store : Store}
    {base r : JSString} (h : resolveSlug toLowerCase fuel store base = some r) :
    FirstFree (fun s => SlugHeld store (trimLower toLowerCase s)) base r := by
  unfold FirstFree
  unfold resolveSlug at h
  by_cases ht : (findBySlug toLowerCase store base).isSome = true
  · rw [if_pos ht, createSlugLoop_eq_probeLoop] at h
    have h0 : probeLoop (fun s => (findBySlug toLowerCase store s).isSome) base fuel (0 + 1)
        (candidate base 0) = some r := by simpa [candidate] using h
    obtain ⟨m, -, hr, hfree, hbusy⟩ := probeLoop_some _ _ _ _ _ h0
    have hm : m ≠ 0 := by
      intro hm0
      rw [hm0] at hfree
      simp only [candidate, if_true] at hfree
      rw [ht] at hfree
      cases hfree
    have hc : ∀ j, j ≠ 0 → candidate base j = suffixed base j := by
      intro j hj
      unfold candidate
      rw [if_neg hj]
    refine Or.inr ⟨(findBySlug_isSome _ _ _).1 ht, m, by omega, ?_, ?_, fun j h1 h2 => ?_⟩
    · rw [hr, hc m hm]
    · rw [← hc m hm]; exact (findBySlug_isSome_false _ _ _).1 hfree
    · rw [← hc j (by omega)]; exact (findBySlug_isSome _ _ _).1 (hbusy j (by omega) h2)
  · rw [if_neg ht] at h
    refine Or.inl ⟨?_, (Option.some.inj h).symm⟩
    show ¬ SlugHeld store (trimLower toLowerCase base)
    rw [← findBySlug_isSome]
    exact ht

theorem dropWhile_append_cons_of_neg (p : Nat → Bool) (a : Nat) (t : JSString)
    (ha : p a = false) : ∀ s : JSString,
    (s ++ a :: t).dropWhile p = s.dropWhile p ++ a :: t
  | [] => by simp [List.dropWhile, ha]
  | b :: s => by
    by_cases hb : p b = true
    · simp [List.dropWhile, hb, dropWhile_append_cons_of_neg p a t ha s]
    · simp [List.dropWhile, hb]

theorem rdropWhile_append_of_getLast (p : Nat → Bool) (s t : JSString) (ht : t ≠ [])
    (hp : p (t.getLast ht) = false) : (s ++ t).rdropWhile p = s ++ t := by
  rw [List.rdropWhile_eq_self_iff]
  intro hl
  rw [List.getLast_append_of_ne_nil ht]
  simp [hp]

theorem trim_suffixed (s : JSString) (k : Nat) :
    trim (suffixed s k) = suffixed (s.dropWhile isWhitespace) k := by
  unfold trim suffixed
  rw [dropWhile_append_cons_of_neg isWhitespace hyphen (decimal k) (by decide) s]
  apply rdropWhile_append_of_getLast _ _ _ (by simp)
  have hne : decimal k ≠ [] := decimal_ne_nil k
  rw [List.getLast_cons hne]
  have := mem_decimal (List.getLast_mem hne)
  simp only [isWhitespace, Bool.or_eq_false_iff, Bool.and_eq_false_iff, decide_eq_false_iff_not,
    beq_eq_false_iff_ne]
  omega

theorem trimLower_suffixed {toLowerCase : JSString → JSString} (h : LowerCaseLaws toLowerCase)
    (s : JSString) (k : Nat) :
    trimLower toLowerCase (suffixed s k) =
      suffixed (toLowerCase (s.dropWhile isWhitespace)) k := by
  unfold trimLower
  rw [trim_suffixed]
  unfold suffixed
  exact h.suffix _ _ (fun c hc => Or.inl (mem_decimal hc))

/-- With two more units of fuel than the collection has documents, the probe
of the create handler returns. -/
theorem resolveSlug_isSome {toLowerCase : JSString → JSString} (h : LowerCaseLaws toLowerCase)
    (fuel : Nat) (store : Store) (base : JSString) (hf : store.length + 2 ≤ fuel) :
    (resolveSlug toLowerCase fuel store base).isSome = true := by
  unfold resolveSlug
  by_cases ht : (findBySlug toLowerCase store base).isSome = true
  · rw [if_pos ht, createSlugLoop_eq_probeLoop]
    obtain ⟨k, hk1, hk2, hfree⟩ := exists_not_mem_of_injective
      (fun k => trimLower toLowerCase (suffixed base k)) (store.map Post.slug) 1
      (fun a b _ _ hab => by
        simp only [trimLower_suffixed h] at hab
        exact suffixed_injective rfl hab)
    have hck : candidate base k = suffixed base k := by
      unfold candidate
      rw [if_neg (by omega)]
    have hk : (findBySlug toLowerCase store (candidate base k)).isSome = false := by
      rw [findBySlug_isSome_false, hck]
      rintro ⟨q, hq, -, hs⟩
      exact hfree (List.mem_map.2 ⟨q, hq, hs⟩)
    have hex : ∃ m, (findBySlug toLowerCase store (candidate base m)).isSome = false := ⟨k, hk⟩
    have hle : Nat.find hex ≤ k := Nat.find_min' hex hk
    have hbusy : ∀ j, j < Nat.find hex →
        (findBySlug toLowerCase store (candidate base j)).isSome = true := by
      intro j hj
      have := Nat.find_min hex hj
      rw [Bool.not_eq_false] at this
      exact this
    rw [probeLoop_first _ base (Nat.find hex) fuel (Nat.find_spec hex) hbusy
      (by simp only [List.length_map] at hk2; omega)]
    rfl
  · rw [if_neg ht]
    rfl

/-! ## The create handler -/

theorem castData_slug (toLowerCase : JSString → JSString) (req : CreateRequest)
    (slug : JSString) :
    (castData toLowerCase (createData toLowerCase req slug now)).slug =
      trimLower toLowerCase slug := rfl

/-- Every way the create handler can answer: a refusal leaves the collection
alone; a created post goes to the end of the collection with the stored form
of the probed slug, which no document held. -/
theorem create_cases {toLowerCase : JSString → JSString} {fuel : Nat} {store store' : Store}
    {req : CreateRequest} {now : Nat} {r : Response}
    (h : create toLowerCase fuel store req now = some (r, store')) :
    ((∃ m, r = .badRequest m) ∧ store' = store) ∨
    (∃ slug status,
      resolveSlug toLowerCase fuel store (orElse req.slug (slugify toLowerCase req.title)) =
        some slug ∧
      parseStatus (req.status.getD (js "draft")) = some status ∧
      validData (castData toLowerCase (createData toLowerCase req slug now)) = true ∧
      (∀ q ∈ store, q.slug ≠ trimLower toLowerCase slug) ∧
      r = .created (newPost store.length
        (castData toLowerCase (createData toLowerCase req slug now)) status now) ∧
      store' = store ++ [newPost store.length
        (castData toLowerCase (createData toLowerCase req slug now)) status now]) := by
  unfold create at h
  split at h
  · simp only [Option.some.injEq, Prod.mk.injEq] at h
    exact Or.inl ⟨⟨_, h.1.symm⟩, h.2.symm⟩
  split at h
  · simp only [Option.some.injEq, Prod.mk.injEq] at h
    exact Or.inl ⟨⟨_, h.1.symm⟩, h.2.symm⟩
  split at h
  · simp only [Option.some.injEq, Prod.mk.injEq] at h
    exact Or.inl ⟨⟨_, h.1.symm⟩, h.2.symm⟩
  split at h
  · cases h
  next slug hslug =>
    simp only at h
    split at h
    · simp only [Option.some.injEq, Prod.mk.injEq] at h
      exact Or.inl ⟨⟨_, h.1.symm⟩, h.2.symm⟩
    next status hstatus =>
      split at h
      · simp only [Option.some.injEq, Prod.mk.injEq] at h
        exact Or.inl ⟨⟨_, h.1.symm⟩, h.2.symm⟩
      next hvalid =>
        split at h
        · simp only [Option.some.injEq, Prod.mk.injEq] at h
          exact Or.inl ⟨⟨_, h.1.symm⟩, h.2.symm⟩
        next hdup =>
          simp only [Option.some.injEq, Prod.mk.injEq] at h
          refine Or.inr ⟨slug, status, hslug, hstatus, by simpa using hvalid, ?_, h.1.symm,
            h.2.symm⟩
          intro q hq hs
          apply hdup
          rw [List.any_eq_true]
          exact ⟨q, hq, by simpa [castData_slug] using hs⟩

theorem create_created {toLowerCase : JSString → JSString} {fuel : Nat} {store store' : Store}
    {req : CreateRequest} {now : Nat} {p : Post}
    (h : create toLowerCase fuel store req now = some (.created p, store')) :
    ∃ slug,
      resolveSlug toLowerCase fuel store (orElse req.slug (slugify toLowerCase req.title)) =
        some slug ∧
      p.slug = trimLower toLowerCase slug ∧ (trimLower toLowerCase slug).all isSlugChar = true ∧
      (∀ q ∈ store, q.slug ≠ p.slug) ∧ p.id = store.length ∧ p.deletedAt = none ∧
      store' = store ++ [p] := by
  rcases create_cases h with ⟨⟨m, hm⟩, -⟩ | ⟨slug, status, hres, -, hvalid, hfresh, hr, hs⟩
  · cases hm
  · have hp : p = newPost store.length
        (castData toLowerCase (createData toLowerCase req slug now)) status now := by
      injection hr
    have hv : (trimLower toLowerCase slug).all isSlugChar = true := by
      unfold validData at hvalid
      simp only [Bool.and_eq_true] at hvalid
      exact hvalid.1.1.1.2.2
    refine ⟨slug, hres, by rw [hp]; rfl, hv, ?_, by rw [hp]; rfl, by rw [hp]; rfl, by rw [hs, hp]⟩
    rw [hp]
    exact hfresh

/-- With two more units of fuel than the collection has documents, the create
handler answers. -/
theorem create_isSome {toLowerCase : JSString → JSString} (h : LowerCaseLaws toLowerCase)
    (fuel : Nat) (store : Store) (req : CreateRequest) (now : Nat)
    (hf : store.length + 2 ≤ fuel) :
    (create toLowerCase fuel store req now).isSome = true := by
  have hres := resolveSlug_isSome h fuel store
    (orElse req.slug (slugify toLowerCase req.title)) hf
  obtain ⟨slug, hslug⟩ := Option.isSome_iff_exists.1 hres
  unfold create
  rw [hslug]
  simp only
  split
  · rfl
  split
  · rfl
  split
  · rfl
  split
  · rfl
  split
  · rfl
  split
  · rfl
  · rfl

theorem FirstFree.congr {held held' : JSString → Prop} {base r : JSString}
    (hb : held base ↔ held' base) (hs : ∀ j, held (suffixed base j) ↔ held' (suffixed base j))
    (h : FirstFree held base r) : FirstFree held' base r := by
  rcases h with ⟨h1, h2⟩ | ⟨h1, k, hk, hr, hfree, hbusy⟩
  · exact Or.inl ⟨fun h => h1 (hb.2 h), h2⟩
  · exact Or.inr ⟨hb.1 h1, k, hk, hr, fun h => hfree ((hs k).2 h),
      fun j h1 h2 => (hs j).1 (hbusy j h1 h2)⟩

theorem mem_orElse_slugify (toLowerCase : JSString → JSString) (custom title : JSString)
    (hc : ∀ c ∈ custom, isSlugChar c = true) :
    ∀ c ∈ orElse custom (slugify toLowerCase title), isSlugChar c = true := by
  intro c h
  unfold orElse at h
  split at h
  · exact mem_slugify h
  · exact hc c h

/-- The slug of a created post: the stored form of the first free candidate,
the candidate itself when the custom slug, if any, is written in `[a-z0-9-]`,
and in every case a slug that no document of the collection has. -/
theorem create_slug_firstFree {toLowerCase : JSString → JSString}
    (hlower : LowerCaseLaws toLowerCase) {fuel : Nat} {store store' : Store}
    {req : CreateRequest} {now : Nat} {p : Post}
    (h : create toLowerCase fuel store req now = some (.created p, store')) :
    (∃ c, FirstFree (fun s => SlugHeld store (trimLower toLowerCase s))
        (orElse req.slug (slugify toLowerCase req.title)) c ∧
      p.slug = trimLower toLowerCase c) ∧
    ((∀ c ∈ req.slug, isSlugChar c = true) →
      FirstFree (SlugHeld store) (orElse req.slug (slugify toLowerCase req.title)) p.slug) ∧
    (∀ q ∈ store, q.slug ≠ p.slug) := by
  obtain ⟨slug, hres, hp, -, hfresh, -, -, -⟩ := create_created h
  have hff := resolveSlug_some hres
  refine ⟨⟨slug, hff, hp⟩, fun hc => ?_, hfresh⟩
  have hbase := mem_orElse_slugify toLowerCase req.slug req.title hc
  have hfix : ∀ j, trimLower toLowerCase
      (suffixed (orElse req.slug (slugify toLowerCase req.title)) j) =
      suffixed (orElse req.slug (slugify toLowerCase req.title)) j :=
    fun j => trimLower_eq_self hlower _ (fun c h => isSlugChar_of_mem_suffixed hbase h)
  have hfix0 := trimLower_eq_self hlower _ hbase
  have hslug : trimLower toLowerCase slug = slug := by
    have hff' := hff
    unfold FirstFree at hff'
    rcases hff' with ⟨-, h2⟩ | ⟨-, k, -, h2, -, -⟩
    · rw [h2]; exact hfix0
    · rw [h2]; exact hfix k
  rw [hp, hslug]
  exact FirstFree.congr (by simp only [hfix0]) (fun j => by simp only [hfix j]) hff

theorem FirstFree.not_held {held : JSString → Prop} {base r : JSString}
    (h : FirstFree held base r) : ¬ held r := by
  rcases h with ⟨h1, h2⟩ | ⟨-, k, -, hr, hfree, -⟩
  · rw [h2]; exact h1
  · rw [hr]; exact hfree

/-- When the checks of the handler pass, the probe settles on `c`, the document
passes the validators of the schema and no document has the stored form of `c`
as slug, the create handler inserts the new post. -/
theorem create_of_valid {toLowerCase : JSString → JSString} {fuel : Nat} {store : Store}
    {req : CreateRequest} {now : Nat} {c : JSString} {status : Status}
    (htitle : req.title ≠ [] ∧ 3 ≤ req.title.length ∧ req.title.length ≤ 200)
    (hcontent : req.content ≠ [] ∧ 10 ≤ req.content.length)
    (hres : resolveSlug toLowerCase fuel store
      (orElse req.slug (slugify toLowerCase req.title)) = some c)
    (hstatus : parseStatus (castData toLowerCase (createData toLowerCase req c now)).status =
      some status)
    (hvalid : validData (castData toLowerCase (createData toLowerCase req c now)) = true)
    (hfree : ∀ q ∈ store, q.slug ≠ trimLower toLowerCase c) :
    create toLowerCase fuel store req now =
      some (.created (newPost store.length
          (castData toLowerCase (createData toLowerCase req c now)) status now),
        store ++ [newPost store.length
          (castData toLowerCase (createData toLowerCase req c now)) status now]) := by
  unfold create
  rw [if_neg (by rintro (h | h); exact htitle.1 h; exact hcontent.1 h),
    if_neg (by omega), if_neg (by omega), hres]
  simp only
  rw [hstatus]
  simp only
  rw [if_neg (by simp [hvalid]), if_neg]
  rw [List.any_eq_true]
  rintro ⟨q, hq, hs⟩
  exact hfree q hq (by simpa [castData_slug] using hs)

/-- C7, as amended: for a create request that passes the checks of the handler
(`title` and `content` present, `title` of 3 to 200 units, `content` of at
least 10), with `base` the custom slug if one is given and `slugify(title)`
otherwise, and with fuel exceeding the number of documents by two: the handler
answers, and its probe settles on the first free candidate `c`, `base` when no
live document has the stored form (trimmed and lower-cased by the schema) of
`base` as slug and otherwise `base-k` for the least `k >= 1` such that no live
document has the stored form of `base-k` as slug. The slug assigned to the new
post is the stored form of `c`; it is `c` itself when the custom slug, if any,
is written in `[a-z0-9-]`; it differs from the slug of every live document.
The post is created and stored with that slug whenever the document passes the
validators of the schema and no soft-deleted document holds the slug, and a
post that is created has that slug, which no document of the collection has. -/
theorem create_assigns_slug (toLowerCase : JSString → JSString)
    (hlower : LowerCaseLaws toLowerCase) (store : Store) (req : CreateRequest) (now fuel : Nat)
    (hfuel : store.length + 2 ≤ fuel)
    (htitle : req.title ≠ [] ∧ 3 ≤ req.title.length ∧ req.title.length ≤ 200)
    (hcontent : req.content ≠ [] ∧ 10 ≤ req.content.length) :
    (create toLowerCase fuel store req now).isSome = true ∧
    ∃ c,
      resolveSlug toLowerCase fuel store (orElse req.slug (slugify toLowerCase req.title)) =
        some c ∧
      FirstFree (fun s => SlugHeld store (trimLower toLowerCase s))
        (orElse req.slug (slugify toLowerCase req.title)) c ∧
      (castData toLowerCase (createData toLowerCase req c now)).slug = trimLower toLowerCase c ∧
      ((∀ ch ∈ req.slug, isSlugChar ch = true) →
        trimLower toLowerCase c = c ∧
        FirstFree (SlugHeld store) (orElse req.slug (slugify toLowerCase req.title)) c) ∧
      (∀ q ∈ store, q.deletedAt = none → q.slug ≠ trimLower toLowerCase c) ∧
      (∀ status,
        parseStatus (castData toLowerCase (createData toLowerCase req c now)).status =
          some status →
        validData (castData toLowerCase (createData toLowerCase req c now)) = true →
        (∀ q ∈ store, q.deletedAt ≠ none → q.slug ≠ trimLower toLowerCase c) →
        create toLowerCase fuel store req now =
          some (.created (newPost store.length
              (castData toLowerCase (createData toLowerCase req c now)) status now),
            store ++ [newPost store.length
              (castData toLowerCase (createData toLowerCase req c now)) status now])) ∧
      (∀ p store', create toLowerCase fuel store req now = some (.created p, store') →
        p.slug = trimLower toLowerCase c ∧ (∀ q ∈ store, q.slug ≠ p.slug) ∧
        store' = store ++ [p]) := by
  refine ⟨create_isSome hlower fuel store req now hfuel, ?_⟩
  obtain ⟨c, hres⟩ := Option.isSome_iff_exists.1
    (resolveSlug_isSome hlower fuel store (orElse req.slug (slugify toLowerCase req.title)) hfuel)
  have hff := resolveSlug_some hres
  have hlive : ∀ q ∈ store, q.deletedAt = none → q.slug ≠ trimLower toLowerCase c :=
    fun q hq hd hs => FirstFree.not_held hff ⟨q, hq, hd, hs⟩
  refine ⟨c, hres, hff, rfl, fun hc => ?_, hlive, fun status hstatus hvalid hdel => ?_,
    fun p store' h => ?_⟩
  · have hbase := mem_orElse_slugify toLowerCase req.slug req.title hc
    have hfix : ∀ j, trimLower toLowerCase
        (suffixed (orElse req.slug (slugify toLowerCase req.title)) j) =
        suffixed (orElse req.slug (slugify toLowerCase req.title)) j :=
      fun j => trimLower_eq_self hlower _ (fun c h => isSlugChar_of_mem_suffixed hbase h)
    have hfix0 := trimLower_eq_self hlower _ hbase
    have hslug : trimLower toLowerCase c = c := by
      have hff' := hff
      unfold FirstFree at hff'
      rcases hff' with ⟨-, h2⟩ | ⟨-, k, -, h2, -, -⟩
      · rw [h2]; exact hfix0
      · rw [h2]; exact hfix k
    exact ⟨hslug, FirstFree.congr (by simp only [hfix0]) (fun j => by simp only [hfix j]) hff⟩
  · apply create_of_valid htitle hcontent hres hstatus hvalid
    intro q hq
    by_cases hd : q.deletedAt = none
    · exact hlive q hq hd
    · exact hdel q hq hd
  · obtain ⟨slug, hres', hp, -, hfresh, -, -, hs⟩ := create_created h
    rw [hres] at hres'
    have hcs : c = slug := Option.some.inj hres'
    rw [hcs]
    exact ⟨hp, hfresh, hs⟩

/-- The slug assignment for `helloRequest` on a collection where a live post
holds `hello-world`: the probe settles on `hello-world-1` and the post is
created with that slug. -/
theorem create_assigns_slug_witness :
    FirstFree (SlugHeld [helloPost 0 (js "hello-world") 0])
        (orElse helloRequest.slug (slugify asciiLowerCase helloRequest.title))
        (js "hello-world-1") ∧
      create asciiLowerCase 3 [helloPost 0 (js "hello-world") 0] helloRequest 1 =
        some (.created (helloPost 1 (js "hello-world-1") 1),
          [helloPost 0 (js "hello-world") 0, helloPost 1 (js "hello-world-1") 1]) := by
  obtain ⟨-, c, hres, -, -, hplain, -, hcreate, -⟩ :=
    create_assigns_slug asciiLowerCase asciiLowerCase_laws [helloPost 0 (js "hello-world") 0]
      helloRequest 1 3 (by decide) (by decide) (by decide)
  have hc : c = js "hello-world-1" := by
    have h1 : resolveSlug asciiLowerCase 3 [helloPost 0 (js "hello-world") 0]
        (orElse helloRequest.slug (slugify asciiLowerCase helloRequest.title)) =
        some (js "hello-world-1") := by decide
    rw [h1] at hres
    exact (Option.some.inj hres).symm
  subst hc
  exact ⟨(hplain (by decide)).2, hcreate .draft (by decide) (by decide) (by decide)⟩

/-- The claim C7 fails for the custom slug `"ABC"` on the empty collection:
the post is created (201) with the slug `"abc"`, which is not `"ABC"`, the
first free candidate. -/
theorem create_custom_slug_lowercased :
    (create asciiLowerCase 2 [] { helloRequest with slug := js "ABC" } 0).map
        (fun r => (r.1.status, r.1.post?.map Post.slug)) = some (201, some (js "abc")) ∧
      ¬ FirstFree (SlugHeld []) (orElse (js "ABC") (slugify asciiLowerCase helloRequest.title))
        (js "abc") := by
  refine ⟨by decide, ?_⟩
  rintro (⟨-, h⟩ | ⟨⟨q, hq, -⟩, -⟩)
  · exact absurd h (by decide)
  · cases hq

/-- C8, as amended: two successive successful create requests with the same
title and no custom slug yield posts with distinct slugs; when no live document
holds `slugify(title)` or `slugify(title)` followed by `-1` before the first
request, the first post gets `slugify(title)` and the second that slug
followed by `-1`. -/
theorem create_twice (toLowerCase : JSString → JSString) (hlower : LowerCaseLaws toLowerCase)
    (fuel₁ fuel₂ : Nat) (store s₁ s₂ : Store) (req : CreateRequest) (now₁ now₂ : Nat)
    (p₁ p₂ : Post) (hslug : req.slug = [])
    (h₁ : create toLowerCase fuel₁ store req now₁ = some (.created p₁, s₁))
    (h₂ : create toLowerCase fuel₂ s₁ req now₂ = some (.created p₂, s₂)) :
    p₁.slug ≠ p₂.slug ∧
    (¬ SlugHeld store (slugify toLowerCase req.title) →
      ¬ SlugHeld store (slugify toLowerCase req.title ++ js "-1") →
      p₁.slug = slugify toLowerCase req.title ∧ p₂.slug = p₁.slug ++ js "-1") := by
  have hc : ∀ c ∈ req.slug, isSlugChar c = true := by rw [hslug]; simp
  have hbase : orElse req.slug (slugify toLowerCase req.title) = slugify toLowerCase req.title := by
    rw [hslug]; rfl
  have hs1 : suffixed (slugify toLowerCase req.title) 1 =
      slugify toLowerCase req.title ++ js "-1" := by
    unfold suffixed
    congr 1
  obtain ⟨-, -, -, -, -, -, hd₁, hstore₁⟩ := create_created h₁
  have ha₁ := (create_slug_firstFree hlower h₁).2
  have ha₂ := (create_slug_firstFree hlower h₂).2
  have hmem : p₁ ∈ s₁ := by rw [hstore₁]; simp
  refine ⟨ha₂.2 p₁ hmem, fun hfree0 hfree1 => ?_⟩
  have hp₁ : p₁.slug = slugify toLowerCase req.title := by
    have := ha₁.1 hc
    rw [hbase] at this
    rcases this with ⟨-, h⟩ | ⟨h, -⟩
    · exact h
    · exact absurd h hfree0
  refine ⟨hp₁, ?_⟩
  have := ha₂.1 hc
  rw [hbase] at this
  rcases this with ⟨h, -⟩ | ⟨-, k, hk, hr, -, hbusy⟩
  · exact absurd ⟨p₁, hmem, hd₁, hp₁⟩ h
  · have hk1 : k = 1 := by
      by_contra hne
      obtain ⟨q, hq, hqd, hqs⟩ := hbusy 1 (le_refl 1) (by omega)
      rw [hstore₁] at hq
      rcases List.mem_append.1 hq with hq | hq
      · exact hfree1 ⟨q, hq, hqd, by rw [hqs, hs1]⟩
      · simp only [List.mem_singleton] at hq
        rw [hq, hp₁] at hqs
        exact suffixed_ne_self _ _ hqs.symm
    rw [hr, hk1, hs1, hp₁]

/-- Two creations of `helloRequest` on the empty collection. -/
theorem create_twice_witness :
    (helloPost 0 (js "hello-world") 0).slug ≠ (helloPost 1 (js "hello-world-1") 1).slug ∧
      (helloPost 0 (js "hello-world") 0).slug = slugify asciiLowerCase helloRequest.title ∧
      (helloPost 1 (js "hello-world-1") 1).slug =
        (helloPost 0 (js "hello-world") 0).slug ++ js "-1" :=
  have h := create_twice asciiLowerCase asciiLowerCase_laws 1 3 []
    [helloPost 0 (js "hello-world") 0]
    [helloPost 0 (js "hello-world") 0, helloPost 1 (js "hello-world-1") 1]
    helloRequest 0 1 (helloPost 0 (js "hello-world") 0) (helloPost 1 (js "hello-world-1") 1)
    (by decide) (by decide) (by decide)
  ⟨h.1, h.2 (by rintro ⟨q, hq, -⟩; cases hq) (by rintro ⟨q, hq, -⟩; cases hq)⟩

/-- The claim C8 fails on a collection that already holds the slug: of three
successive creations of `helloRequest` from the empty collection, the second
gets `hello-world-1` and the third `hello-world-2`, not `hello-world-1-1`. -/
theorem create_third_not_suffix_of_second :
    (serve asciiLowerCase 4 [] 0
        [.create helloRequest, .create helloRequest, .create helloRequest]).map
      (fun r => r.1.map (fun response => (response.status, response.post?.map Post.slug))) =
      some [(201, some (js "hello-world")), (201, some (js "hello-world-1")),
        (201, some (js "hello-world-2"))] ∧
    js "hello-world-2" ≠ js "hello-world-1" ++ js "-1" := by
  constructor <;> decide

/-- C9, evaluated on the code: `helloRequest` is served and the post it
created is soft-deleted; no live document holds `hello-world` any more, yet
the same request is then refused with the duplicate-slug message and nothing
is stored, because the unique index still counts the deleted document. -/
theorem create_after_softDelete_refused :
    serve asciiLowerCase 2 [] 0 [.create helloRequest, .delete (js "hello-world")] =
        some ([.created (helloPost 0 (js "hello-world") 0), .deleted], deletedHello) ∧
      orElse helloRequest.slug (slugify asciiLowerCase helloRequest.title) = js "hello-world" ∧
      ¬ SlugHeld deletedHello (js "hello-world") ∧
      create asciiLowerCase 2 deletedHello helloRequest 2 =
        some (.badRequest .slugExists, deletedHello) := by
  refine ⟨by decide, by decide, ?_, by decide⟩
  rintro ⟨q, hq, hd, -⟩
  simp only [deletedHello, List.mem_singleton] at hq
  rw [hq] at hd
  cases hd

/-- C10: a create request whose title has fewer than 3 or more than 200 code
units, or whose content has fewer than 10, is answered with a 400 and the
collection is left as it was, whatever the fuel. -/
theorem create_rejects_bad_lengths (toLowerCase : JSString → JSString) (fuel : Nat)
    (store : Store) (req : CreateRequest) (now : Nat)
    (h : req.title.length < 3 ∨ 200 < req.title.length ∨ req.content.length < 10) :
    ∃ m, create toLowerCase fuel store req now = some (.badRequest m, store) ∧
      (Response.badRequest m).status = 400 := by
  unfold create
  by_cases h1 : req.title = [] ∨ req.content = []
  · rw [if_pos h1]
    exact ⟨_, rfl, rfl⟩
  · rw [if_neg h1]
    by_cases h2 : req.title.length < 3 ∨ req.title.length > 200
    · rw [if_pos h2]
      exact ⟨_, rfl, rfl⟩
    · rw [if_neg h2]
      have h3 : req.content.length < 10 := by omega
      rw [if_pos h3]
      exact ⟨_, rfl, rfl⟩

/-- The title `"Hi"` is refused on the empty collection. -/
theorem create_rejects_bad_lengths_witness :
    (js "Hi").length < 3 ∧
      ∃ m, create asciiLowerCase 0 [] (simpleRequest (js "Hi") (js "0123456789")) 0 =
          some (.badRequest m, []) ∧
        (Response.badRequest m).status = 400 :=
  ⟨by decide,
    create_rejects_bad_lengths asciiLowerCase 0 [] (simpleRequest (js "Hi") (js "0123456789")) 0
      (Or.inl (by decide))⟩

/-! ## The invariant of the collection -/

theorem StoreInv.id_injective {store : Store} (h : StoreInv store) {a b : Post}
    (ha : a ∈ store) (hb : b ∈ store) (hab : a.id = b.id) : a = b :=
  List.inj_on_of_nodup_map h.1 ha hb hab

theorem StoreInv.slug_injective {store : Store} (h : StoreInv store) {a b : Post}
    (ha : a ∈ store) (hb : b ∈ store) (hab : a.slug = b.slug) : a = b :=
  List.inj_on_of_nodup_map h.2.1 ha hb hab

theorem storeInv_nil : StoreInv [] := by
  simp [StoreInv]

theorem storeInv_append {store : Store} (h : StoreInv store) (p : Post)
    (hid : p.id = store.length) (hslug : ∀ q ∈ store, q.slug ≠ p.slug) :
    StoreInv (store ++ [p]) := by
  obtain ⟨h1, h2, h3⟩ := h
  refine ⟨?_, ?_, ?_⟩
  · rw [List.map_append, List.nodup_append]
    refine ⟨h1, by simp, ?_⟩
    intro a ha hb
    simp only [List.map_cons, List.map_nil, List.mem_singleton] at hb
    obtain ⟨q, hq, rfl⟩ := List.mem_map.1 ha
    have := h3 q hq
    omega
  · rw [List.map_append, List.nodup_append]
    refine ⟨h2, by simp, ?_⟩
    intro a ha hb
    simp only [List.map_cons, List.map_nil, List.mem_singleton] at hb
    obtain ⟨q, hq, rfl⟩ := List.mem_map.1 ha
    exact hslug q hq hb
  · intro q hq
    rw [List.length_append]
    rcases List.mem_append.1 hq with hq | hq
    · have := h3 q hq
      omega
    · simp only [List.mem_singleton] at hq
      rw [hq, hid]
      simp

theorem storeInv_replacePost {store : Store} (h : StoreInv store) {existing : Post} (post : Post)
    (hid : post.id = existing.id)
    (hslug : ∀ q ∈ store, q.id ≠ existing.id → q.slug ≠ post.slug) :
    StoreInv (replacePost store post) := by
  have hids : (replacePost store post).map Post.id = store.map Post.id := by
    unfold replacePost
    rw [List.map_map]
    apply List.map_congr_left
    intro q _
    simp only [Function.comp]
    split
    · next hq => rw [hq]
    · rfl
  refine ⟨by rw [hids]; exact h.1, ?_, ?_⟩
  · unfold replacePost
    rw [List.map_map]
    apply List.Nodup.map_on _ (List.Nodup.of_map _ h.1)
    intro a ha b hb hab
    simp only [Function.comp] at hab
    by_cases h1 : a.id = post.id <;> by_cases h2 : b.id = post.id
    · exact h.id_injective ha hb (by rw [h1, h2])
    · rw [if_pos h1, if_neg h2] at hab
      exact absurd hab.symm (hslug b hb (by rw [← hid]; exact h2))
    · rw [if_neg h1, if_pos h2] at hab
      exact absurd hab (hslug a ha (by rw [← hid]; exact h1))
    · rw [if_neg h1, if_neg h2] at hab
      exact h.slug_injective ha hb hab
  · intro q hq
    have hlen : (replacePost store post).length = store.length := by
      unfold replacePost
      rw [List.length_map]
    rw [hlen]
    have : q.id ∈ (replacePost store post).map Post.id := List.mem_map.2 ⟨q, hq, rfl⟩
    rw [hids] at this
    obtain ⟨q', hq', hqq⟩ := List.mem_map.1 this
    rw [← hqq]
    exact h.2.2 q' hq'

theorem storeInv_saveExisting {store : Store} (h : StoreInv store) {existing : Post}
    (post : Post) (now : Nat) (he : existing ∈ store) (hid : post.id = existing.id)
    (hs : post.slug = existing.slug) : StoreInv (saveExisting store post now).2 := by
  simp only [saveExisting]
  refine storeInv_replacePost h
    { post with readTime := savedReadTime post.content post.readTime, updatedAt := now } hid ?_
  intro q hq hne heq
  apply hne
  have : q = existing := h.slug_injective hq he (by rw [heq]; exact hs)
  rw [this]

theorem findByIdAndUpdate_cases {toLowerCase : JSString → JSString} {store store' : Store}
    {existing : Post} {data : PostData} {now : Nat} {r : Response}
    (h : findByIdAndUpdate toLowerCase store existing data now = (r, store')) :
    store' = store ∨
    ∃ post, post.id = existing.id ∧
      (∀ q ∈ store, q.id ≠ existing.id → q.slug ≠ post.slug) ∧
      store' = replacePost store post := by
  unfold findByIdAndUpdate at h
  simp only at h
  split at h
  · exact Or.inl (Prod.mk.inj h).2.symm
  next status hstatus =>
    split at h
    · exact Or.inl (Prod.mk.inj h).2.symm
    split at h
    · exact Or.inl (Prod.mk.inj h).2.symm
    next hdup =>
      refine Or.inr ⟨updatedPost existing (castData toLowerCase data) status now, rfl, ?_,
        (Prod.mk.inj h).2.symm⟩
      intro q hq hne heq
      apply hdup
      rw [List.any_eq_true]
      exact ⟨q, hq, by simpa [hne, updatedPost] using heq⟩

/-- Every way the update handler can answer: either the collection is left
alone, or one document is replaced by one with the same identifier and a slug
that no other document holds. -/
theorem update_cases {toLowerCase : JSString → JSString} {store store' : Store}
    {slug : JSString} {req : UpdateRequest} {now : Nat} {r : Response}
    (h : update toLowerCase store slug req now = (r, store')) :
    store' = store ∨
    ∃ existing post, existing ∈ store ∧ post.id = existing.id ∧
      (∀ q ∈ store, q.id ≠ existing.id → q.slug ≠ post.slug) ∧
      store' = replacePost store post := by
  unfold update at h
  split at h
  · exact Or.inl (Prod.mk.inj h).2.symm
  next existing hfind =>
    have hmem := (findBySlug_mem hfind).1
    have key : ∀ data, findByIdAndUpdate toLowerCase store existing data now = (r, store') →
        store' = store ∨
        ∃ existing post, existing ∈ store ∧ post.id = existing.id ∧
          (∀ q ∈ store, q.id ≠ existing.id → q.slug ≠ post.slug) ∧
          store' = replacePost store post := by
      intro data hd
      rcases findByIdAndUpdate_cases hd with hs | ⟨post, h1, h2, h3⟩
      · exact Or.inl hs
      · exact Or.inr ⟨existing, post, hmem, h1, h2, h3⟩
    split at h
    · exact Or.inl (Prod.mk.inj h).2.symm
    split at h
    · exact Or.inl (Prod.mk.inj h).2.symm
    split at h
    · exact Or.inl (Prod.mk.inj h).2.symm
    split at h
    · split at h
      · exact Or.inl (Prod.mk.inj h).2.symm
      · exact key _ h
    · exact key _ h

theorem storeInv_handle {toLowerCase : JSString → JSString} {fuel now : Nat}
    {store store' : Store} {request : Request} {response : Response}
    (h : StoreInv store)
    (hstep : handle toLowerCase fuel store now request = some (response, store')) :
    StoreInv store' := by
  cases request with
  | create req =>
    simp only [handle] at hstep
    rcases create_cases hstep with ⟨-, hs⟩ | ⟨slug, status, -, -, -, hfresh, -, hs⟩
    · rw [hs]; exact h
    · rw [hs]
      exact storeInv_append h _ rfl hfresh
  | update slug req =>
    simp only [handle, Option.some.injEq] at hstep
    rcases update_cases hstep with hs | ⟨existing, post, -, hid, hslug, hs⟩
    · rw [hs]; exact h
    · rw [hs]
      exact storeInv_replacePost h post hid hslug
  | view slug =>
    simp only [handle, Option.some.injEq, getPost] at hstep
    split at hstep
    · rw [← (Prod.mk.inj hstep).2]; exact h
    next post hfind =>
      rw [← (Prod.mk.inj hstep).2]
      exact storeInv_saveExisting h _ now (findBySlug_mem hfind).1 rfl rfl
  | delete slug =>
    simp only [handle, Option.some.injEq, deletePost] at hstep
    split at hstep
    · rw [← (Prod.mk.inj hstep).2]; exact h
    next post hfind =>
      rw [← (Prod.mk.inj hstep).2]
      exact storeInv_saveExisting h _ now (findBySlug_mem hfind).1 rfl rfl

theorem storeInv_of_reachable {toLowerCase : JSString → JSString} {store : Store}
    (h : Reachable toLowerCase store) : StoreInv store := by
  induction h with
  | empty => exact storeInv_nil
  | step _ hstep ih => exact storeInv_handle ih hstep

theorem reachable_serve {toLowerCase : JSString → JSString} (fuel : Nat) :
    ∀ (requests : List Request) (store : Store) (now : Nat) (responses : List Response)
      (final : Store), Reachable toLowerCase store →
      serve toLowerCase fuel store now requests = some (responses, final) →
      Reachable toLowerCase final
  | [], store, now, responses, final, hr, h => by
    simp only [serve, Option.some.injEq, Prod.mk.injEq] at h
    rw [← h.2]; exact hr
  | request :: rest, store, now, responses, final, hr, h => by
    unfold serve at h
    split at h
    · cases h
    next response store' hstep =>
      split at h
      · cases h
      next responses' final' hrest =>
        simp only [Option.some.injEq, Prod.mk.injEq] at h
        rw [← h.2]
        exact reachable_serve fuel rest store' (now + 1) responses' final'
          (Reachable.step hr hstep) hrest

/-- C1: in every collection reached from the empty one by serving create,
update, view and delete requests one after the other, the slugs of the
documents whose `deletedAt` is null are pairwise different: their list has no
duplicate, and two live documents with the same slug are the same document. -/
theorem reachable_live_slugs_unique (toLowerCase : JSString → JSString) (store : Store)
    (h : Reachable toLowerCase store) :
    ((store.filter (fun p => p.deletedAt.isNone)).map Post.slug).Nodup ∧
      ∀ p ∈ store, ∀ q ∈ store, p.deletedAt = none → q.deletedAt = none →
        p.slug = q.slug → p = q := by
  have hinv := storeInv_of_reachable h
  exact ⟨List.Nodup.sublist ((List.filter_sublist store).map Post.slug) hinv.2.1,
    fun p hp q hq _ _ hs => hinv.slug_injective hp hq hs⟩

/-- The collection `viewedAndDeleted`, reached by two creations of
`helloRequest`, a view and a deletion, has pairwise different live slugs. -/
theorem reachable_live_slugs_unique_witness :
    Reachable asciiLowerCase viewedAndDeleted ∧
      ((viewedAndDeleted.filter (fun p => p.deletedAt.isNone)).map Post.slug).Nodup :=
  have hr : Reachable asciiLowerCase viewedAndDeleted :=
    reachable_serve 3
      [.create helloRequest, .create helloRequest, .view (js "hello-world"),
        .delete (js "hello-world-1")] [] 0
      [.created (helloPost 0 (js "hello-world") 0), .created (helloPost 1 (js "hello-world-1") 1),
        .ok { helloPost 0 (js "hello-world") 0 with viewCount := 2, updatedAt := 2 }, .deleted]
      viewedAndDeleted Reachable.empty (by decide)
  ⟨hr, (reachable_live_slugs_unique asciiLowerCase viewedAndDeleted hr).1⟩

/-! ## Defaults of `metaDescription` and `metaTitle` -/

/-- A created post is the document built from the cast data, and the data
passed the validators. -/
theorem create_created_eq {toLowerCase : JSString → JSString} {fuel : Nat}
    {store store' : Store} {req : CreateRequest} {now : Nat} {p : Post}
    (h : create toLowerCase fuel store req now = some (.created p, store')) :
    ∃ slug status,
      parseStatus (req.status.getD (js "draft")) = some status ∧
      validData (castData toLowerCase (createData toLowerCase req slug now)) = true ∧
      p = newPost store.length (castData toLowerCase (createData toLowerCase req slug now))
        status now ∧
      store' = store ++ [p] := by
  rcases create_cases h with ⟨⟨m, hm⟩, -⟩ | ⟨slug, status, -, hstatus, hvalid, -, hr, hs⟩
  · cases hm
  · have hp : p = newPost store.length
        (castData toLowerCase (createData toLowerCase req slug now)) status now := by
      injection hr
    exact ⟨slug, status, hstatus, hvalid, hp, by rw [hs, hp]⟩

theorem validData_metaDescription {d : PostData} (h : validData d = true) :
    d.metaDescription.length ≤ 160 := by
  unfold validData at h
  simp only [Bool.and_eq_true, decide_eq_true_eq] at h
  exact h.1.2

theorem validData_metaTitle {d : PostData} (h : validData d = true) :
    d.metaTitle.length ≤ 60 := by
  unfold validData at h
  simp only [Bool.and_eq_true, decide_eq_true_eq] at h
  exact h.1.1.2

theorem validData_slug {d : PostData} (h : validData d = true) :
    d.slug ≠ [] ∧ ∀ c ∈ d.slug, isSlugChar c = true := by
  unfold validData at h
  simp only [Bool.and_eq_true, bne_iff_ne, ne_eq, List.all_eq_true] at h
  exact h.1.1.1.2

theorem length_defaultMetaDescription (content : JSString) :
    (defaultMetaDescription content).length = min 160 (stripTags content).length + 3 := by
  unfold defaultMetaDescription
  rw [List.length_append, List.length_take]
  rfl

/-- C11, as amended: when create is given no `metaDescription` and stores the
post, the `metaDescription` of the post is the first 160 code units of the
tag-stripped content followed by `"..."`, the ellipsis being appended whatever
the length; for a stored post this is the whole stripped content followed by
`"..."`. -/
theorem create_default_metaDescription (toLowerCase : JSString → JSString) (fuel : Nat)
    (store store' : Store) (req : CreateRequest) (now : Nat) (p : Post)
    (hnone : req.metaDescription = [])
    (h : create toLowerCase fuel store req now = some (.created p, store')) :
    p.metaDescription = (stripTags req.content).take 160 ++ js "..." ∧
      p.metaDescription = stripTags req.content ++ js "..." := by
  obtain ⟨slug, status, -, hvalid, hp, -⟩ := create_created_eq h
  have hm : p.metaDescription = defaultMetaDescription req.content := by
    rw [hp]
    show orElse req.metaDescription (defaultMetaDescription req.content) = _
    rw [hnone]
    rfl
  have hlen := validData_metaDescription hvalid
  have hlen' : (defaultMetaDescription req.content).length ≤ 160 := by
    rw [← hm, hp]
    exact hlen
  rw [length_defaultMetaDescription] at hlen'
  have hshort : (stripTags req.content).length ≤ 160 := by omega
  refine ⟨hm, ?_⟩
  rw [hm]
  unfold defaultMetaDescription
  rw [List.take_of_length_le hshort]

/-- The default `metaDescription` of the post created from `helloRequest`. -/
theorem create_default_metaDescription_witness :
    (helloPost 0 (js "hello-world") 0).metaDescription = js "0123456789..." :=
  ((create_default_metaDescription asciiLowerCase 2 [] [helloPost 0 (js "hello-world") 0]
    helloRequest 0 (helloPost 0 (js "hello-world") 0) (by decide) (by decide)).2).trans
    (by decide)

/-- The claim C11 fails on `helloRequest`: the tag-stripped content
`"0123456789"` has 10 code units, at most 160, yet the post is created with the
`metaDescription` `"0123456789..."`, not with the stripped content itself. -/
theorem create_short_content_gets_ellipsis :
    (create asciiLowerCase 2 [] helloRequest 0).map
        (fun r => (r.1.status, r.1.post?.map Post.metaDescription)) =
        some (201, some (js "0123456789...")) ∧
      helloRequest.metaDescription = [] ∧
      stripTags helloRequest.content = js "0123456789" ∧
      (stripTags helloRequest.content).length ≤ 160 ∧
      js "0123456789..." ≠ stripTags helloRequest.content := by
  refine ⟨by decide, by decide, by decide, by decide, by decide⟩

set_option maxRecDepth 100000

/-- C12, evaluated on the code: for a content of 158 letters `a`, which passes
the content check, the default `metaDescription` has 161 code units; the create
request is answered 400 `Validation failed` and stores nothing, and so is the
update request with that content on the collection holding the post of
`helloRequest`; the same create request with a `metaDescription` of its own is
answered 201. -/
theorem default_metaDescription_too_long :
    10 ≤ (List.replicate 158 97).length ∧
      (defaultMetaDescription (List.replicate 158 97)).length = 161 ∧
      create asciiLowerCase 2 [] (simpleRequest (js "Hello World") (List.replicate 158 97)) 0 =
        some (.badRequest .validationFailed, []) ∧
      update asciiLowerCase [helloPost 0 (js "hello-world") 0] (js "hello-world")
          (simpleUpdate (js "Hello World") (List.replicate 158 97)) 1 =
        (.badRequest .validationFailed, [helloPost 0 (js "hello-world") 0]) ∧
      (create asciiLowerCase 2 []
          { simpleRequest (js "Hello World") (List.replicate 158 97) with
            metaDescription := js "summary" } 0).map (fun r => r.1.status) = some 201 := by
  refine ⟨by decide, by decide, by decide, by decide, by decide⟩

/-- C13, evaluated on the code: a title of 61 letters `a` passes the title
check of the handler (3 to 200), the default `metaTitle` is the title itself
with its 61 code units, and the create request is answered 400
`Validation failed` and stores nothing; the same request with a `metaTitle` of
its own is answered 201. -/
theorem default_metaTitle_too_long :
    3 ≤ (List.replicate 61 97).length ∧ (List.replicate 61 97).length ≤ 200 ∧
      (createData asciiLowerCase (simpleRequest (List.replicate 61 97) (js "0123456789"))
        (List.replicate 61 97) 0).metaTitle = List.replicate 61 97 ∧
      create asciiLowerCase 2 [] (simpleRequest (List.replicate 61 97) (js "0123456789")) 0 =
        some (.badRequest .validationFailed, []) ∧
      (create asciiLowerCase 2 []
          { simpleRequest (List.replicate 61 97) (js "0123456789") with
            metaTitle := js "short" } 0).map (fun r => r.1.status) = some 201 := by
  refine ⟨by decide, by decide, by decide, by decide, by decide⟩

/-! ## The update handler -/

theorem parseStatus_toJS (status : Status) : parseStatus status.toJS = some status := by
  cases status <;> decide

theorem parseStatus_published {s : JSString} (h : parseStatus s = some .published) :
    s = js "published" := by
  unfold parseStatus at h
  split at h
  · cases h
  split at h
  · assumption
  split at h
  · cases h
  · cases h

/-- What `findByIdAndUpdate` can answer: a refusal that leaves the collection
alone, or the updated document, valid and with a slug no other document
holds, put in place of the existing one. -/
theorem findByIdAndUpdate_result {toLowerCase : JSString → JSString} {store store' : Store}
    {existing : Post} {data : PostData} {now : Nat} {r : Response}
    (h : findByIdAndUpdate toLowerCase store existing data now = (r, store')) :
    ((∃ m, r = .badRequest m) ∧ store' = store) ∨
    ∃ status, parseStatus data.status = some status ∧
      validData (castData toLowerCase data) = true ∧
      (∀ q ∈ store, q.id ≠ existing.id → q.slug ≠ (castData toLowerCase data).slug) ∧
      r = .ok (updatedPost existing (castData toLowerCase data) status now) ∧
      store' = replacePost store (updatedPost existing (castData toLowerCase data) status now) := by
  unfold findByIdAndUpdate at h
  simp only at h
  split at h
  · exact Or.inl ⟨⟨_, (Prod.mk.inj h).1.symm⟩, (Prod.mk.inj h).2.symm⟩
  next status hstatus =>
    split at h
    · exact Or.inl ⟨⟨_, (Prod.mk.inj h).1.symm⟩, (Prod.mk.inj h).2.symm⟩
    next hvalid =>
      split at h
      · exact Or.inl ⟨⟨_, (Prod.mk.inj h).1.symm⟩, (Prod.mk.inj h).2.symm⟩
      next hdup =>
        refine Or.inr ⟨status, hstatus, by simpa using hvalid, ?_, (Prod.mk.inj h).1.symm,
          (Prod.mk.inj h).2.symm⟩
        intro q hq hne heq
        apply hdup
        rw [List.any_eq_true]
        exact ⟨q, hq, by simpa [hne] using heq⟩

/-- What the update handler can answer: 404 or a refusal, which leave the
collection alone, or the updated document put in place of the one found. -/
theorem update_result {toLowerCase : JSString → JSString} {store store' : Store}
    {slug : JSString} {req : UpdateRequest} {now : Nat} {r : Response}
    (h : update toLowerCase store slug req now = (r, store')) :
    ((r = .notFound ∨ ∃ m, r = .badRequest m) ∧ store' = store) ∨
    ∃ existing status, findBySlug toLowerCase store slug = some existing ∧
      parseStatus (orElse req.status existing.status.toJS) = some status ∧
      validData (castData toLowerCase
        (updateData toLowerCase existing req (updatedSlugOf toLowerCase existing req slug) now))
        = true ∧
      (∀ q ∈ store, q.id ≠ existing.id →
        q.slug ≠ trimLower toLowerCase (updatedSlugOf toLowerCase existing req slug)) ∧
      r = .ok (updatedPost existing (castData toLowerCase
        (updateData toLowerCase existing req (updatedSlugOf toLowerCase existing req slug) now))
        status now) ∧
      store' = replacePost store (updatedPost existing (castData toLowerCase
        (updateData toLowerCase existing req (updatedSlugOf toLowerCase existing req slug) now))
        status now) := by
  unfold update at h
  split at h
  · exact Or.inl ⟨Or.inl (Prod.mk.inj h).1.symm, (Prod.mk.inj h).2.symm⟩
  next existing hfind =>
    have key : ∀ updatedSlug, updatedSlug = updatedSlugOf toLowerCase existing req slug →
        findByIdAndUpdate toLowerCase store existing
          (updateData toLowerCase existing req updatedSlug now) now = (r, store') →
        ((r = .notFound ∨ ∃ m, r = .badRequest m) ∧ store' = store) ∨
        ∃ existing status, findBySlug toLowerCase store slug = some existing ∧
          parseStatus (orElse req.status existing.status.toJS) = some status ∧
          validData (castData toLowerCase (updateData toLowerCase existing req
            (updatedSlugOf toLowerCase existing req slug) now)) = true ∧
          (∀ q ∈ store, q.id ≠ existing.id →
            q.slug ≠ trimLower toLowerCase (updatedSlugOf toLowerCase existing req slug)) ∧
          r = .ok (updatedPost existing (castData toLowerCase (updateData toLowerCase existing req
            (updatedSlugOf toLowerCase existing req slug) now)) status now) ∧
          store' = replacePost store (updatedPost existing (castData toLowerCase
            (updateData toLowerCase existing req
              (updatedSlugOf toLowerCase existing req slug) now)) status now) := by
      intro updatedSlug hu hd
      rw [hu] at hd
      rcases findByIdAndUpdate_result hd with ⟨hm, hs⟩ | ⟨status, h1, h2, h3, h4, h5⟩
      · exact Or.inl ⟨Or.inr hm, hs⟩
      · exact Or.inr ⟨existing, status, hfind, h1, h2, h3, h4, h5⟩
    split at h
    · exact Or.inl ⟨Or.inr ⟨_, (Prod.mk.inj h).1.symm⟩, (Prod.mk.inj h).2.symm⟩
    split at h
    · exact Or.inl ⟨Or.inr ⟨_, (Prod.mk.inj h).1.symm⟩, (Prod.mk.inj h).2.symm⟩
    split at h
    · exact Or.inl ⟨Or.inr ⟨_, (Prod.mk.inj h).1.symm⟩, (Prod.mk.inj h).2.symm⟩
    split at h
    next hchange =>
      split at h
      · exact Or.inl ⟨Or.inr ⟨_, (Prod.mk.inj h).1.symm⟩, (Prod.mk.inj h).2.symm⟩
      · exact key _ (by unfold updatedSlugOf; rw [if_pos hchange]) h
    next hchange =>
      exact key _ (by unfold updatedSlugOf; rw [if_neg hchange]) h

/-- A successful update: the document found under the path slug is replaced
by its updated version. -/
theorem update_ok {toLowerCase : JSString → JSString} {store store' : Store}
    {slug : JSString} {req : UpdateRequest} {now : Nat} {p : Post}
    (h : update toLowerCase store slug req now = (.ok p, store')) :
    ∃ existing status, findBySlug toLowerCase store slug = some existing ∧
      parseStatus (orElse req.status existing.status.toJS) = some status ∧
      validData (castData toLowerCase
        (updateData toLowerCase existing req (updatedSlugOf toLowerCase existing req slug) now))
        = true ∧
      p = updatedPost existing (castData toLowerCase
        (updateData toLowerCase existing req (updatedSlugOf toLowerCase existing req slug) now))
        status now ∧
      store' = replacePost store p := by
  rcases update_result h with ⟨h1 | ⟨m, h1⟩, -⟩ | ⟨existing, status, h1, h2, h3, -, h5, h6⟩
  · cases h1
  · cases h1
  · have hp : p = updatedPost existing (castData toLowerCase (updateData toLowerCase existing req
        (updatedSlugOf toLowerCase existing req slug) now)) status now := by
      injection h5
    exact ⟨existing, status, h1, h2, h3, hp, by rw [h6, hp]⟩

theorem mem_replacePost {store : Store} {existing post : Post} (he : existing ∈ store)
    (hid : existing.id = post.id) : post ∈ replacePost store post := by
  unfold replacePost
  rw [List.mem_map]
  exact ⟨existing, he, by rw [if_pos hid]⟩

theorem mem_replacePost_cases {store : Store} {post q : Post}
    (h : q ∈ replacePost store post) :
    (q = post ∧ ∃ q₀ ∈ store, q₀.id = post.id) ∨ (q ∈ store ∧ q.id ≠ post.id) := by
  unfold replacePost at h
  obtain ⟨q₀, hq₀, hq⟩ := List.mem_map.1 h
  by_cases hid : q₀.id = post.id
  · rw [if_pos hid] at hq
    exact Or.inl ⟨hq.symm, q₀, hq₀, hid⟩
  · rw [if_neg hid] at hq
    rw [← hq]
    exact Or.inr ⟨hq₀, hid⟩

/-- C14: a successful update in which the title equals the stored title or no
`newSlug` is supplied leaves the slug of the post as it was, whatever the new
content and title; the updated post keeps its identifier and is the one
stored. -/
theorem update_keeps_slug (toLowerCase : JSString → JSString) (store store' : Store)
    (slug : JSString) (req : UpdateRequest) (now : Nat) (existing p : Post)
    (hfind : findBySlug toLowerCase store slug = some existing)
    (hsame : req.title = existing.title ∨ req.newSlug = [])
    (h : update toLowerCase store slug req now = (.ok p, store')) :
    p.slug = existing.slug ∧ p.id = existing.id ∧ p ∈ store' := by
  obtain ⟨existing', status, hfind', -, -, hp, hs⟩ := update_ok h
  have he : existing' = existing := by
    rw [hfind] at hfind'
    exact (Option.some.inj hfind').symm
  subst he
  have hslug : updatedSlugOf toLowerCase existing' req slug = slug := by
    unfold updatedSlugOf
    rw [if_neg]
    rintro ⟨h1, h2⟩
    rcases hsame with h3 | h3
    · exact h1 h3
    · exact h2 h3
  have hmem := findBySlug_mem hfind
  refine ⟨?_, by rw [hp]; rfl, ?_⟩
  · rw [hp]
    show trimLower toLowerCase (updatedSlugOf toLowerCase existing' req slug) = _
    rw [hslug, hmem.2.1]
  · rw [hs]
    exact mem_replacePost hmem.1 (by rw [hp]; rfl)

/-- The post of `helloRequest` keeps the slug `hello-world` when only its
content is updated. -/
theorem update_keeps_slug_witness :
    updatedHello.content = js "A new content" ∧
      updatedHello.slug = (helloPost 0 (js "hello-world") 0).slug ∧
      updatedHello.id = (helloPost 0 (js "hello-world") 0).id ∧
      updatedHello ∈ [updatedHello] :=
  ⟨by decide,
    update_keeps_slug asciiLowerCase [helloPost 0 (js "hello-world") 0] [updatedHello]
      (js "hello-world") contentUpdate 1 (helloPost 0 (js "hello-world") 0) updatedHello
      (by decide) (Or.inr (by decide)) (by decide)⟩

/-- The conflict check of the update handler: when the title changed, a new
slug is given and another live document holds the stored form of
`slugify(newSlug)`, the answer is 400 with the duplicate-slug message and the
collection is left alone. -/
theorem update_conflict (toLowerCase : JSString → JSString) (store : Store) (slug : JSString)
    (req : UpdateRequest) (now : Nat) (existing other : Post)
    (hfind : findBySlug toLowerCase store slug = some existing)
    (htitle : 3 ≤ req.title.length ∧ req.title.length ≤ 200)
    (hcontent : 10 ≤ req.content.length)
    (hchange : req.title ≠ existing.title) (hnew : req.newSlug ≠ [])
    (hother : other ∈ store) (hid : other.id ≠ existing.id) (hlive : other.deletedAt = none)
    (hslug : other.slug = trimLower toLowerCase (slugify toLowerCase req.newSlug)) :
    update toLowerCase store slug req now = (.badRequest .slugExists, store) := by
  unfold update
  rw [hfind]
  simp only
  have h1 : ¬(req.title = [] ∨ req.content = []) := by
    rintro (h | h)
    · rw [h] at htitle; simp at htitle
    · rw [h] at hcontent; simp at hcontent
  have h2 : ¬(req.title.length < 3 ∨ req.title.length > 200) := by omega
  have h3 : ¬ req.content.length < 10 := by omega
  rw [if_neg h1, if_neg h2, if_neg h3, if_pos ⟨hchange, hnew⟩, if_pos]
  rw [List.any_eq_true]
  exact ⟨other, hother, by simp [hslug, hid, hlive]⟩

/-- C15, evaluated on the code: after `helloRequest` was served, its post
soft-deleted and `secondRequest` served, the slug `hello-world` is held by the
soft-deleted document only; the update of `second-post` with a changed title
and the new slug `"Hello World"` passes the conflict check of the handler but
is answered 400 with the duplicate-slug message, and the collection is left
alone, because the unique index still counts the deleted document. -/
theorem update_to_deleted_slug_refused :
    (serve asciiLowerCase 2 [] 0
        [.create helloRequest, .delete (js "hello-world"), .create secondRequest]).map
      Prod.snd = some deletedAndSecond ∧
    slugify asciiLowerCase renameRequest.newSlug = js "hello-world" ∧
    (∀ q ∈ deletedAndSecond, q.slug = js "hello-world" → q.deletedAt ≠ none) ∧
    update asciiLowerCase deletedAndSecond (js "second-post") renameRequest 3 =
      (.badRequest .slugExists, deletedAndSecond) := by
  refine ⟨by decide, by decide, by decide, by decide⟩

/-- C16, evaluated on the code: the post of `helloRequest` has `readTime` 1;
the update to the content of 201 words succeeds (200) and stores that content,
whose tag-stripped text splits into 201 pieces so that the `readTime` of the
`pre('save')` hook would be 2, but the stored `readTime` is still 1. -/
theorem update_keeps_stale_readTime :
    (update asciiLowerCase [helloPost 0 (js "hello-world") 0] (js "hello-world")
        longUpdate 1).1.status = 200 ∧
      (update asciiLowerCase [helloPost 0 (js "hello-world") 0] (js "hello-world")
        longUpdate 1).2.map (fun p => (decide (p.content = longContent), p.readTime)) =
        [(true, 1)] ∧
      (splitWhitespace (stripTags longContent)).length = 201 ∧
      savedReadTime longContent 0 = 2 := by
  refine ⟨by decide, by decide, by decide, by decide⟩

/-- C17, evaluated on the code: a post is created published at time 0, set to
draft at time 1, which keeps `publishedAt` 0, and set to published again at
time 2; the last update finds `publishedAt` set and overwrites it with 2. -/
theorem update_overwrites_publishedAt :
    (serve asciiLowerCase 2 [] 0
        [.create publishedRequest,
          .update (js "hello-world") (statusUpdate (js "draft"))]).map
      (fun r => r.2.map (fun p => (p.status, p.publishedAt))) =
      some [(Status.draft, some 0)] ∧
    (serve asciiLowerCase 2 [] 0
        [.create publishedRequest,
          .update (js "hello-world") (statusUpdate (js "draft")),
          .update (js "hello-world") (statusUpdate (js "published"))]).map
      (fun r => (r.1.map Response.status, r.2.map (fun p => (p.status, p.publishedAt)))) =
      some ([201, 200, 200], [(Status.published, some 2)]) := by
  refine ⟨by decide, by decide⟩

/-! ## Soft deletion -/

theorem slugsValid_replacePost {store : Store} (h : SlugsValid store) (post : Post)
    (hp : post.slug ≠ [] ∧ ∀ c ∈ post.slug, isSlugChar c = true) :
    SlugsValid (replacePost store post) := by
  intro q hq
  rcases mem_replacePost_cases hq with ⟨hq1, -⟩ | ⟨hq1, -⟩
  · rw [hq1]; exact hp
  · exact h q hq1

theorem slugsValid_saveExisting {store : Store} (h : SlugsValid store) {existing : Post}
    (post : Post) (now : Nat) (he : existing ∈ store) (hs : post.slug = existing.slug) :
    SlugsValid (saveExisting store post now).2 := by
  simp only [saveExisting]
  apply slugsValid_replacePost h
  show post.slug ≠ [] ∧ ∀ c ∈ post.slug, isSlugChar c = true
  rw [hs]
  exact h existing he

theorem slugsValid_handle {toLowerCase : JSString → JSString} {fuel now : Nat}
    {store store' : Store} {request : Request} {response : Response}
    (h : SlugsValid store)
    (hstep : handle toLowerCase fuel store now request = some (response, store')) :
    SlugsValid store' := by
  cases request with
  | create req =>
    simp only [handle] at hstep
    rcases create_cases hstep with ⟨-, hs⟩ | ⟨slug, status, -, -, hvalid, -, -, hs⟩
    · rw [hs]; exact h
    · rw [hs]
      intro q hq
      rcases List.mem_append.1 hq with hq | hq
      · exact h q hq
      · simp only [List.mem_singleton] at hq
        rw [hq]
        exact validData_slug hvalid
  | update slug req =>
    simp only [handle, Option.some.injEq] at hstep
    rcases update_result hstep with ⟨-, hs⟩ | ⟨existing, status, -, -, hvalid, -, -, hs⟩
    · rw [hs]; exact h
    · rw [hs]
      exact slugsValid_replacePost h _ (validData_slug hvalid)
  | view slug =>
    simp only [handle, Option.some.injEq, getPost] at hstep
    split at hstep
    · rw [← (Prod.mk.inj hstep).2]; exact h
    next post hfind =>
      rw [← (Prod.mk.inj hstep).2]
      exact slugsValid_saveExisting h _ now (findBySlug_mem hfind).1 rfl
  | delete slug =>
    simp only [handle, Option.some.injEq, deletePost] at hstep
    split at hstep
    · rw [← (Prod.mk.inj hstep).2]; exact h
    next post hfind =>
      rw [← (Prod.mk.inj hstep).2]
      exact slugsValid_saveExisting h _ now (findBySlug_mem hfind).1 rfl

theorem slugsValid_of_reachable {toLowerCase : JSString → JSString} {store : Store}
    (h : Reachable toLowerCase store) : SlugsValid store := by
  induction h with
  | empty => intro p hp; cases hp
  | step _ hstep ih => exact slugsValid_handle ih hstep

/-- After `softDelete` the slug of the deleted document finds nothing. -/
theorem findBySlug_softDelete {toLowerCase : JSString → JSString}
    (hlower : LowerCaseLaws toLowerCase) {store : Store} (hinv : StoreInv store)
    (hvalid : SlugsValid store) {post : Post} (hmem : post ∈ store) (now : Nat) :
    findBySlug toLowerCase (softDelete store post now).2 post.slug = none := by
  unfold findBySlug
  rw [List.find?_eq_none]
  intro q hq
  rw [trimLower_eq_self hlower _ (hvalid post hmem).2]
  simp only [softDelete, saveExisting] at hq
  rcases mem_replacePost_cases hq with ⟨hq1, -⟩ | ⟨hq1, hq2⟩
  · rw [hq1]
    simp
  · intro hpred
    simp only [Bool.and_eq_true, beq_iff_eq] at hpred
    have hqp : q = post := hinv.slug_injective hq1 hmem hpred.1
    exact hq2 (by rw [hqp])

theorem mem_listPosts {toLowerCase : JSString → JSString} {before : Post → Post → Bool}
    {store : Store} {query : ListQuery} {now : Nat} {posts : List Post} {q : Post}
    (h : listPosts toLowerCase before store query now = some posts) (hq : q ∈ posts) :
    q ∈ store ∧ matchesQuery toLowerCase query now q = true := by
  unfold listPosts at h
  split at h
  · cases h
  · simp only [Option.some.injEq] at h
    rw [← h] at hq
    have hdrop : q ∈ List.drop ((query.page - 1) * query.limit)
        ((store.filter (matchesQuery toLowerCase query now)).insertionSort
          (fun a b => before a b = true)) := by
      split at hq
      · exact hq
      · exact List.mem_of_mem_take hq
    have := (List.mem_insertionSort _).1 (List.mem_of_mem_drop hdrop)
    exact List.mem_filter.1 this

theorem matchesQuery_live {toLowerCase : JSString → JSString} {query : ListQuery} {now : Nat}
    {q : Post} (h : matchesQuery toLowerCase query now q = true) : q.deletedAt = none := by
  unfold matchesQuery at h
  simp only [Bool.and_eq_true] at h
  simpa using h.1.1.1.1

/-- C18: `softDelete` on a document of a reachable collection sets its status
to `archived` and `deletedAt` to the time of the call, and stores it;
afterwards the GET, PUT and DELETE handlers answer not found (404) for the
slug of the document, and no response of the list handler, whatever the
filter, order and page, contains a document with its identifier. -/
theorem softDelete_hides (toLowerCase : JSString → JSString)
    (hlower : LowerCaseLaws toLowerCase) (store : Store)
    (hreach : Reachable toLowerCase store) (post : Post) (hmem : post ∈ store) (now : Nat) :
    (softDelete store post now).1.status = .archived ∧
    (softDelete store post now).1.deletedAt = some now ∧
    (softDelete store post now).1 ∈ (softDelete store post now).2 ∧
    (∀ later, (getPost toLowerCase (softDelete store post now).2 post.slug later).1 =
      .notFound) ∧
    (∀ later req,
      (update toLowerCase (softDelete store post now).2 post.slug req later).1 = .notFound) ∧
    (∀ later, (deletePost toLowerCase (softDelete store post now).2 post.slug later).1 =
      .notFound) ∧
    (∀ before query later posts,
      listPosts toLowerCase before (softDelete store post now).2 query later = some posts →
      ∀ q ∈ posts, q.id ≠ post.id) := by
  have hfind := findBySlug_softDelete hlower (storeInv_of_reachable hreach)
    (slugsValid_of_reachable hreach) hmem now
  refine ⟨rfl, rfl, ?_, fun later => ?_, fun later req => ?_, fun later => ?_, ?_⟩
  · simp only [softDelete, saveExisting]
    exact mem_replacePost hmem rfl
  · unfold getPost
    rw [hfind]
  · unfold update
    rw [hfind]
  · unfold deletePost
    rw [hfind]
  · intro before query later posts hlist q hq hid
    obtain ⟨hq1, hq2⟩ := mem_listPosts hlist hq
    have hlive := matchesQuery_live hq2
    simp only [softDelete, saveExisting] at hq1
    rcases mem_replacePost_cases hq1 with ⟨hq3, -⟩ | ⟨-, hq3⟩
    · rw [hq3] at hlive
      cases hlive
    · exact hq3 hid

/-- The post of `helloRequest` after `softDelete` at time 1: archived, deleted
at 1, not found by GET under `hello-world`. -/
theorem softDelete_hides_witness :
    (softDelete [helloPost 0 (js "hello-world") 0] (helloPost 0 (js "hello-world") 0)
        1).1.status = .archived ∧
      (softDelete [helloPost 0 (js "hello-world") 0] (helloPost 0 (js "hello-world") 0)
        1).1.deletedAt = some 1 ∧
      (getPost asciiLowerCase
        (softDelete [helloPost 0 (js "hello-world") 0] (helloPost 0 (js "hello-world") 0) 1).2
        (helloPost 0 (js "hello-world") 0).slug 2).1 = .notFound :=
  have h := softDelete_hides asciiLowerCase asciiLowerCase_laws
    [helloPost 0 (js "hello-world") 0]
    (reachable_serve 2 [.create helloRequest] [] 0
      [.created (helloPost 0 (js "hello-world") 0)] [helloPost 0 (js "hello-world") 0]
      Reachable.empty (by decide))
    (helloPost 0 (js "hello-world") 0) (by simp) 1
  ⟨h.1, h.2.1, h.2.2.2.1 2⟩

/-! ## `publish` and `unpublish` -/

/-- C19: `publish` yields the status `published` and `publishedAt` equal to
the time of the call, whatever it was before; `unpublish` yields the status
`draft` and `publishedAt` null; `unpublish` after `publish` yields `draft` with
`publishedAt` null; and each stores the document it returns when the document
it is called on is in the collection. -/
theorem publish_unpublish (store : Store) (post : Post) (now later : Nat) :
    (publish store post now).1.status = .published ∧
    (publish store post now).1.publishedAt = some now ∧
    (unpublish store post now).1.status = .draft ∧
    (unpublish store post now).1.publishedAt = none ∧
    (unpublish (publish store post now).2 (publish store post now).1 later).1.status = .draft ∧
    (unpublish (publish store post now).2 (publish store post now).1 later).1.publishedAt =
      none ∧
    (post ∈ store →
      (publish store post now).1 ∈ (publish store post now).2 ∧
      (unpublish store post now).1 ∈ (unpublish store post now).2 ∧
      (unpublish (publish store post now).2 (publish store post now).1 later).1 ∈
        (unpublish (publish store post now).2 (publish store post now).1 later).2) := by
  refine ⟨rfl, rfl, rfl, rfl, rfl, rfl, fun hmem => ?_⟩
  have h1 : (publish store post now).1 ∈ (publish store post now).2 := by
    simp only [publish, saveExisting]
    exact mem_replacePost hmem rfl
  refine ⟨h1, ?_, ?_⟩
  · simp only [unpublish, saveExisting]
    exact mem_replacePost hmem rfl
  · simp only [unpublish, saveExisting]
    exact mem_replacePost h1 rfl

/-- The draft of `helloRequest` published at time 1 and unpublished at time 2
is stored as a draft without `publishedAt`. -/
theorem publish_unpublish_witness :
    (helloPost 0 (js "hello-world") 0).status = .draft ∧
      (unpublish (publish [helloPost 0 (js "hello-world") 0]
          (helloPost 0 (js "hello-world") 0) 1).2
        (publish [helloPost 0 (js "hello-world") 0] (helloPost 0 (js "hello-world") 0) 1).1
        2).1 ∈
      (unpublish (publish [helloPost 0 (js "hello-world") 0]
          (helloPost 0 (js "hello-world") 0) 1).2
        (publish [helloPost 0 (js "hello-world") 0] (helloPost 0 (js "hello-world") 0) 1).1
        2).2 :=
  ⟨by decide,
    ((publish_unpublish [helloPost 0 (js "hello-world") 0] (helloPost 0 (js "hello-world") 0)
      1 2).2.2.2.2.2.2 (by simp)).2.2⟩

/-! ## `publishedAt` and the history of the status -/

theorem Transition.refl (q : Post) : Transition q q :=
  ⟨rfl, fun h => Or.inl h, fun h => Or.inr h⟩

theorem evolves_refl (keeps : Prop) (store : Store) : Evolves keeps store store :=
  ⟨le_refl _, fun q hq => Or.inl ⟨q, hq, Transition.refl q, fun _ h => h⟩⟩

theorem evolves_append (keeps : Prop) (store : Store) (p : Post) (hid : p.id = store.length)
    (hp : p.publishedAt ≠ none ↔ p.status = .published) :
    Evolves keeps store (store ++ [p]) := by
  refine ⟨by simp, fun q hq => ?_⟩
  rcases List.mem_append.1 hq with hq | hq
  · exact Or.inl ⟨q, hq, Transition.refl q, fun _ h => h⟩
  · simp only [List.mem_singleton] at hq
    rw [hq]
    exact Or.inr ⟨by rw [hid], hp⟩

theorem evolves_replacePost (keeps : Prop) {store : Store} (hinv : StoreInv store)
    {existing : Post} (post : Post) (he : existing ∈ store) (ht : Transition existing post)
    (hk : keeps → existing.publishedAt ≠ none → post.publishedAt ≠ none) :
    Evolves keeps store (replacePost store post) := by
  refine ⟨by unfold replacePost; rw [List.length_map], fun q hq => ?_⟩
  rcases mem_replacePost_cases hq with ⟨hq1, q₀, hq₀, hid⟩ | ⟨hq1, -⟩
  · have : q₀ = existing := hinv.id_injective hq₀ he (by rw [hid, ht.1])
    rw [hq1]
    exact Or.inl ⟨existing, he, ht, hk⟩
  · exact Or.inl ⟨q, hq1, Transition.refl q, fun _ h => h⟩

theorem evolves_saveExisting (keeps : Prop) {store : Store} (hinv : StoreInv store)
    {existing : Post} (post : Post) (now : Nat) (he : existing ∈ store)
    (ht : Transition existing post)
    (hk : keeps → existing.publishedAt ≠ none → post.publishedAt ≠ none) :
    Evolves keeps store (saveExisting store post now).2 := by
  simp only [saveExisting]
  exact evolves_replacePost keeps hinv _ he ht hk

theorem newPost_publishedAt_iff (toLowerCase : JSString → JSString) (req : CreateRequest)
    (slug : JSString) (now id : Nat) (status : Status)
    (hstatus : parseStatus (req.status.getD (js "draft")) = some status) :
    (newPost id (castData toLowerCase (createData toLowerCase req slug now)) status
      now).publishedAt ≠ none ↔
    (newPost id (castData toLowerCase (createData toLowerCase req slug now)) status
      now).status = .published := by
  show (if req.status.getD (js "draft") = js "published" then some now else none) ≠ none ↔
    status = .published
  by_cases hp : req.status.getD (js "draft") = js "published"
  · rw [if_pos hp]
    rw [hp] at hstatus
    have : status = .published := by
      have h2 : parseStatus (js "published") = some .published := by decide
      rw [h2] at hstatus
      exact (Option.some.inj hstatus).symm
    simp [this]
  · rw [if_neg hp]
    constructor
    · intro h; exact absurd rfl h
    · intro h
      rw [h] at hstatus
      exact absurd (parseStatus_published hstatus) hp

theorem updatedPost_transition (toLowerCase : JSString → JSString) (existing : Post)
    (req : UpdateRequest) (updatedSlug : JSString) (now : Nat) (status : Status)
    (hstatus : parseStatus (orElse req.status existing.status.toJS) = some status) :
    Transition existing (updatedPost existing
      (castData toLowerCase (updateData toLowerCase existing req updatedSlug now)) status now) ∧
    (existing.publishedAt ≠ none →
      (updatedPost existing
        (castData toLowerCase (updateData toLowerCase existing req updatedSlug now)) status
        now).publishedAt ≠ none) := by
  by_cases hc : req.status = js "published" ∧ existing.status ≠ .published
  · have hpa : (updatedPost existing
        (castData toLowerCase (updateData toLowerCase existing req updatedSlug now)) status
        now).publishedAt = some now := by
      simp only [updatedPost, castData, updateData, if_pos hc]
    refine ⟨⟨rfl, fun _ => Or.inr ?_, fun _ => Or.inl (by rw [hpa]; simp)⟩,
      fun _ => by rw [hpa]; simp⟩
    show status = .published
    have h1 : orElse req.status existing.status.toJS = js "published" := by
      rw [hc.1]; rfl
    rw [h1] at hstatus
    have h2 : parseStatus (js "published") = some .published := by decide
    rw [h2] at hstatus
    exact (Option.some.inj hstatus).symm
  · have hpa : (updatedPost existing
        (castData toLowerCase (updateData toLowerCase existing req updatedSlug now)) status
        now).publishedAt = existing.publishedAt := by
      simp only [updatedPost, castData, updateData, if_neg hc]
    refine ⟨⟨rfl, fun h => Or.inl (by rw [← hpa]; exact h), fun h => Or.inr ?_⟩,
      fun h => by rw [hpa]; exact h⟩
    have hs : status = .published := h
    rw [hs] at hstatus
    have h1 := parseStatus_published hstatus
    by_cases he : req.status = []
    · rw [he] at h1
      have h2 : existing.status.toJS = js "published" := h1
      cases hst : existing.status
      · rw [hst] at h2; exact absurd h2 (by decide)
      · rfl
      · rw [hst] at h2; exact absurd h2 (by decide)
    · have h2 : req.status = js "published" := by
        unfold orElse at h1
        rw [if_neg he] at h1
        exact h1
      by_contra hne
      exact hc ⟨h2, hne⟩

theorem findById_mem {store : Store} {id : Nat} {post : Post}
    (h : findById store id = some post) : post ∈ store :=
  List.mem_of_find?_eq_some h

/-- The collection after a request evolves from the one before. -/
theorem handle_evolves {toLowerCase : JSString → JSString} {fuel now : Nat}
    {store store' : Store} {request : Request} {response : Response} (keeps : Prop)
    (hinv : StoreInv store)
    (hstep : handle toLowerCase fuel store now request = some (response, store')) :
    Evolves keeps store store' := by
  cases request with
  | create req =>
    simp only [handle] at hstep
    rcases create_cases hstep with ⟨-, hs⟩ | ⟨slug, status, -, hstatus, -, -, -, hs⟩
    · rw [hs]; exact evolves_refl keeps store
    · rw [hs]
      exact evolves_append keeps store _ rfl
        (newPost_publishedAt_iff toLowerCase req slug now _ status hstatus)
  | update slug req =>
    simp only [handle, Option.some.injEq] at hstep
    rcases update_result hstep with ⟨-, hs⟩ | ⟨existing, status, hfind, hstatus, -, -, -, hs⟩
    · rw [hs]; exact evolves_refl keeps store
    · rw [hs]
      have ht := updatedPost_transition toLowerCase existing req
        (updatedSlugOf toLowerCase existing req slug) now status hstatus
      exact evolves_replacePost keeps hinv _ (findBySlug_mem hfind).1 ht.1 (fun _ => ht.2)
  | view slug =>
    simp only [handle, Option.some.injEq, getPost] at hstep
    split at hstep
    · rw [← (Prod.mk.inj hstep).2]; exact evolves_refl keeps store
    next post hfind =>
      rw [← (Prod.mk.inj hstep).2]
      exact evolves_saveExisting keeps hinv _ now (findBySlug_mem hfind).1
        ⟨rfl, fun h => Or.inl h, fun h => Or.inr h⟩ (fun _ h => h)
  | delete slug =>
    simp only [handle, Option.some.injEq, deletePost] at hstep
    split at hstep
    · rw [← (Prod.mk.inj hstep).2]; exact evolves_refl keeps store
    next post hfind =>
      rw [← (Prod.mk.inj hstep).2]
      exact evolves_saveExisting keeps hinv _ now (findBySlug_mem hfind).1
        ⟨rfl, fun h => Or.inl h, fun h => absurd h (by simp)⟩ (fun _ h => h)

/-- The collection after an operation evolves from the one before; a set
`publishedAt` is kept by every operation other than `unpublish`. -/
theorem perform_evolves {toLowerCase : JSString → JSString} {fuel now : Nat}
    {store store' : Store} {op : Operation} (keeps : Prop) (hinv : StoreInv store)
    (hop : keeps → NotUnpublish op)
    (hstep : perform toLowerCase fuel store now op = some store') :
    Evolves keeps store store' := by
  cases op with
  | request request =>
    simp only [perform, Option.map_eq_some'] at hstep
    obtain ⟨⟨response, s⟩, hh, hs⟩ := hstep
    simp only at hs
    rw [← hs]
    exact handle_evolves keeps hinv hh
  | incrementViews id =>
    simp only [perform] at hstep
    split at hstep
    · rw [← Option.some.inj hstep]; exact evolves_refl keeps store
    next post hfind =>
      rw [← Option.some.inj hstep]
      exact evolves_saveExisting keeps hinv _ now (findById_mem hfind)
        ⟨rfl, fun h => Or.inl h, fun h => Or.inr h⟩ (fun _ h => h)
  | softDelete id =>
    simp only [perform] at hstep
    split at hstep
    · rw [← Option.some.inj hstep]; exact evolves_refl keeps store
    next post hfind =>
      rw [← Option.some.inj hstep]
      exact evolves_saveExisting keeps hinv _ now (findById_mem hfind)
        ⟨rfl, fun h => Or.inl h, fun h => absurd h (by simp)⟩ (fun _ h => h)
  | publish id =>
    simp only [perform] at hstep
    split at hstep
    · rw [← Option.some.inj hstep]; exact evolves_refl keeps store
    next post hfind =>
      rw [← Option.some.inj hstep]
      exact evolves_saveExisting keeps hinv _ now (findById_mem hfind)
        ⟨rfl, fun _ => Or.inr rfl, fun _ => Or.inl (by simp)⟩ (fun _ _ => by simp)
  | unpublish id =>
    simp only [perform] at hstep
    split at hstep
    · rw [← Option.some.inj hstep]; exact evolves_refl keeps store
    next post hfind =>
      rw [← Option.some.inj hstep]
      exact evolves_saveExisting keeps hinv _ now (findById_mem hfind)
        ⟨rfl, fun h => absurd rfl h, fun h => absurd h (by simp)⟩
        (fun hk => absurd rfl (hop hk id))

theorem storeInv_perform {toLowerCase : JSString → JSString} {fuel now : Nat}
    {store store' : Store} {op : Operation} (hinv : StoreInv store)
    (hstep : perform toLowerCase fuel store now op = some store') : StoreInv store' := by
  cases op with
  | request request =>
    simp only [perform, Option.map_eq_some'] at hstep
    obtain ⟨⟨response, s⟩, hh, hs⟩ := hstep
    simp only at hs
    rw [← hs]
    exact storeInv_handle hinv hh
  | incrementViews id =>
    simp only [perform] at hstep
    split at hstep
    · rw [← Option.some.inj hstep]; exact hinv
    next post hfind =>
      rw [← Option.some.inj hstep]
      exact storeInv_saveExisting hinv _ now (findById_mem hfind) rfl rfl
  | softDelete id =>
    simp only [perform] at hstep
    split at hstep
    · rw [← Option.some.inj hstep]; exact hinv
    next post hfind =>
      rw [← Option.some.inj hstep]
      exact storeInv_saveExisting hinv _ now (findById_mem hfind) rfl rfl
  | publish id =>
    simp only [perform] at hstep
    split at hstep
    · rw [← Option.some.inj hstep]; exact hinv
    next post hfind =>
      rw [← Option.some.inj hstep]
      exact storeInv_saveExisting hinv _ now (findById_mem hfind) rfl rfl
  | unpublish id =>
    simp only [perform] at hstep
    split at hstep
    · rw [← Option.some.inj hstep]; exact hinv
    next post hfind =>
      rw [← Option.some.inj hstep]
      exact storeInv_saveExisting hinv _ now (findById_mem hfind) rfl rfl

theorem mem_publishedIds {store : Store} {id : Nat} :
    id ∈ publishedIds store ↔ ∃ p ∈ store, p.status = .published ∧ p.id = id := by
  unfold publishedIds
  rw [List.mem_map]
  constructor
  · rintro ⟨p, hp, hid⟩
    have := List.mem_filter.1 hp
    exact ⟨p, this.1, by simpa using this.2, hid⟩
  · rintro ⟨p, hp, hs, hid⟩
    exact ⟨p, List.mem_filter.2 ⟨hp, by simp [hs]⟩, hid⟩

/-- One step of the history: the record of published identifiers stays below
the length of the collection, covers the published documents and the
documents with a `publishedAt`, and, when `publishedAt` is kept, every recorded
document has a `publishedAt`. -/
theorem history_step {keeps : Prop} {store store' : Store} {ever : List Nat}
    (hinv' : StoreInv store') (hev : Evolves keeps store store')
    (hbound : ∀ id ∈ ever, id < store.length)
    (hpub : ∀ p ∈ store, p.status = .published → p.id ∈ ever)
    (hset : ∀ p ∈ store, p.publishedAt ≠ none → p.id ∈ ever)
    (hkept : keeps → ∀ p ∈ store, p.id ∈ ever → p.publishedAt ≠ none) :
    (∀ id ∈ ever ++ publishedIds store', id < store'.length) ∧
    (∀ p ∈ store', p.status = .published → p.id ∈ ever ++ publishedIds store') ∧
    (∀ p ∈ store', p.publishedAt ≠ none → p.id ∈ ever ++ publishedIds store') ∧
    (keeps → ∀ p ∈ store', p.id ∈ ever ++ publishedIds store' → p.publishedAt ≠ none) := by
  have hpub' : ∀ p ∈ store', p.status = .published → p.id ∈ ever ++ publishedIds store' :=
    fun p hp hs => List.mem_append.2 (Or.inr (mem_publishedIds.2 ⟨p, hp, hs, rfl⟩))
  refine ⟨?_, hpub', ?_, ?_⟩
  · intro id hid
    rcases List.mem_append.1 hid with h | h
    · exact lt_of_lt_of_le (hbound id h) hev.1
    · obtain ⟨p, hp, -, hpid⟩ := mem_publishedIds.1 h
      rw [← hpid]
      exact hinv'.2.2 p hp
  · intro p hp hpa
    rcases hev.2 p hp with ⟨q₀, hq₀, ht, -⟩ | ⟨-, hnew⟩
    · rcases ht.2.1 hpa with h | h
      · rw [ht.1]
        exact List.mem_append.2 (Or.inl (hset q₀ hq₀ h))
      · exact hpub' p hp h
    · exact hpub' p hp (hnew.1 hpa)
  · intro hk p hp hid
    have hold : p.id ∈ ever → p.publishedAt ≠ none := by
      intro h
      rcases hev.2 p hp with ⟨q₀, hq₀, ht, hkeep⟩ | ⟨hfresh, -⟩
      · exact hkeep hk (hkept hk q₀ hq₀ (by rw [← ht.1]; exact h))
      · have := hbound p.id h
        omega
    rcases List.mem_append.1 hid with h | h
    · exact hold h
    · obtain ⟨r, hr, hrs, hrid⟩ := mem_publishedIds.1 h
      have hrp : r = p := hinv'.id_injective hr hp hrid
      rw [hrp] at hrs
      rcases hev.2 p hp with ⟨q₀, hq₀, ht, hkeep⟩ | ⟨-, hnew⟩
      · rcases ht.2.2 hrs with h1 | h1
        · exact h1
        · exact hold (by rw [ht.1]; exact hpub q₀ hq₀ h1)
      · exact hnew.2 hrs

/-- The invariant of a history. -/
theorem history_inv {toLowerCase : JSString → JSString} {allowed : Operation → Prop}
    {store : Store} {ever : List Nat} (h : History toLowerCase allowed store ever) :
    StoreInv store ∧
    (∀ id ∈ ever, id < store.length) ∧
    (∀ p ∈ store, p.status = .published → p.id ∈ ever) ∧
    (∀ p ∈ store, p.publishedAt ≠ none → p.id ∈ ever) ∧
    ((∀ op, allowed op → NotUnpublish op) →
      ∀ p ∈ store, p.id ∈ ever → p.publishedAt ≠ none) := by
  induction h with
  | empty =>
    refine ⟨storeInv_nil, ?_, ?_, ?_, ?_⟩
    · intro id hid; cases hid
    · intro p hp; cases hp
    · intro p hp; cases hp
    · intro _ p hp; cases hp
  | step _ hallowed hstep ih =>
    obtain ⟨hinv, hbound, hpub, hset, hkept⟩ := ih
    have hinv' := storeInv_perform hinv hstep
    have hev := perform_evolves (∀ op, allowed op → NotUnpublish op) hinv
      (fun hk => hk _ hallowed) hstep
    exact ⟨hinv', history_step hinv' hev hbound hpub hset hkept⟩

theorem history_performAll {toLowerCase : JSString → JSString} {allowed : Operation → Prop}
    (fuel : Nat) :
    ∀ (ops : List Operation) (store : Store) (ever : List Nat) (now : Nat) (final : Store)
      (record : List Nat), History toLowerCase allowed store ever →
      (∀ op ∈ ops, allowed op) →
      performAll toLowerCase fuel store ever now ops = some (final, record) →
      History toLowerCase allowed final record
  | [], store, ever, now, final, record, hh, _, h => by
    simp only [performAll, Option.some.injEq, Prod.mk.injEq] at h
    rw [← h.1, ← h.2]; exact hh
  | op :: rest, store, ever, now, final, record, hh, hall, h => by
    unfold performAll at h
    split at h
    · cases h
    next store' hstep =>
      exact history_performAll fuel rest store' _ (now + 1) final record
        (History.step hh (hall op (by simp)) hstep)
        (fun o ho => hall o (List.mem_cons_of_mem _ ho)) h

/-- C20, as amended: in every collection reached by create, update, view and
delete requests and by `incrementViews`, `softDelete`, `publish` and
`unpublish`, a document whose `publishedAt` is set has at some point had the
status `published`; and when `unpublish` is not among the operations, a
document has `publishedAt` set if and only if it has at some point had the
status `published`. -/
theorem publishedAt_history (toLowerCase : JSString → JSString) (allowed : Operation → Prop)
    (store : Store) (ever : List Nat) (h : History toLowerCase allowed store ever) :
    (∀ p ∈ store, p.publishedAt ≠ none → p.id ∈ ever) ∧
    ((∀ op, allowed op → NotUnpublish op) →
      ∀ p ∈ store, (p.publishedAt ≠ none ↔ p.id ∈ ever)) := by
  obtain ⟨-, -, -, hset, hkept⟩ := history_inv h
  exact ⟨hset, fun hk p hp => ⟨hset p hp, hkept hk p hp⟩⟩

/-- The history of `publishedRequest` followed by a view, without `unpublish`:
the post has `publishedAt` set and is in the record. -/
theorem publishedAt_history_witness :
    History asciiLowerCase NotUnpublish publishedViewed [0, 0] ∧
      ∀ p ∈ publishedViewed, (p.publishedAt ≠ none ↔ p.id ∈ [0, 0]) :=
  have hh : History asciiLowerCase NotUnpublish publishedViewed [0, 0] :=
    history_performAll 2
      [.request (.create publishedRequest), .request (.view (js "hello-world"))] [] [] 0
      publishedViewed [0, 0] History.empty
      (fun op hop => by
        simp only [List.mem_cons, List.mem_singleton, List.not_mem_nil, or_false] at hop
        rcases hop with hop | hop <;> (rw [hop]; intro id hne; cases hne))
      (by decide)
  ⟨hh, (publishedAt_history asciiLowerCase NotUnpublish publishedViewed [0, 0] hh).2
    (fun _ hop => hop)⟩

/-- The claim C20 fails once `unpublish` is among the operations: after
`publishedRequest` was served and the post unpublished, the post has had the
status `published` (its identifier 0 is in the record) and its `publishedAt`
is null. -/
theorem unpublish_breaks_publishedAt_iff :
    History asciiLowerCase (fun _ => True) unpublishedHello [0] ∧
      ∃ p ∈ unpublishedHello, p.id ∈ [0] ∧ p.publishedAt = none :=
  ⟨history_performAll 2 [.request (.create publishedRequest), .unpublish 0] [] [] 0
      unpublishedHello [0] History.empty (fun _ _ => trivial) (by decide),
    by decide⟩

/-! ## Tag stripping -/

theorem mem_stripTagsFrom : ∀ (b : Bool) (s : JSString) (x : Nat),
    x ∈ stripTagsFrom b s → x ∈ s
  | _, [], x, h => by simp [stripTagsFrom] at h
  | true, c :: cs, x, h => by
    unfold stripTagsFrom at h
    split at h
    · exact List.mem_cons_of_mem _ (mem_stripTagsFrom false cs x h)
    · exact List.mem_cons_of_mem _ (mem_stripTagsFrom true cs x h)
  | false, c :: cs, x, h => by
    unfold stripTagsFrom at h
    split at h
    · exact List.mem_cons_of_mem _ (mem_stripTagsFrom true cs x h)
    · rcases List.mem_cons.1 h with h1 | h1
      · rw [h1]; exact List.mem_cons_self _ _
      · exact List.mem_cons_of_mem _ (mem_stripTagsFrom false cs x h1)

theorem noTag_nil : NoTag [] := by
  intro pre mid post h
  have := congrArg List.length h
  simp at this
  omega

theorem noTag_cons {c : Nat} {s : JSString} (hs : NoTag s) (hc : c = 60 → 62 ∉ s) :
    NoTag (c :: s) := by
  intro pre mid post h
  cases pre with
  | nil =>
    simp only [List.nil_append, List.cons_append, List.cons.injEq] at h
    apply hc h.1
    rw [h.2]
    simp
  | cons a pre =>
    simp only [List.cons_append, List.cons.injEq] at h
    exact hs pre mid post (by simpa using h.2)

theorem noTag_tail {c : Nat} {s : JSString} (h : NoTag (c :: s)) : NoTag s := by
  intro pre mid post hs
  exact h (c :: pre) mid post (by rw [hs]; simp)

theorem noTag_head {s : JSString} (h : NoTag (60 :: s)) : 62 ∉ s := by
  intro hmem
  obtain ⟨mid, post, hs⟩ := List.append_of_mem hmem
  exact h [] mid post (by rw [hs]; simp)

theorem noTag_stripTagsFrom : ∀ (b : Bool) (s : JSString), NoTag (stripTagsFrom b s)
  | true, [] => noTag_nil
  | false, [] => noTag_nil
  | true, c :: cs => by
    unfold stripTagsFrom
    split
    · exact noTag_stripTagsFrom false cs
    · exact noTag_stripTagsFrom true cs
  | false, c :: cs => by
    unfold stripTagsFrom
    split
    · exact noTag_stripTagsFrom true cs
    next hno =>
      apply noTag_cons (noTag_stripTagsFrom false cs)
      intro hc hmem
      exact hno ⟨hc, mem_stripTagsFrom false cs 62 hmem⟩

theorem stripTagsFrom_eq_self : ∀ s : JSString, NoTag s → stripTagsFrom false s = s
  | [], _ => rfl
  | c :: cs, h => by
    unfold stripTagsFrom
    rw [if_neg, stripTagsFrom_eq_self cs (noTag_tail h)]
    rintro ⟨hc, hmem⟩
    rw [hc] at h
    exact noTag_head h hmem

/-- C25: the replacement of every match of `<[^>]*>` by the empty string, as
done in `cleanText` and in the model's `pre('save')` hook, leaves no `<` that
is followed by a `>`, hence no substring matching `<[^>]*>`, and stripping
twice is stripping once. -/
theorem stripTags_idempotent (s : JSString) :
    (∀ pre mid post : JSString, stripTags s ≠ pre ++ 60 :: mid ++ 62 :: post) ∧
      stripTags (stripTags s) = stripTags s ∧
      (∀ pre mid post : JSString, cleanText s ≠ pre ++ 60 :: mid ++ 62 :: post) := by
  refine ⟨noTag_stripTagsFrom false s, stripTagsFrom_eq_self _ (noTag_stripTagsFrom false s), ?_⟩
  unfold cleanText
  split
  · exact noTag_nil
  · exact noTag_stripTagsFrom false _

/-! ## `generateExcerpt` -/

theorem trim_length_le (s : JSString) : (trim s).length ≤ s.length := by
  unfold trim
  have h1 := (List.rdropWhile_prefix isWhitespace (s.dropWhile isWhitespace)).length_le
  have h2 := (List.dropWhile_suffix isWhitespace : s.dropWhile isWhitespace <:+ s).length_le
  omega

theorem cleanText_eq (text : JSString) :
    cleanText text = stripTags (collapseWhitespace (trim text)) := by
  unfold cleanText
  split
  · next h => rw [h]; rfl
  · rfl

theorem generateExcerpt_of_le {content : JSString} {maxLength : Nat}
    (h : (cleanText content).length ≤ maxLength) :
    generateExcerpt content maxLength = cleanText content := by
  unfold generateExcerpt
  by_cases hc : content = []
  · rw [if_pos hc, hc]; rfl
  · rw [if_neg hc, if_pos h]

/-- C23: with `c = cleanText(content)`, `generateExcerpt(content, maxLength)`
is `c` itself, without ellipsis, when `c` has at most `maxLength` code units,
and otherwise the first `maxLength` code units of `c`, trimmed, followed by
`"..."`; the result never has more than `maxLength + 3` code units. -/
theorem generateExcerpt_spec (content : JSString) (maxLength : Nat) :
    ((cleanText content).length ≤ maxLength →
      generateExcerpt content maxLength = cleanText content) ∧
    (maxLength < (cleanText content).length →
      generateExcerpt content maxLength =
        trim ((cleanText content).take maxLength) ++ js "...") ∧
    (generateExcerpt content maxLength).length ≤ maxLength + 3 := by
  by_cases hc : content = []
  · subst hc
    refine ⟨fun _ => rfl, fun h => ?_, by simp [generateExcerpt]⟩
    simp [cleanText] at h
  · unfold generateExcerpt
    rw [if_neg hc]
    by_cases hl : (cleanText content).length ≤ maxLength
    · rw [if_pos hl]
      exact ⟨fun _ => rfl, fun h => by omega, by omega⟩
    · rw [if_neg hl]
      refine ⟨fun h => absurd h hl, fun _ => rfl, ?_⟩
      rw [List.length_append]
      have h1 := trim_length_le ((cleanText content).take maxLength)
      have h2 : ((cleanText content).take maxLength).length ≤ maxLength := by
        rw [List.length_take]; omega
      have h3 : (js "...").length = 3 := by decide
      omega

/-- The excerpt of `"<p>Hello   World</p>"` at the lengths 150 and 5. -/
theorem generateExcerpt_spec_witness :
    generateExcerpt (js "<p>Hello   World</p>") 150 = js "Hello World" ∧
      generateExcerpt (js "<p>Hello   World</p>") 5 = js "Hello..." :=
  ⟨((generateExcerpt_spec (js "<p>Hello   World</p>") 150).1 (by decide)).trans (by decide),
    ((generateExcerpt_spec (js "<p>Hello   World</p>") 5).2.1 (by decide)).trans (by decide)⟩

/-- C24, as amended: an untruncated excerpt is `cleanText(content)`, the
content trimmed, then its whitespace runs collapsed to single spaces, then its
tags stripped; it contains no `<` followed by a `>`, hence no tag, and when the
stripping removes nothing it has no two adjacent whitespace code units. -/
theorem generateExcerpt_untruncated (content : JSString) (maxLength : Nat)
    (h : (cleanText content).length ≤ maxLength) :
    generateExcerpt content maxLength = stripTags (collapseWhitespace (trim content)) ∧
    NoTag (generateExcerpt content maxLength) ∧
    (stripTags (collapseWhitespace (trim content)) = collapseWhitespace (trim content) →
      NoAdjacent isWhitespace (generateExcerpt content maxLength)) := by
  have he : generateExcerpt content maxLength =
      stripTags (collapseWhitespace (trim content)) := by
    rw [generateExcerpt_of_le h, cleanText_eq]
  rw [he]
  refine ⟨rfl, noTag_stripTagsFrom false _, fun hs => ?_⟩
  rw [hs]
  exact collapseRuns_noAdjacent isWhitespace space (by decide) _

/-- The untruncated excerpt of `"<p>Hello   World</p>"`. -/
theorem generateExcerpt_untruncated_witness :
    generateExcerpt (js "<p>Hello   World</p>") 150 =
        stripTags (collapseWhitespace (trim (js "<p>Hello   World</p>"))) ∧
      generateExcerpt (js "<p>Hello   World</p>") 150 = js "Hello World" :=
  ⟨(generateExcerpt_untruncated (js "<p>Hello   World</p>") 150 (by decide)).1, by decide⟩

/-- The claim C24 fails on `"a <b> </b> c"`: the whitespace is collapsed
before the tags are stripped, so the untruncated excerpt is `"a   c"`, with
adjacent spaces, and not `collapseWhitespace(stripHtml(content))`, which is
`"a c"`. -/
theorem generateExcerpt_strips_after_collapsing :
    (cleanText (js "a <b> </b> c")).length ≤ 150 ∧
      generateExcerpt (js "a <b> </b> c") 150 = js "a   c" ∧
      collapseWhitespace (stripTags (js "a <b> </b> c")) = js "a c" ∧
      generateExcerpt (js "a <b> </b> c") 150 ≠
        collapseWhitespace (stripTags (js "a <b> </b> c")) ∧
      [space, space] <:+: generateExcerpt (js "a <b> </b> c") 150 ∧
      isWhitespace space = true := by
  refine ⟨by decide, by decide, by decide, by decide, ?_, by decide⟩
  exact ⟨js "a", js " c", by decide⟩

/-! ## Read time -/

theorem splitWhitespace_length_pos : ∀ s : JSString, 1 ≤ (splitWhitespace s).length
  | [] => by simp [splitWhitespace]
  | [c] => by
    unfold splitWhitespace
    split <;> simp
  | c :: d :: cs => by
    have ih := splitWhitespace_length_pos (d :: cs)
    unfold splitWhitespace
    split
    · split
      · exact ih
      · simp
    · split <;> simp

theorem ceilDiv_pos {n d : Nat} (hn : 1 ≤ n) (hd : 1 ≤ d) : 1 ≤ ceilDiv n d := by
  unfold ceilDiv
  rw [Nat.le_div_iff_mul_le (by omega)]
  omega

theorem mul_ceilDiv_ge (n : Nat) {d : Nat} (hd : 1 ≤ d) : n ≤ ceilDiv n d * d := by
  unfold ceilDiv
  have h1 := Nat.div_add_mod (n + d - 1) d
  have h2 := Nat.mod_lt (n + d - 1) (show d > 0 by omega)
  rw [Nat.mul_comm] at h1
  generalize (n + d - 1) / d * d = x at h1 ⊢
  omega

theorem ceilDiv_le_iff (n m : Nat) {d : Nat} (hd : 1 ≤ d) : ceilDiv n d ≤ m ↔ n ≤ m * d := by
  unfold ceilDiv
  rw [← Nat.lt_succ_iff, Nat.div_lt_iff_lt_mul (by omega), Nat.succ_mul]
  omega

/-- `ceilDiv` is the ceiling of the quotient. -/
theorem ceilDiv_eq_ceil (n : Nat) {d : Nat} (hd : 1 ≤ d) :
    ceilDiv n d = ⌈(n : ℚ) / (d : ℚ)⌉₊ := by
  have hd' : (0 : ℚ) < (d : ℚ) := by exact_mod_cast hd
  apply le_antisymm
  · rw [ceilDiv_le_iff _ _ hd]
    have h := Nat.le_ceil ((n : ℚ) / (d : ℚ))
    rw [div_le_iff₀ hd'] at h
    exact_mod_cast h
  · rw [Nat.ceil_le, div_le_iff₀ hd']
    exact_mod_cast mul_ceilDiv_ge n hd

theorem savedReadTime_eq {content : JSString} (old : Nat) (h : content ≠ []) :
    savedReadTime content old = ceilDiv (splitWhitespace (stripTags content)).length 200 := by
  unfold savedReadTime ceilDiv
  rw [if_neg h]
  rfl

theorem savedReadTime_ge_one {content : JSString} (old : Nat) (h : content ≠ []) :
    1 ≤ savedReadTime content old := by
  rw [savedReadTime_eq old h]
  exact ceilDiv_pos (splitWhitespace_length_pos _) (by decide)

/-- C26, as amended: `calculateReadTime` with 200 words per minute is 0 for the
empty content and otherwise the ceiling of `n / 200`, at least 1, where `n` is
the number of pieces, the empty ones counted, into which `cleanText(content)`
splits on whitespace runs. -/
theorem calculateReadTime_spec (content : JSString) :
    calculateReadTime [] 200 = 0 ∧
    (content ≠ [] →
      calculateReadTime content 200 =
        ⌈((splitWhitespace (cleanText content)).length : ℚ) / ((200 : ℕ) : ℚ)⌉₊ ∧
      calculateReadTime content 200 = ceilDiv (splitWhitespace (cleanText content)).length 200 ∧
      1 ≤ calculateReadTime content 200) := by
  refine ⟨rfl, fun h => ?_⟩
  have hpos := ceilDiv_pos (splitWhitespace_length_pos (cleanText content))
    (show 1 ≤ 200 by decide)
  have hc : calculateReadTime content 200 =
      ceilDiv (splitWhitespace (cleanText content)).length 200 := by
    unfold calculateReadTime
    rw [if_neg h]
    exact max_eq_right hpos
  refine ⟨?_, hc, by rw [hc]; exact hpos⟩
  rw [hc]
  exact ceilDiv_eq_ceil _ (by decide)

/-- The read time of `"Hello World"` is 1. -/
theorem calculateReadTime_spec_witness :
    js "Hello World" ≠ [] ∧ calculateReadTime (js "Hello World") 200 = 1 :=
  ⟨by decide,
    (((calculateReadTime_spec (js "Hello World")).2 (by decide)).2.1).trans (by decide)⟩

/-- The claim C26 fails on the content `"   "`: it has no word, so the formula
of the claim gives `ceil(0 / 200) = 0`, while `calculateReadTime` returns 1.
With the split length as the word count the formula fails on the empty
content instead: it gives `ceil(1 / 200) = 1`, while `calculateReadTime`
returns 0. -/
theorem calculateReadTime_differs_without_words :
    wordCount (stripTags (js "   ")) = 0 ∧
      ceilDiv (wordCount (stripTags (js "   "))) 200 = 0 ∧
      calculateReadTime (js "   ") 200 = 1 ∧
      calculateReadTime (js "   ") 200 ≠ ceilDiv (wordCount (stripTags (js "   "))) 200 ∧
      (splitWhitespace (stripTags [])).length = 1 ∧
      calculateReadTime [] 200 ≠ ceilDiv (splitWhitespace (stripTags [])).length 200 := by
  refine ⟨by decide, by decide, by decide, by decide, by decide, by decide⟩

/-- C27, as amended: the `readTime` of the `pre('save')` hook has no explicit
minimum, but for every non-empty content it is the ceiling of `n / 200` with
`n` the number of pieces of the tag-stripped content split on whitespace runs,
and `n` is at least 1, so the `readTime` is at least 1. -/
theorem savedReadTime_at_least_one (content : JSString) (old : Nat) (h : content ≠ []) :
    savedReadTime content old = ceilDiv (splitWhitespace (stripTags content)).length 200 ∧
      1 ≤ (splitWhitespace (stripTags content)).length ∧
      1 ≤ savedReadTime content old :=
  ⟨savedReadTime_eq old h, splitWhitespace_length_pos _, savedReadTime_ge_one old h⟩

/-- The saved read time of the one-letter content `"a"` is 1. -/
theorem savedReadTime_at_least_one_witness :
    js "a" ≠ [] ∧ savedReadTime (js "a") 0 = 1 :=
  ⟨by decide,
    le_antisymm (by decide) (savedReadTime_at_least_one (js "a") 0 (by decide)).2.2⟩

/-- The claim C27 fails: no non-empty content has the saved read time 0. -/
theorem savedReadTime_never_zero :
    ¬ ∃ (content : JSString) (old : Nat), content ≠ [] ∧ savedReadTime content old = 0 := by
  rintro ⟨content, old, h, h0⟩
  have := savedReadTime_ge_one old h
  omega

/-! ## View count, client slug, tags, pagination -/

/-- C22, evaluated on the code: the post of `helloRequest` has `viewCount` 0;
after `GET /api/posts/hello-world` the stored `viewCount` is 1, but the
`viewCount` of the response is 2: the handler adds 1 to the count of the
document that `incrementViews` has already incremented. -/
theorem getPost_returns_count_plus_two :
    (helloPost 0 (js "hello-world") 0).viewCount = 0 ∧
      (getPost asciiLowerCase [helloPost 0 (js "hello-world") 0] (js "hello-world") 1).1.status
        = 200 ∧
      (getPost asciiLowerCase [helloPost 0 (js "hello-world") 0] (js "hello-world") 1).2.map
        Post.viewCount = [1] ∧
      (getPost asciiLowerCase [helloPost 0 (js "hello-world") 0] (js "hello-world")
        1).1.post?.map Post.viewCount = some 2 := by
  refine ⟨by decide, by decide, by decide, by decide⟩

/-- C30, evaluated on the code: for the title `" Hello World "` the client-side
`generateSlug` returns `"-hello-world-"`, which begins and ends with a hyphen,
while `slugify` returns `"hello-world"`; `.trim('-')` trims whitespace, not
hyphens. -/
theorem generateSlug_keeps_outer_hyphens :
    js " Hello World " ≠ [] ∧
      generateSlug asciiLowerCase (js " Hello World ") = js "-hello-world-" ∧
      slugify asciiLowerCase (js " Hello World ") = js "hello-world" ∧
      generateSlug asciiLowerCase (js " Hello World ") ≠
        slugify asciiLowerCase (js " Hello World ") ∧
      (generateSlug asciiLowerCase (js " Hello World ")).head? = some hyphen ∧
      (generateSlug asciiLowerCase (js " Hello World ")).getLast? = some hyphen := by
  refine ⟨by decide, by decide, by decide, by decide, by decide, by decide⟩

theorem trim_head (s : JSString) (x : Nat) (h : (trim s).head? = some x) :
    isWhitespace x = false := by
  unfold trim at h
  have hhead := List.head?_dropWhile_not isWhitespace s
  obtain ⟨t, ht⟩ := List.rdropWhile_prefix isWhitespace (s.dropWhile isWhitespace)
  generalize List.rdropWhile isWhitespace (s.dropWhile isWhitespace) = r at ht h
  cases r with
  | nil => simp at h
  | cons a r =>
    rw [← ht] at hhead
    simp only [List.cons_append, List.head?_cons] at hhead
    simp only [List.head?_cons, Option.some.injEq] at h
    rw [← h]
    exact hhead

theorem trim_getLast (s : JSString) (x : Nat) (h : (trim s).getLast? = some x) :
    isWhitespace x = false := by
  unfold trim at h
  have hne : List.rdropWhile isWhitespace (s.dropWhile isWhitespace) ≠ [] := by
    intro h0
    rw [h0] at h
    simp at h
  have hlast := List.rdropWhile_last_not isWhitespace _ hne
  rw [List.getLast?_eq_getLast _ hne] at h
  simp only [Option.some.injEq] at h
  rw [h] at hlast
  simpa using hlast

theorem trim_eq_self_of_ends (s : JSString)
    (hh : ∀ x, s.head? = some x → isWhitespace x = false)
    (hl : ∀ x, s.getLast? = some x → isWhitespace x = false) : trim s = s := by
  unfold trim
  have h1 : s.dropWhile isWhitespace = s := by
    cases s with
    | nil => rfl
    | cons a cs =>
      rw [List.dropWhile_cons_of_neg]
      simp [hh a rfl]
  rw [h1, List.rdropWhile_eq_self_iff]
  intro hne
  have := hl _ (List.getLast?_eq_getLast _ hne)
  simp [this]

theorem asciiLowerCase_idempotent (s : JSString) :
    asciiLowerCase (asciiLowerCase s) = asciiLowerCase s := by
  apply asciiLowerCase_eq_self
  intro c hc
  unfold asciiLowerCase at hc
  obtain ⟨d, -, rfl⟩ := List.mem_map.1 hc
  by_cases hd : (decide (65 ≤ d) && decide (d ≤ 90)) = true
  · rw [if_pos hd]
    simp only [Bool.and_eq_true, decide_eq_true_eq] at hd
    omega
  · rw [if_neg hd]
    simp only [Bool.and_eq_true, decide_eq_true_eq] at hd
    exact hd

theorem isWhitespace_asciiLower (c : Nat) :
    isWhitespace (if (decide (65 ≤ c) && decide (c ≤ 90)) = true then c + 32 else c) =
      isWhitespace c := by
  by_cases hd : (decide (65 ≤ c) && decide (c ≤ 90)) = true
  · rw [if_pos hd]
    simp only [Bool.and_eq_true, decide_eq_true_eq] at hd
    have h1 : isWhitespace (c + 32) = false := by
      simp only [isWhitespace, Bool.or_eq_false_iff, Bool.and_eq_false_iff,
        decide_eq_false_iff_not, beq_eq_false_iff_ne]
      omega
    have h2 : isWhitespace c = false := by
      simp only [isWhitespace, Bool.or_eq_false_iff, Bool.and_eq_false_iff,
        decide_eq_false_iff_not, beq_eq_false_iff_ne]
      omega
    rw [h1, h2]
  · rw [if_neg hd]

theorem trim_asciiLowerCase_trim (s : JSString) :
    trim (asciiLowerCase (trim s)) = asciiLowerCase (trim s) := by
  apply trim_eq_self_of_ends
  · intro x hx
    unfold asciiLowerCase at hx
    rw [List.head?_map] at hx
    cases hh : (trim s).head? with
    | none => rw [hh] at hx; cases hx
    | some y =>
      rw [hh] at hx
      simp only [Option.map_some', Option.some.injEq] at hx
      rw [← hx, isWhitespace_asciiLower]
      exact trim_head s y hh
  · intro x hx
    unfold asciiLowerCase at hx
    rw [List.getLast?_map] at hx
    cases hh : (trim s).getLast? with
    | none => rw [hh] at hx; cases hx
    | some y =>
      rw [hh] at hx
      simp only [Option.map_some', Option.some.injEq] at hx
      rw [← hx, isWhitespace_asciiLower]
      exact trim_getLast s y hh

/-- The stored form of a tag or keyword is the tag trimmed and lower-cased,
and is its own trimmed, lower-cased form. -/
theorem normalized_element {toLowerCase : JSString → JSString}
    (hidem : ∀ s, toLowerCase (toLowerCase s) = toLowerCase s)
    (htrim : ∀ s, trim (toLowerCase (trim s)) = toLowerCase (trim s)) (t : JSString) :
    trimLower toLowerCase (toLowerCase (trim t)) = toLowerCase (trim t) ∧
      toLowerCase (trim (toLowerCase (trim t))) = toLowerCase (trim t) := by
  have h : toLowerCase (trim (toLowerCase (trim t))) = toLowerCase (trim t) := by
    rw [htrim, hidem]
  exact ⟨h, h⟩

theorem normalized_list {toLowerCase : JSString → JSString}
    (hidem : ∀ s, toLowerCase (toLowerCase s) = toLowerCase s)
    (htrim : ∀ s, trim (toLowerCase (trim s)) = toLowerCase (trim s)) (l : List JSString) :
    (l.map (fun t => toLowerCase (trim t))).map (trimLower toLowerCase) =
        l.map (fun t => toLowerCase (trim t)) ∧
      ∀ x ∈ l.map (fun t => toLowerCase (trim t)), toLowerCase (trim x) = x := by
  constructor
  · rw [List.map_map]
    apply List.map_congr_left
    intro t _
    exact (normalized_element hidem htrim t).1
  · intro x hx
    obtain ⟨t, -, rfl⟩ := List.mem_map.1 hx
    exact (normalized_element hidem htrim t).2

/-! ## Tags and keywords stay normalised -/

theorem tagsNormalized_nil (toLowerCase : JSString → JSString) : TagsNormalized toLowerCase [] := by
  intro p hp
  cases hp

theorem trimLower_map_normalized {toLowerCase : JSString → JSString}
    (hidem : ∀ s, toLowerCase (toLowerCase s) = toLowerCase s)
    (htrim : ∀ s, trim (toLowerCase (trim s)) = toLowerCase (trim s)) (l : List JSString) :
    ∀ x ∈ l.map (trimLower toLowerCase), trimLower toLowerCase x = x := by
  intro x hx
  obtain ⟨t, -, rfl⟩ := List.mem_map.1 hx
  exact (normalized_element hidem htrim t).1

theorem map_trimLower_eq_self {toLowerCase : JSString → JSString} {l : List JSString}
    (h : ∀ x ∈ l, trimLower toLowerCase x = x) : l.map (trimLower toLowerCase) = l := by
  induction l with
  | nil => rfl
  | cons a t ih =>
    rw [List.map_cons, h a (List.mem_cons_self a t),
      ih (fun x hx => h x (List.mem_cons_of_mem a hx))]

theorem tagsNormalized_replacePost {toLowerCase : JSString → JSString} {store : Store}
    (h : TagsNormalized toLowerCase store) (post : Post)
    (hp : (∀ x ∈ post.tags, trimLower toLowerCase x = x) ∧
      (∀ x ∈ post.keywords, trimLower toLowerCase x = x)) :
    TagsNormalized toLowerCase (replacePost store post) := by
  intro q hq
  rcases mem_replacePost_cases hq with ⟨hq1, -⟩ | ⟨hq1, -⟩
  · rw [hq1]; exact hp
  · exact h q hq1

theorem tagsNormalized_saveExisting {toLowerCase : JSString → JSString} {store : Store}
    (h : TagsNormalized toLowerCase store) (post post' : Post) (now : Nat) (hmem : post ∈ store)
    (ht : post'.tags = post.tags) (hk : post'.keywords = post.keywords) :
    TagsNormalized toLowerCase (saveExisting store post' now).2 := by
  simp only [saveExisting]
  apply tagsNormalized_replacePost h
  simp only [ht, hk]
  exact h post hmem

theorem tagsNormalized_handle {toLowerCase : JSString → JSString}
    (hidem : ∀ s, toLowerCase (toLowerCase s) = toLowerCase s)
    (htrim : ∀ s, trim (toLowerCase (trim s)) = toLowerCase (trim s))
    {fuel now : Nat} {store store' : Store} {request : Request} {response : Response}
    (h : TagsNormalized toLowerCase store)
    (hstep : handle toLowerCase fuel store now request = some (response, store')) :
    TagsNormalized toLowerCase store' := by
  cases request with
  | create req =>
    simp only [handle] at hstep
    rcases create_cases hstep with ⟨-, hs⟩ | ⟨slug, status, -, -, -, -, -, hs⟩
    · rw [hs]; exact h
    · rw [hs]
      intro q hq
      rcases List.mem_append.1 hq with hq | hq
      · exact h q hq
      · simp only [List.mem_singleton] at hq
        rw [hq]
        exact ⟨trimLower_map_normalized hidem htrim _, trimLower_map_normalized hidem htrim _⟩
  | update slug req =>
    simp only [handle, Option.some.injEq] at hstep
    rcases update_result hstep with ⟨-, hs⟩ | ⟨existing, status, -, -, -, -, -, hs⟩
    · rw [hs]; exact h
    · rw [hs]
      exact tagsNormalized_replacePost h _
        ⟨trimLower_map_normalized hidem htrim _, trimLower_map_normalized hidem htrim _⟩
  | view slug =>
    simp only [handle, Option.some.injEq, getPost] at hstep
    split at hstep
    · rw [← (Prod.mk.inj hstep).2]; exact h
    next post hfind =>
      rw [← (Prod.mk.inj hstep).2]
      exact tagsNormalized_saveExisting h post _ now (findBySlug_mem hfind).1 rfl rfl
  | delete slug =>
    simp only [handle, Option.some.injEq, deletePost] at hstep
    split at hstep
    · rw [← (Prod.mk.inj hstep).2]; exact h
    next post hfind =>
      rw [← (Prod.mk.inj hstep).2]
      exact tagsNormalized_saveExisting h post _ now (findBySlug_mem hfind).1 rfl rfl

theorem tagsNormalized_of_reachable {toLowerCase : JSString → JSString}
    (hidem : ∀ s, toLowerCase (toLowerCase s) = toLowerCase s)
    (htrim : ∀ s, trim (toLowerCase (trim s)) = toLowerCase (trim s)) {store : Store}
    (h : Reachable toLowerCase store) : TagsNormalized toLowerCase store := by
  induction h with
  | empty => exact tagsNormalized_nil toLowerCase
  | step _ hstep ih => exact tagsNormalized_handle hidem htrim ih hstep

/-- C28, as amended: for a `toLowerCase` that is idempotent and keeps trimmed
strings trimmed, create and update store the `tags` and the `keywords` of the
request element by element, each trimmed and lower-cased, in the order of the
request and with its repetitions; every stored element equals its own trimmed,
lower-cased form. An update that carries no `tags` (no `keywords`) writes back
the stored array through the setters of the schema, which on a collection
reached by serving requests leaves the stored array unchanged. -/
theorem tags_normalized (toLowerCase : JSString → JSString)
    (hidem : ∀ s, toLowerCase (toLowerCase s) = toLowerCase s)
    (htrim : ∀ s, trim (toLowerCase (trim s)) = toLowerCase (trim s)) :
    (∀ fuel store store' req now p,
      create toLowerCase fuel store req now = some (.created p, store') →
      p.tags = req.tags.map (fun t => toLowerCase (trim t)) ∧
      p.keywords = req.keywords.map (fun t => toLowerCase (trim t)) ∧
      (∀ x ∈ p.tags, toLowerCase (trim x) = x) ∧
      (∀ x ∈ p.keywords, toLowerCase (trim x) = x)) ∧
    (∀ store store' slug req now p,
      update toLowerCase store slug req now = (.ok p, store') →
      (∀ tags, req.tags = some tags →
        p.tags = tags.map (fun t => toLowerCase (trim t)) ∧
        ∀ x ∈ p.tags, toLowerCase (trim x) = x) ∧
      (∀ keywords, req.keywords = some keywords →
        p.keywords = keywords.map (fun t => toLowerCase (trim t)) ∧
        ∀ x ∈ p.keywords, toLowerCase (trim x) = x) ∧
      (∀ x ∈ p.tags, toLowerCase (trim x) = x) ∧
      (∀ x ∈ p.keywords, toLowerCase (trim x) = x) ∧
      ∃ existing, findBySlug toLowerCase store slug = some existing ∧
        p ∈ store' ∧ p.id = existing.id ∧
        (req.tags = none →
          p.tags = existing.tags.map (fun t => toLowerCase (trim t)) ∧
          (Reachable toLowerCase store → p.tags = existing.tags)) ∧
        (req.keywords = none →
          p.keywords = existing.keywords.map (fun t => toLowerCase (trim t)) ∧
          (Reachable toLowerCase store → p.keywords = existing.keywords))) := by
  constructor
  · intro fuel store store' req now p h
    obtain ⟨slug, status, -, -, hp, -⟩ := create_created_eq h
    have ht : p.tags = (req.tags.map (fun t => toLowerCase (trim t))).map
        (trimLower toLowerCase) := by rw [hp]; rfl
    have hk : p.keywords = (req.keywords.map (fun t => toLowerCase (trim t))).map
        (trimLower toLowerCase) := by rw [hp]; rfl
    rw [(normalized_list hidem htrim req.tags).1] at ht
    rw [(normalized_list hidem htrim req.keywords).1] at hk
    refine ⟨ht, hk, ?_, ?_⟩
    · rw [ht]; exact (normalized_list hidem htrim req.tags).2
    · rw [hk]; exact (normalized_list hidem htrim req.keywords).2
  · intro store store' slug req now p h
    obtain ⟨existing, status, hfind, -, -, hp, hs⟩ := update_ok h
    have hmem := (findBySlug_mem hfind).1
    have hid : p.id = existing.id := by rw [hp]; rfl
    have hpt : ∀ x ∈ p.tags, toLowerCase (trim x) = x := by
      rw [hp]
      exact trimLower_map_normalized hidem htrim _
    have hpk : ∀ x ∈ p.keywords, toLowerCase (trim x) = x := by
      rw [hp]
      exact trimLower_map_normalized hidem htrim _
    refine ⟨?_, ?_, hpt, hpk, existing, hfind, ?_, hid, ?_, ?_⟩
    · intro tags htags
      have ht : p.tags = (tags.map (fun t => toLowerCase (trim t))).map
          (trimLower toLowerCase) := by
        rw [hp]
        simp only [updatedPost, castData, updateData, htags]
      rw [(normalized_list hidem htrim tags).1] at ht
      exact ⟨ht, by rw [ht]; exact (normalized_list hidem htrim tags).2⟩
    · intro keywords hkeywords
      have hk : p.keywords = (keywords.map (fun t => toLowerCase (trim t))).map
          (trimLower toLowerCase) := by
        rw [hp]
        simp only [updatedPost, castData, updateData, hkeywords]
      rw [(normalized_list hidem htrim keywords).1] at hk
      exact ⟨hk, by rw [hk]; exact (normalized_list hidem htrim keywords).2⟩
    · rw [hs]
      exact mem_replacePost hmem hid.symm
    · intro hnone
      have ht : p.tags = existing.tags.map (trimLower toLowerCase) := by
        rw [hp]
        simp only [updatedPost, castData, updateData, hnone]
      refine ⟨ht, fun hreach => ?_⟩
      rw [ht]
      exact map_trimLower_eq_self
        ((tagsNormalized_of_reachable hidem htrim hreach) existing hmem).1
    · intro hnone
      have hk : p.keywords = existing.keywords.map (trimLower toLowerCase) := by
        rw [hp]
        simp only [updatedPost, castData, updateData, hnone]
      refine ⟨hk, fun hreach => ?_⟩
      rw [hk]
      exact map_trimLower_eq_self
        ((tagsNormalized_of_reachable hidem htrim hreach) existing hmem).2

/-- The tags of the post created from `taggedRequest`, after an update that
carries no tags, and after the update `retagUpdate`. -/
theorem tags_normalized_witness :
    create asciiLowerCase 2 [] taggedRequest 0 = some (.created taggedPost, [taggedPost]) ∧
      taggedPost.tags = [js "news", js "news"] ∧
      update asciiLowerCase [taggedPost] (js "hello-world")
          (simpleUpdate (js "Hello World") (js "0123456789")) 1 =
        (.ok taggedUpdated, [taggedUpdated]) ∧
      taggedUpdated.tags = taggedPost.tags ∧
      update asciiLowerCase [taggedPost] (js "hello-world") retagUpdate 1 =
        (.ok taggedRetagged, [taggedRetagged]) ∧
      taggedRetagged.tags = [js "lean", js "lean"] := by
  have hc : create asciiLowerCase 2 [] taggedRequest 0 =
      some (.created taggedPost, [taggedPost]) := by decide
  have hu : update asciiLowerCase [taggedPost] (js "hello-world")
      (simpleUpdate (js "Hello World") (js "0123456789")) 1 =
      (.ok taggedUpdated, [taggedUpdated]) := by decide
  have hr : update asciiLowerCase [taggedPost] (js "hello-world") retagUpdate 1 =
      (.ok taggedRetagged, [taggedRetagged]) := by decide
  have h := tags_normalized asciiLowerCase asciiLowerCase_idempotent trim_asciiLowerCase_trim
  have hh : handle asciiLowerCase 2 [] 0 (.create taggedRequest) =
      some (.created taggedPost, [taggedPost]) := hc
  have hreach : Reachable asciiLowerCase [taggedPost] := Reachable.step Reachable.empty hh
  have h1 := h.1 2 [] [taggedPost] taggedRequest 0 taggedPost hc
  obtain ⟨-, -, -, -, existing, hfind, -, -, htags, -⟩ :=
    h.2 [taggedPost] [taggedUpdated] (js "hello-world")
      (simpleUpdate (js "Hello World") (js "0123456789")) 1 taggedUpdated hu
  have hex : existing = taggedPost := by
    have hf : findBySlug asciiLowerCase [taggedPost] (js "hello-world") = some taggedPost := by
      decide
    rw [hf] at hfind
    exact (Option.some.inj hfind).symm
  subst hex
  have h3 := (h.2 [taggedPost] [taggedRetagged] (js "hello-world") retagUpdate 1
    taggedRetagged hr).1 [js " Lean ", js "lean"] rfl
  exact ⟨hc, h1.1.trans (by decide), hu, ((htags rfl).2 hreach), hr, h3.1.trans (by decide)⟩

/-- The claim C28 fails on the tags `["News ", "news"]`: the post is created
with the tags `["news", "news"]`, a list with a repeated element. -/
theorem create_keeps_duplicate_tags :
    (create asciiLowerCase 2 [] taggedRequest 0).map
        (fun r => (r.1.status, r.1.post?.map Post.tags)) =
        some (201, some [js "news", js "news"]) ∧
      ¬ [js "news", js "news"].Nodup := by
  refine ⟨by decide, by decide⟩

theorem matchesQuery_page (toLowerCase : JSString → JSString) (query : ListQuery)
    (page : Nat) (now : Nat) :
    matchesQuery toLowerCase { query with page := page } now =
      matchesQuery toLowerCase query now := rfl

theorem hasNext_iff (page total : Nat) {limit : Nat} (hlimit : 1 ≤ limit) :
    page < ceilDiv total limit ↔ page * limit < total := by
  rw [← not_iff_not, Nat.not_lt, Nat.not_lt, ceilDiv_le_iff _ _ hlimit]

/-- C29: for `page >= 1`, `limit >= 1` and `total` matching documents, the
pagination of the list response has `totalPages` equal to the ceiling of
`total / limit`, `hasPrevPage` true exactly when `page > 1`, and `hasNextPage`
true exactly when `page * limit < total`; the handler answers with that
pagination for the number of matching documents, and `page * limit` is below
that number exactly when the next page has a post. -/
theorem pagination_spec (toLowerCase : JSString → JSString) (before : Post → Post → Bool)
    (store : Store) (query : ListQuery) (now : Nat) (total : Nat)
    (hpage : 1 ≤ query.page) (hlimit : 1 ≤ query.limit) :
    (pagination query total).totalPages = some ⌈(total : ℚ) / (query.limit : ℚ)⌉₊ ∧
    ((pagination query total).hasPrevPage = true ↔ 1 < query.page) ∧
    ((pagination query total).hasNextPage = true ↔ query.page * query.limit < total) ∧
    (∃ posts, listResponse toLowerCase before store query now =
      some (posts, pagination query (countMatching toLowerCase store query now))) ∧
    (query.page * query.limit < countMatching toLowerCase store query now ↔
      ∃ next, listPosts toLowerCase before store { query with page := query.page + 1 } now =
        some next ∧ next ≠ []) := by
  have hl0 : query.limit ≠ 0 := by omega
  refine ⟨?_, ?_, ?_, ?_, ?_⟩
  · unfold pagination
    simp only [if_neg hl0]
    rw [ceilDiv_eq_ceil total hlimit]
  · unfold pagination
    simp
  · unfold pagination
    simp only [if_neg hl0, decide_eq_true_eq]
    exact hasNext_iff _ _ hlimit
  · unfold listResponse listPosts
    rw [if_neg (by omega)]
    exact ⟨_, rfl⟩
  · unfold listPosts countMatching
    simp only [matchesQuery_page]
    rw [if_neg (by simp)]
    simp only [if_neg hl0, Nat.add_sub_cancel]
    constructor
    · intro h
      refine ⟨_, rfl, ?_⟩
      intro hnil
      have hlen := congrArg List.length hnil
      rw [List.length_take, List.length_drop, (List.perm_insertionSort _ _).length_eq] at hlen
      simp only [List.length_nil] at hlen
      omega
    · rintro ⟨next, hnext, hne⟩
      simp only [Option.some.injEq] at hnext
      by_contra hlt
      apply hne
      rw [← hnext]
      apply List.eq_nil_of_length_eq_zero
      rw [List.length_take, List.length_drop, (List.perm_insertionSort _ _).length_eq]
      omega

/-- The pagination of the second page of ten among 25 matching documents. -/
theorem pagination_spec_witness :
    (pagination { firstPage with page := 2 } 25).totalPages = some 3 ∧
      (pagination { firstPage with page := 2 } 25).hasPrevPage = true ∧
      (pagination { firstPage with page := 2 } 25).hasNextPage = true :=
  have h := pagination_spec asciiLowerCase (fun a b => decide (b.createdAt ≤ a.createdAt)) []
    { firstPage with page := 2 } 0 25 (by decide) (by decide)
  ⟨by decide, h.2.1.2 (by decide), h.2.2.1.2 (by decide)⟩

/-! ## `publishedAt` is kept -/

theorem exists_id_replacePost (store : Store) (post : Post) {q₀ : Post} (h : q₀ ∈ store) :
    ∃ q ∈ replacePost store post, q.id = q₀.id := by
  unfold replacePost
  by_cases hid : q₀.id = post.id
  · exact ⟨post, List.mem_map.2 ⟨q₀, h, by rw [if_pos hid]⟩, hid.symm⟩
  · exact ⟨q₀, List.mem_map.2 ⟨q₀, h, by rw [if_neg hid]⟩, rfl⟩

theorem exists_id_saveExisting (store : Store) (post : Post) (now : Nat) {q₀ : Post}
    (h : q₀ ∈ store) : ∃ q ∈ (saveExisting store post now).2, q.id = q₀.id := by
  simp only [saveExisting]
  exact exists_id_replacePost store _ h

/-- No operation removes a document. -/
theorem perform_keeps_ids {toLowerCase : JSString → JSString} {fuel now : Nat}
    {store store' : Store} {op : Operation}
    (hstep : perform toLowerCase fuel store now op = some store') {q₀ : Post}
    (h : q₀ ∈ store) : ∃ q ∈ store', q.id = q₀.id := by
  cases op with
  | request request =>
    simp only [perform, Option.map_eq_some'] at hstep
    obtain ⟨⟨response, s⟩, hh, hs⟩ := hstep
    simp only at hs
    rw [← hs]
    cases request with
    | create req =>
      simp only [handle] at hh
      rcases create_cases hh with ⟨-, hs'⟩ | ⟨_, _, -, -, -, -, -, hs'⟩
      · rw [hs']; exact ⟨q₀, h, rfl⟩
      · rw [hs']; exact ⟨q₀, List.mem_append_left _ h, rfl⟩
    | update slug req =>
      simp only [handle, Option.some.injEq] at hh
      rcases update_result hh with ⟨-, hs'⟩ | ⟨_, _, -, -, -, -, -, hs'⟩
      · rw [hs']; exact ⟨q₀, h, rfl⟩
      · rw [hs']; exact exists_id_replacePost store _ h
    | view slug =>
      simp only [handle, Option.some.injEq, getPost] at hh
      split at hh
      · rw [← (Prod.mk.inj hh).2]; exact ⟨q₀, h, rfl⟩
      · rw [← (Prod.mk.inj hh).2]; exact exists_id_saveExisting store _ now h
    | delete slug =>
      simp only [handle, Option.some.injEq, deletePost] at hh
      split at hh
      · rw [← (Prod.mk.inj hh).2]; exact ⟨q₀, h, rfl⟩
      · rw [← (Prod.mk.inj hh).2]; exact exists_id_saveExisting store _ now h
  | incrementViews id =>
    simp only [perform] at hstep
    split at hstep
    · rw [← Option.some.inj hstep]; exact ⟨q₀, h, rfl⟩
    · rw [← Option.some.inj hstep]; exact exists_id_saveExisting store _ now h
  | softDelete id =>
    simp only [perform] at hstep
    split at hstep
    · rw [← Option.some.inj hstep]; exact ⟨q₀, h, rfl⟩
    · rw [← Option.some.inj hstep]; exact exists_id_saveExisting store _ now h
  | publish id =>
    simp only [perform] at hstep
    split at hstep
    · rw [← Option.some.inj hstep]; exact ⟨q₀, h, rfl⟩
    · rw [← Option.some.inj hstep]; exact exists_id_saveExisting store _ now h
  | unpublish id =>
    simp only [perform] at hstep
    split at hstep
    · rw [← Option.some.inj hstep]; exact ⟨q₀, h, rfl⟩
    · rw [← Option.some.inj hstep]; exact exists_id_saveExisting store _ now h

/-- C21: `publishedAt` is cleared only by `unpublish`. In a collection with
distinct identifiers and slugs, after any operation other than `unpublish`
(a create, update, view or delete request, `incrementViews`, `softDelete` or
`publish`), a document whose `publishedAt` was set is still stored and its
`publishedAt` is still set; the documents that `incrementViews`, `softDelete`
and `publish` return have it set as well. -/
theorem publishedAt_survives (toLowerCase : JSString → JSString) (store store' : Store)
    (hinv : StoreInv store) (fuel now : Nat) (op : Operation) (hop : NotUnpublish op)
    (hstep : perform toLowerCase fuel store now op = some store')
    (q₀ : Post) (hq₀ : q₀ ∈ store) (hset : q₀.publishedAt ≠ none) :
    (∃ q ∈ store', q.id = q₀.id) ∧
    (∀ q ∈ store', q.id = q₀.id → q.publishedAt ≠ none) ∧
    (incrementViews store q₀ now).1.publishedAt ≠ none ∧
    (softDelete store q₀ now).1.publishedAt ≠ none ∧
    (publish store q₀ now).1.publishedAt ≠ none := by
  refine ⟨perform_keeps_ids hstep hq₀, ?_, hset, hset, by simp [publish, saveExisting]⟩
  intro q hq hid
  have hev := perform_evolves True hinv (fun _ => hop) hstep
  rcases hev.2 q hq with ⟨q₁, hq₁, ht, hkeep⟩ | ⟨hfresh, -⟩
  · have : q₁ = q₀ := hinv.id_injective hq₁ hq₀ (by rw [← ht.1, hid])
    rw [this] at hkeep
    exact hkeep trivial hset
  · have := hinv.2.2 q₀ hq₀
    omega

/-- The published post of `publishedRequest`, viewed and then set to draft by
an update at time 2, keeps its `publishedAt`. -/
theorem publishedAt_survives_witness :
    StoreInv publishedViewed ∧
      (update asciiLowerCase publishedViewed (js "hello-world")
        (statusUpdate (js "draft")) 2).2 = draftAgain ∧
      draftAgain.map Post.status = [.draft] ∧
      ∀ q ∈ draftAgain, q.publishedAt ≠ none :=
  have hinv : StoreInv publishedViewed := ⟨by decide, by decide, by decide⟩
  have h := publishedAt_survives asciiLowerCase publishedViewed draftAgain
    hinv 2 2 (.request (.update (js "hello-world") (statusUpdate (js "draft"))))
    (fun id hne => by cases hne) (by decide)
    { newPost 0 (castData asciiLowerCase
        (createData asciiLowerCase publishedRequest (js "hello-world") 0)) .published 0 with
      viewCount := 1, updatedAt := 1 }
    (by simp [publishedViewed]) (by decide)
  ⟨hinv, by decide, by decide, fun q hq => h.2.1 q hq (by
    have hid : ∀ q ∈ draftAgain, q.id = 0 := by decide
    exact hid q hq)⟩

end Blog
